import Mathlib

/-!
# Recursive partial-correlation engine (afni_pcor.c), image thresholding (mri_thresh.c)
and two option parsers (3drefit.c, 1dREMLfit.c)

A shallow embedding of `src/src/afni_pcor.c`, of `src/src/mri_thresh.c`, of the
`-orient` block of `src/src/3drefit.c` and of `main` of `src/src/1dREMLfit.c`
up to its call of `REML_setup`.

* C `float`/`double` values are elements of an ordered field `K`; the square
  root of `math.h` is a parameter `sqrt : K → K`.  The theorems instantiate
  `K := ℝ` and `sqrt := Real.sqrt` (exact real arithmetic); the definitions
  themselves are computable for any computable field.
* `PCOR_get_mcor` and `PCOR_get_pcor_and_coef` are embedded a second time in
  the arithmetic of the program (IEEE 754 `float` and `double`, section
  "Floating-point arithmetic"), to evaluate them exactly as the program does.
* C `int` values are `Int`; loop counters that only run upwards from `0`
  are `Nat`.
* Heap arrays are `List`s.  Reading outside an array yields `0` and writing
  outside an array does nothing (both are undefined behaviour in C and are
  excluded by the shape hypotheses of the theorems).
* `malloc` never fails; the arbitrary contents of fresh storage are given by
  a parameter `junk : Nat → K`.
* Division is the total division of the field (`x / 0 = 0`), where C yields
  an infinity or a NaN; counter-examples and evaluations never divide by `0`.
* The header `afni_pcor.h` is not among the sources: its macros `RCH`, `VCH`
  are modelled from the allocations in `afni_pcor.c`, and its constant
  `REF_EPS` is a parameter.  The routine that updates the voxel rows is not
  among the sources either: it is modelled from section 4.2 of the
  specification.
* `exit(1)` and messages on `stderr` are recorded in an `Outcome`.
* C strings are lists of characters (`3drefit`) or `String`s (`1dREMLfit`);
  the library routines the two programs call are parameters.
* The numbers of `1dREMLfit` are IEEE 754 values: `strtod` returns a `double`,
  the conversion `(int)` is `C_int_cast` (truncation, undefined outside the
  32-bit `int`), and `rhomax` has the format `MTYPE`.
* The voxel update is embedded in two readings of its last statement,
  `lastRow[v][nref] += z²` (section 4.2 of the specification) and
  `lastRow[v][nref] += betasq·z²` (with the scalar `betasq` that
  `update_PCOR_references` saves for it).
-/

namespace AfniPcor

/-! ## Outcomes -/

/-- Messages the routines print on `stderr`, one constructor per `fprintf`. -/
inductive Diag where
  | new_references_numref
  | new_voxel_corr_numvox
  | get_pcor_size_mismatch
  | get_mcor_size_mismatch
  | get_mcor_m_nref
  | get_coef_size_mismatch
  | get_variance_not_enough_data
  | get_lsqfit_size_mismatch
  | get_lsqfit_no_output
  | get_pcor_and_coef_size_mismatch
  deriving DecidableEq, Repr

/-- Result of a call of a `void` routine: either the process was ended by
`exit(1)` after printing `d`, or the routine returned to its caller, having
printed `log` and left `val` in the storage it may write. -/
inductive Outcome (α : Type) where
  | exited (d : Diag) : Outcome α
  | returned (log : List Diag) (val : α) : Outcome α

/-- The taxonomy of errors of section 7 of the specification. -/
inductive ErrorKind where
  | InvalidArgument
  | DimensionMismatch
  | InsufficientData
  deriving DecidableEq, Repr

/-- Classification of each diagnostic in the taxonomy of the specification. -/
def Diag.kind : Diag → ErrorKind
  | .new_references_numref => .InvalidArgument
  | .new_voxel_corr_numvox => .InvalidArgument
  | .get_pcor_size_mismatch => .DimensionMismatch
  | .get_mcor_size_mismatch => .DimensionMismatch
  | .get_mcor_m_nref => .InvalidArgument
  | .get_coef_size_mismatch => .DimensionMismatch
  | .get_variance_not_enough_data => .InsufficientData
  | .get_lsqfit_size_mismatch => .DimensionMismatch
  | .get_lsqfit_no_output => .InvalidArgument
  | .get_pcor_and_coef_size_mismatch => .DimensionMismatch

/-! ## Data model -/

/-- The C struct `PCOR_references`. -/
structure PCOR_references (K : Type) where
  nref : Int
  chol : List (List K)
  alp : List K
  ff : List K
  gg : List K
  betasq : K
  nupdate : Int

/-- The C struct `PCOR_voxel_corr`; `chrow` is one flat array of
`nvox*(nref+1)` values. -/
structure PCOR_voxel_corr (K : Type) where
  nvox : Int
  nref : Int
  chrow : List K
  nupdate : Int

/-- The function-static storage of `update_PCOR_references`
(`static float * zz` and `static int zz_size`); `NULL` is the empty list. -/
structure PCOR_scratch (K : Type) where
  zz : List K
  zz_size : Int

section Defs

variable {K : Type} [LinearOrderedField K]

/-- Initial value of the static storage: `zz = NULL`, `zz_size = -1`. -/
def PCOR_scratch.init : PCOR_scratch K := { zz := [], zz_size := -1 }

/-- A successful `malloc` of `n` values, with arbitrary contents `junk`. -/
def malloc (junk : Nat → K) (n : Int) : List K := (List.range n.toNat).map junk

/-- Entry `(i, j)` of a ragged array of rows. -/
def rget (chol : List (List K)) (i j : Nat) : K := (chol.getD i []).getD j 0

/-- Assignment to entry `(i, j)` of a ragged array of rows. -/
def rset (chol : List (List K)) (i j : Nat) (v : K) : List (List K) :=
  chol.set i ((chol.getD i []).set j v)

/-- Modelled from the spec: the macro `RCH(rr,ii,jj)` of `afni_pcor.h` (not
under `src/`), the entry `cholesky[ii][jj]` of the triangular storage, row
`ii` holding `ii+1` entries (`rr->chol[ii][jj]`, as allocated in
`new_PCOR_references`). -/
def RCH (ref : PCOR_references K) (ii jj : Int) : K :=
  if 0 ≤ ii ∧ 0 ≤ jj then rget ref.chol ii.toNat jj.toNat else 0

/-- The assignment `RCH(ref,ii,jj) = v`. -/
def setRCH (ref : PCOR_references K) (ii jj : Int) (v : K) : PCOR_references K :=
  if 0 ≤ ii ∧ 0 ≤ jj then { ref with chol := rset ref.chol ii.toNat jj.toNat v } else ref

/-- Index in `chrow` of entry `jj` of voxel `iv`. -/
def VCHidx (vc : PCOR_voxel_corr K) (iv jj : Int) : Int := jj + iv * (vc.nref + 1)

/-- Modelled from the spec: the macro `VCH(vv,iv,jj)` of `afni_pcor.h` (not
under `src/`), entry `jj` of the `nref+1` values `lastRow` of voxel `iv`,
stored in the flat array allocated in `new_PCOR_voxel_corr`
(`vv->chrow[jj + iv*(vv->nref+1)]`). -/
def VCH (vc : PCOR_voxel_corr K) (iv jj : Int) : K :=
  if 0 ≤ VCHidx vc iv jj then vc.chrow.getD (VCHidx vc iv jj).toNat 0 else 0

/-- The assignment `VCH(vc,iv,jj) = v`. -/
def setVCH (vc : PCOR_voxel_corr K) (iv jj : Int) (v : K) : PCOR_voxel_corr K :=
  if 0 ≤ VCHidx vc iv jj then
    { vc with chrow := vc.chrow.set (VCHidx vc iv jj).toNat v }
  else vc

/-- Modelled from the spec: the macro `SQR(x)` of `mrilib.h` (not under `src/`),
the square `x*x` (`lastRow[nr-1]²` in section 4.3). -/
def SQR (x : K) : K := x * x

/-- The constant `DENEPS`, `1.e-5`. -/
def DENEPS : K := 1 / 100000

/-! ## Construction -/

/-- Body of the initialisation loop of `new_PCOR_references` for row `ii`:
zero below the diagonal, `REF_EPS` on it. -/
def new_PCOR_references_row (REF_EPS : K) (ref : PCOR_references K) (ii : Nat) :
    PCOR_references K :=
  setRCH ((List.range ii).foldl (fun r (jj : Nat) => setRCH r ii jj 0) ref) ii ii REF_EPS

/-- The function `new_PCOR_references`; `none` is the `NULL` result.  The
constant `REF_EPS` of `afni_pcor.h` is a parameter. -/
def new_PCOR_references (REF_EPS : K) (junk : Nat → K) (numref : Int) :
    Option (PCOR_references K) :=
  if numref < 1 then none
  else
    let ref : PCOR_references K :=
      { nref := numref
        nupdate := 0
        chol := (List.range numref.toNat).map (fun (ii : Nat) => malloc junk ((ii : Int) + 1))
        alp := malloc junk numref
        ff := malloc junk numref
        gg := malloc junk numref
        betasq := junk 0 }
    some ((List.range numref.toNat).foldl (new_PCOR_references_row REF_EPS) ref)

/-- Body of the initialisation loop of `new_PCOR_voxel_corr` for one voxel. -/
def new_PCOR_voxel_corr_row (REF_EPS : K) (numref : Int) (vc : PCOR_voxel_corr K)
    (vox : Nat) : PCOR_voxel_corr K :=
  setVCH ((List.range numref.toNat).foldl (fun v (jj : Nat) => setVCH v vox jj 0) vc)
    vox numref REF_EPS

/-- The function `new_PCOR_voxel_corr`; `none` is the `NULL` result. -/
def new_PCOR_voxel_corr (REF_EPS : K) (junk : Nat → K) (numvox numref : Int) :
    Option (PCOR_voxel_corr K) :=
  if numvox < 1 then none
  else
    let vc : PCOR_voxel_corr K :=
      { nvox := numvox
        nref := numref
        nupdate := 0
        chrow := malloc junk (numvox * (numref + 1)) }
    some ((List.range numvox.toNat).foldl (new_PCOR_voxel_corr_row REF_EPS numref) vc)

/-! ## The Carlson update of the reference factor -/

/-- Body of the inner loop of `update_PCOR_references` (row `kk`, column `jj`). -/
def update_inner (aaa fff ggg : K) (jj : Nat) (s : List K × PCOR_references K)
    (kk : Nat) : List K × PCOR_references K :=
  let zz := s.1.set kk (s.1.getD kk 0 - aaa * RCH s.2 kk jj)
  (zz, setRCH s.2 kk jj (fff * RCH s.2 kk jj + ggg * zz.getD kk 0))

/-- Body of the outer loop of `update_PCOR_references` (column `jj`); the
state is `(bold, zz, ref)`. -/
def update_outer (sqrt : K → K) (nr : Nat) (s : K × List K × PCOR_references K)
    (jj : Nat) : K × List K × PCOR_references K :=
  let bold := s.1
  let zz := s.2.1
  let ref := s.2.2
  let aaa := zz.getD jj 0 / RCH ref jj jj
  let bnew := sqrt (bold * bold + aaa * aaa)
  let fff := bnew / bold
  let ggg := aaa / (bnew * bold)
  let ref1 : PCOR_references K :=
    { ref with alp := ref.alp.set jj aaa, ff := ref.ff.set jj fff, gg := ref.gg.set jj ggg }
  let r := (List.range' jj (nr - jj)).foldl (update_inner aaa fff ggg jj) (zz, ref1)
  (bnew, r.1, r.2)

/-- The function `update_PCOR_references`, returning the updated reference
state and the updated static storage. -/
def update_PCOR_references (sqrt : K → K) (junk : Nat → K) (vec : List K)
    (ref : PCOR_references K) (st : PCOR_scratch K) :
    PCOR_references K × PCOR_scratch K :=
  let nr := ref.nref
  let st1 : PCOR_scratch K :=
    if st.zz_size < nr then { zz := malloc junk nr, zz_size := nr } else st
  let zz0 := (List.range nr.toNat).foldl (fun zz (jj : Nat) => zz.set jj (vec.getD jj 0)) st1.zz
  let r := (List.range nr.toNat).foldl (update_outer sqrt nr.toNat) (1, zz0, ref)
  ({ r.2.2 with betasq := 1 / (r.1 * r.1), nupdate := r.2.2.nupdate + 1 },
   { zz := r.2.1, zz_size := st1.zz_size })

/-- Absorb a sequence of reference vectors, one `update_PCOR_references`
call per vector, threading the static storage. -/
def absorb_references (sqrt : K → K) (junk : Nat → K) :
    List (List K) → PCOR_references K × PCOR_scratch K → PCOR_references K × PCOR_scratch K
  | [], s => s
  | vec :: vecs, s =>
      absorb_references sqrt junk vecs (update_PCOR_references sqrt junk vec s.1 s.2)

/-! ## Extraction of statistics -/

/-- Value assigned to `pcor[vox]` in the loop of `PCOR_get_pcor`. -/
def PCOR_get_pcor_voxel (sqrt : K → K) (vc : PCOR_voxel_corr K) (vox : Nat) : K :=
  let nr := vc.nref
  let den := VCH vc vox nr
  if den > DENEPS then VCH vc vox (nr - 1) / sqrt (den + SQR (VCH vc vox (nr - 1)))
  else 0

/-- The function `PCOR_get_pcor`; `pcor` is the caller's output array. -/
def PCOR_get_pcor (sqrt : K → K) (ref : PCOR_references K) (vc : PCOR_voxel_corr K)
    (pcor : List K) : Outcome (List K) :=
  if vc.nref ≠ ref.nref then .exited .get_pcor_size_mismatch
  else
    .returned [] ((List.range vc.nvox.toNat).foldl
      (fun out vox => out.set vox (PCOR_get_pcor_voxel sqrt vc vox)) pcor)

/-- The generic loop of the `default:` case of `PCOR_get_mcor`. -/
def PCOR_get_mcor_loop (vc : PCOR_voxel_corr K) (vox : Nat) (m : Int) (den : K) : K :=
  (List.range' 1 m.toNat).foldl
    (fun d (ii : Nat) => d + SQR (VCH vc vox (vc.nref - (ii : Int)))) den

/-- The `switch(m)` of `PCOR_get_mcor`: `den` after it. -/
def PCOR_get_mcor_den (vc : PCOR_voxel_corr K) (vox : Nat) (m : Int) : K :=
  let nr := vc.nref
  let den := VCH vc vox nr
  if m = 1 then den + SQR (VCH vc vox (nr - 1))
  else if m = 2 then den + (SQR (VCH vc vox (nr - 1)) + SQR (VCH vc vox (nr - 2)))
  else if m = 3 then
    den + (SQR (VCH vc vox (nr - 1)) + SQR (VCH vc vox (nr - 2)) + SQR (VCH vc vox (nr - 3)))
  else if m = 4 then
    den + (SQR (VCH vc vox (nr - 1)) + SQR (VCH vc vox (nr - 2)) + SQR (VCH vc vox (nr - 3))
            + SQR (VCH vc vox (nr - 4)))
  else PCOR_get_mcor_loop vc vox m den

/-- Value assigned to `pcor[vox]` in the loop of `PCOR_get_mcor`. -/
def PCOR_get_mcor_voxel (sqrt : K → K) (vc : PCOR_voxel_corr K) (m : Int) (vox : Nat) : K :=
  let den := 1 - VCH vc vox vc.nref / PCOR_get_mcor_den vc vox m
  if den > 0 then sqrt den else 0

/-- The function `PCOR_get_mcor`. -/
def PCOR_get_mcor (sqrt : K → K) (ref : PCOR_references K) (vc : PCOR_voxel_corr K)
    (m : Int) (pcor : List K) : Outcome (List K) :=
  if vc.nref ≠ ref.nref then .exited .get_mcor_size_mismatch
  else if m ≥ vc.nref then .exited .get_mcor_m_nref
  else
    .returned [] ((List.range vc.nvox.toNat).foldl
      (fun out vox => out.set vox (PCOR_get_mcor_voxel sqrt vc m vox)) pcor)

/-- Value assigned to `coef[vox]` in the loop of `PCOR_get_coef`. -/
def PCOR_get_coef_voxel (ref : PCOR_references K) (vc : PCOR_voxel_corr K) (vox : Nat) : K :=
  let nr := vc.nref
  let scale := 1 / RCH ref (nr - 1) (nr - 1)
  scale * VCH vc vox (nr - 1)

/-- The function `PCOR_get_coef`. -/
def PCOR_get_coef (ref : PCOR_references K) (vc : PCOR_voxel_corr K) (coef : List K) :
    Outcome (List K) :=
  if vc.nref ≠ ref.nref then .exited .get_coef_size_mismatch
  else
    .returned [] ((List.range vc.nvox.toNat).foldl
      (fun out vox => out.set vox (PCOR_get_coef_voxel ref vc vox)) coef)

/-- The function `PCOR_get_variance`. -/
def PCOR_get_variance (vc : PCOR_voxel_corr K) (var : List K) : Outcome (List K) :=
  let nr := vc.nref
  let nup := vc.nupdate
  if nup ≤ nr then
    .returned [.get_variance_not_enough_data]
      ((List.range vc.nvox.toNat).foldl (fun out vox => out.set vox 0) var)
  else
    let scale : K := 1 / ((nup - nr : Int) : K)
    .returned [] ((List.range vc.nvox.toNat).foldl
      (fun out vox => out.set vox (scale * VCH vc vox nr)) var)

/-- The loop `for( kk=jj+1 ; kk < nr ; kk++ ) sum -= ff[kk] * RCH(ref,kk,jj)`
of `PCOR_get_lsqfit`. -/
def PCOR_get_lsqfit_sum (ref : PCOR_references K) (ff : List K) (nr jj : Nat) (sum : K) : K :=
  (List.range' (jj + 1) (nr - (jj + 1))).foldl
    (fun s (kk : Nat) => s - ff.getD kk 0 * RCH ref kk jj) sum

/-- The backward loop `for( jj=nr-1 ; jj >=0 ; jj-- )` of `PCOR_get_lsqfit`
for voxel `vox`: the workspace `ff` after it. -/
def PCOR_get_lsqfit_backsub (ref : PCOR_references K) (vc : PCOR_voxel_corr K)
    (vox nr : Nat) (ff : List K) : List K :=
  (List.range nr).reverse.foldl
    (fun w (jj : Nat) => w.set jj (PCOR_get_lsqfit_sum ref w nr jj (VCH vc vox jj) / RCH ref jj jj)) ff

/-- The loop `if( fit[jj] != NULL ) fit[jj][vox] = ff[jj]` of `PCOR_get_lsqfit`. -/
def PCOR_get_lsqfit_store (ff : List K) (vox nr : Nat) (fit : List (Option (List K))) :
    List (Option (List K)) :=
  (List.range nr).foldl
    (fun o jj =>
      match o.getD jj none with
      | some col => o.set jj (some (col.set vox (ff.getD jj 0)))
      | none => o) fit

/-- The count `kk` of requested columns (`fit[jj] != NULL`) in `PCOR_get_lsqfit`. -/
def PCOR_get_lsqfit_count (nr : Nat) (fit : List (Option (List K))) : Int :=
  (List.range nr).foldl
    (fun kk jj => kk + (if (fit.getD jj none).isSome then 1 else 0)) 0

/-- Body of the voxel loop of `PCOR_get_lsqfit`; the state is the workspace
`ff` and the caller's `fit`. -/
def PCOR_get_lsqfit_voxel (ref : PCOR_references K) (vc : PCOR_voxel_corr K) (nr : Nat)
    (s : List K × List (Option (List K))) (vox : Nat) : List K × List (Option (List K)) :=
  let w := PCOR_get_lsqfit_backsub ref vc vox nr s.1
  (w, PCOR_get_lsqfit_store w vox nr s.2)

/-- The workspace `ff` and the storage `fit` of `PCOR_get_lsqfit` after the
first `n` iterations of its voxel loop; `ff` starts as fresh storage. -/
def PCOR_get_lsqfit_loop (junk : Nat → K) (ref : PCOR_references K) (vc : PCOR_voxel_corr K)
    (fit : List (Option (List K))) (n : Nat) : List K × List (Option (List K)) :=
  (List.range n).foldl (PCOR_get_lsqfit_voxel ref vc vc.nref.toNat) (malloc junk vc.nref, fit)

/-- The function `PCOR_get_lsqfit`; `fit` is the caller's array of `nref`
pointers, `none` for `NULL`, and the workspace `ff` starts with the
arbitrary contents of fresh storage. -/
def PCOR_get_lsqfit (junk : Nat → K) (ref : PCOR_references K) (vc : PCOR_voxel_corr K)
    (fit : List (Option (List K))) : Outcome (List (Option (List K))) :=
  if vc.nref ≠ ref.nref then .exited .get_lsqfit_size_mismatch
  else
    let nr := vc.nref.toNat
    if PCOR_get_lsqfit_count nr fit = 0 then .returned [.get_lsqfit_no_output] fit
    else
      .returned [] (PCOR_get_lsqfit_loop junk ref vc fit vc.nvox.toNat).2

/-- Values assigned to `(pcor[vox], coef[vox])` in `PCOR_get_pcor_and_coef`. -/
def PCOR_get_pcor_and_coef_voxel (sqrt : K → K) (ref : PCOR_references K)
    (vc : PCOR_voxel_corr K) (pcthresh : K) (vox : Nat) : K × K :=
  let nr := vc.nref
  let scale := 1 / RCH ref (nr - 1) (nr - 1)
  let den := VCH vc vox nr
  let num := VCH vc vox (nr - 1)
  if pcthresh ≤ 0 then (num / sqrt (den + SQR num), scale * num)
  else
    let thfac := SQR pcthresh / (1 - SQR pcthresh)
    if SQR num > thfac * den then (num / sqrt (den + SQR num), scale * num)
    else (0, 0)

/-- The function `PCOR_get_pcor_and_coef`; the result holds the arrays
`pcor` and `coef`. -/
def PCOR_get_pcor_and_coef (sqrt : K → K) (ref : PCOR_references K)
    (vc : PCOR_voxel_corr K) (pcthresh : K) (pcor coef : List K) :
    Outcome (List K × List K) :=
  if vc.nref ≠ ref.nref then .exited .get_pcor_and_coef_size_mismatch
  else
    .returned [] ((List.range vc.nvox.toNat).foldl
      (fun (o : List K × List K) vox =>
        let pc := PCOR_get_pcor_and_coef_voxel sqrt ref vc pcthresh vox
        (o.1.set vox pc.1, o.2.set vox pc.2)) (pcor, coef))

end Defs

/-! ## Definitions used to state the properties -/

section StateDefs

variable {K : Type} [LinearOrderedField K]

/-- A reference state with two reference vectors and identity factor. -/
def ex_ref : PCOR_references K :=
  { nref := 2, chol := [[1], [0, 1]], alp := [0, 0], ff := [1, 1], gg := [0, 0],
    betasq := 1, nupdate := 0 }

/-- A voxel state with one voxel, two reference vectors and last row `[a, b, c]`. -/
def ex_vc (a b c : K) : PCOR_voxel_corr K :=
  { nvox := 1, nref := 2, chrow := [a, b, c], nupdate := 0 }

/-- Invariant of the initialisation loop of `new_PCOR_references`. -/
def FreshInv (eps : K) (r0 : PCOR_references K) (m : Nat) (t : PCOR_references K) : Prop :=
  t = { r0 with chol := t.chol } ∧ t.chol.length = r0.chol.length ∧
  (∀ k, (t.chol.getD k []).length = (r0.chol.getD k []).length) ∧
  (∀ k c, k < m → c ≤ k → rget t.chol k c = if c = k then eps else 0)

end StateDefs

/-- Invariant of the backward loop of `PCOR_get_lsqfit`: the equations of
the rows `n ≤ j < nr` hold for the workspace `w`. -/
def backsub_inv {K : Type} [LinearOrderedField K] (ref : PCOR_references K)
    (vc : PCOR_voxel_corr K) (vox nr n : Nat) (w : List K) : Prop :=
  nr ≤ w.length ∧
  ∀ j, n ≤ j → j < nr → ∑ k ∈ Finset.Ico j nr, w.getD k 0 * RCH ref k j = VCH vc vox j

/-- Shape of the state `update_PCOR_references` starts from: `n` rows, row
`i` of `i+1` entries, a positive diagonal, and room for `n` values in the
copy `z0` of the vector and in `alp`, `ff`, `gg`. -/
structure UpdHyp (n : Nat) (z0 : List ℝ) (r0 : PCOR_references ℝ) : Prop where
  z0_len : n ≤ z0.length
  chol_len : r0.chol.length = n
  row_len : ∀ i, i < n → (r0.chol.getD i []).length = i + 1
  alp_len : n ≤ r0.alp.length
  ff_len : n ≤ r0.ff.length
  gg_len : n ≤ r0.gg.length
  diag_pos : ∀ i, i < n → 0 < rget r0.chol i i

/-- Invariant of the outer loop of `update_PCOR_references` before column
`j`, for the loop state `s = (bold, zz, ref)` started from `(1, z0, r0)`. -/
structure UpdInv (n : Nat) (z0 : List ℝ) (r0 : PCOR_references ℝ) (j : Nat)
    (s : ℝ × List ℝ × PCOR_references ℝ) : Prop where
  nref_eq : s.2.2.nref = r0.nref
  betasq_eq : s.2.2.betasq = r0.betasq
  nupdate_eq : s.2.2.nupdate = r0.nupdate
  z_len : s.2.1.length = z0.length
  chol_len : s.2.2.chol.length = r0.chol.length
  row_len : ∀ k, (s.2.2.chol.getD k []).length = (r0.chol.getD k []).length
  alp_len : s.2.2.alp.length = r0.alp.length
  ff_len : s.2.2.ff.length = r0.ff.length
  gg_len : s.2.2.gg.length = r0.gg.length
  b_ge : 1 ≤ s.1
  z_zero : ∀ k, k < j → s.2.1.getD k 0 = 0
  col_same : ∀ k c, j ≤ c → rget s.2.2.chol k c = rget r0.chol k c
  gram : ∀ k l, k < n → l < n →
    (∑ c ∈ Finset.range (min k l + 1), rget s.2.2.chol k c * rget s.2.2.chol l c)
      + s.2.1.getD k 0 * s.2.1.getD l 0 / (s.1 * s.1)
    = (∑ c ∈ Finset.range (min k l + 1), rget r0.chol k c * rget r0.chol l c)
      + z0.getD k 0 * z0.getD l 0
  diag : ∀ i, i < j →
    1 ≤ s.2.2.ff.getD i 0 ∧ rget s.2.2.chol i i = s.2.2.ff.getD i 0 * rget r0.chol i i
  bsq : s.1 * s.1 = 1 + ∑ i ∈ Finset.range j, s.2.2.alp.getD i 0 ^ 2

/-- Shape of a reference state as `new_PCOR_references` builds it and
`update_PCOR_references` keeps it: `nref ≥ 1`, `nref` rows, row `i` of `i+1`
entries, and `nref` entries in each of `alp`, `ff`, `gg`. -/
def PCOR_references.shaped {K : Type} (ref : PCOR_references K) : Prop :=
  1 ≤ ref.nref ∧ ref.chol.length = ref.nref.toNat ∧
  (∀ i, i < ref.nref.toNat → (ref.chol.getD i []).length = i + 1) ∧
  ref.alp.length = ref.nref.toNat ∧ ref.ff.length = ref.nref.toNat ∧
  ref.gg.length = ref.nref.toNat

/-- Consistency of the static storage: `zz` holds `zz_size` values (none
when `zz_size` is `-1`). -/
def PCOR_scratch.ok {K : Type} (st : PCOR_scratch K) : Prop :=
  st.zz.length = st.zz_size.toNat

/-- The entry `(k, l)` of the product `L·Lᵀ` of the triangular factor `chol`
with its transpose. -/
def LLt {K : Type} [LinearOrderedField K] (ref : PCOR_references K) (k l : Nat) : K :=
  ∑ c ∈ Finset.range (min k l + 1), RCH ref k c * RCH ref l c

/-- The state `new_PCOR_references` returns for `numref = 1`, `REF_EPS = 1`
and zero-filled fresh storage. -/
def ex_fresh {K : Type} [LinearOrderedField K] : PCOR_references K :=
  { nref := 1, chol := [[1]], alp := [0], ff := [0], gg := [0], betasq := 0, nupdate := 0 }

/-! ## The update of the voxel rows -/

section VoxelUpdate

variable {K : Type} [LinearOrderedField K]

/-- Modelled from the spec: the body of the column loop of
`VoxelCorrelationState.update` (section 4.2; the routine itself is not under
`src/`), `z -= alpha[j]·lastRow[v][j]` followed by
`lastRow[v][j] = f[j]·lastRow[v][j] + g[j]·z`; the state is `(z, vc)`. -/
def update_PCOR_voxel_corr_column (ref : PCOR_references K) (vox : Nat)
    (s : K × PCOR_voxel_corr K) (j : Nat) : K × PCOR_voxel_corr K :=
  let z := s.1 - ref.alp.getD j 0 * VCH s.2 vox j
  (z, setVCH s.2 vox j (ref.ff.getD j 0 * VCH s.2 vox j + ref.gg.getD j 0 * z))

/-- Modelled from the spec: the update of one voxel in
`VoxelCorrelationState.update` (section 4.2; the routine itself is not under
`src/`): `z = voxelValues[v]`, the column loop for `j = 0..nref-1`, then
`lastRow[v][nref] += z²`. -/
def update_PCOR_voxel_corr_voxel (vdata : List K) (ref : PCOR_references K)
    (vc : PCOR_voxel_corr K) (vox : Nat) : PCOR_voxel_corr K :=
  let r := (List.range vc.nref.toNat).foldl (update_PCOR_voxel_corr_column ref vox)
    (vdata.getD vox 0, vc)
  setVCH r.2 vox vc.nref (VCH r.2 vox vc.nref + r.1 * r.1)

/-- Modelled from the spec: the operation `VoxelCorrelationState.update` of
section 4.2 (the routine, `update_PCOR_voxel_corr`, is not under `src/`): every
voxel is updated with the scalars `alpha`, `f`, `g` saved by the paired
reference update, then `updateCount` is incremented. -/
def update_PCOR_voxel_corr (vdata : List K) (ref : PCOR_references K)
    (vc : PCOR_voxel_corr K) : PCOR_voxel_corr K :=
  let r := (List.range vc.nvox.toNat).foldl (update_PCOR_voxel_corr_voxel vdata ref) vc
  { r with nupdate := r.nupdate + 1 }

/-- Absorb a sequence of time points, each a reference vector and the voxel
values: one `update_PCOR_references` call, then the voxel update with the
scalars it saved; the state is the reference state, the voxel state and the
static storage. -/
def absorb_pairs (sqrt : K → K) (junk : Nat → K) :
    List (List K × List K) → PCOR_references K × PCOR_voxel_corr K × PCOR_scratch K →
      PCOR_references K × PCOR_voxel_corr K × PCOR_scratch K
  | [], s => s
  | p :: ps, s =>
      absorb_pairs sqrt junk ps
        ((update_PCOR_references sqrt junk p.1 s.1 s.2.2).1,
         update_PCOR_voxel_corr p.2 (update_PCOR_references sqrt junk p.1 s.1 s.2.2).1 s.2.1,
         (update_PCOR_references sqrt junk p.1 s.1 s.2.2).2)

end VoxelUpdate

/-! ## The update of the voxel rows, with the residual weighted by `betasq` -/

section VoxelUpdateBetasq

variable {K : Type} [LinearOrderedField K]

end VoxelUpdateBetasq

section LsqfitDefs

variable {K : Type} [LinearOrderedField K]

/-- Entry `j` of the workspace after the backward loop of `PCOR_get_lsqfit`
for voxel `vox`, run on a zero-filled workspace: the value the code computes
for column `j` (the coefficient of the specification is `fitCoef`). -/
def PCOR_get_lsqfit_coef (ref : PCOR_references K) (vc : PCOR_voxel_corr K) (vox j : Nat) : K :=
  (PCOR_get_lsqfit_backsub ref vc vox vc.nref.toNat (List.replicate vc.nref.toNat 0)).getD j 0

/-- What a call left in the storage it may write, if it returned. -/
def Outcome.result {α : Type} : Outcome α → Option α
  | .exited _ => none
  | .returned _ val => some val

end LsqfitDefs

/-! ## Thresholding of an image (mri_thresh.c) -/

/-- Modelled from the spec: the data array of the struct `MRI_IMAGE` of
`mrilib.h` (not under `src/`, and not described by the specification), as
`mri_threshold` uses it: the member `kind` selects the type of the voxel
array that `MRI_BYTE_PTR`, `MRI_SHORT_PTR`, `MRI_INT_PTR`, `MRI_FLOAT_PTR`,
`MRI_DOUBLE_PTR` or `MRI_COMPLEX_PTR` returns; `other` stands for every other
value of `kind`. -/
inductive MRI_DATA (K : Type) where
  | byte (ar : List Nat) : MRI_DATA K
  | short (ar : List Int) : MRI_DATA K
  | int (ar : List Int) : MRI_DATA K
  | float (ar : List K) : MRI_DATA K
  | double (ar : List K) : MRI_DATA K
  | complex (ar : List (K × K)) : MRI_DATA K
  | other (kind : Int) (raw : List Nat) : MRI_DATA K

/-- Modelled from the spec: the struct `MRI_IMAGE` of `mrilib.h` (not under
`src/`, and not described by the specification), reduced to the members
`mri_threshold` uses: the voxel count `nvox` and the data with its `kind`. -/
structure MRI_IMAGE (K : Type) where
  nvox : Int
  im : MRI_DATA K

section Threshold

variable {K : Type} [LinearOrderedField K]

/-- The loop `for( ii=0 ; ii < npix ; ii++ ) if( thar[ii] > th1 && thar[ii] < th2 ) ar[ii] = 0`
of `mri_threshold`, for a threshold array `thar` with values of type `β` and
a data array `ar` with values of type `α`, whose zero is `zero`. -/
def mri_threshold_loop {α β : Type} [LT β] [DecidableRel (fun (a b : β) => a < b)]
    (th1 th2 : β) (thar : List β) (d : β) (zero : α) (npix : Int) (ar : List α) : List α :=
  (List.range npix.toNat).foldl
    (fun a (ii : Nat) =>
      if thar.getD ii d > th1 ∧ thar.getD ii d < th2 then a.set ii zero else a) ar

/-- The inner `switch( im->kind )` of `mri_threshold`: the data after the
loop of the case of its kind, unchanged in the `default:` case. -/
def mri_threshold_data {β : Type} [LT β] [DecidableRel (fun (a b : β) => a < b)]
    (th1 th2 : β) (thar : List β) (d : β) (npix : Int) : MRI_DATA K → MRI_DATA K
  | .byte ar => .byte (mri_threshold_loop th1 th2 thar d 0 npix ar)
  | .short ar => .short (mri_threshold_loop th1 th2 thar d 0 npix ar)
  | .int ar => .int (mri_threshold_loop th1 th2 thar d 0 npix ar)
  | .float ar => .float (mri_threshold_loop th1 th2 thar d 0 npix ar)
  | .double ar => .double (mri_threshold_loop th1 th2 thar d 0 npix ar)
  | .complex ar => .complex (mri_threshold_loop th1 th2 thar d (0, 0) npix ar)
  | .other kind raw => .other kind raw

/-- The function `mri_threshold`: the data image `im` after the call (`none`
for a `NULL` pointer).  `toShort` is the conversion `th1 = thbot` of a
`double` to a `short`; the conversion to `float` is exact. -/
def mri_threshold (toShort : K → Int) (thbot thtop : K)
    (thrim im : Option (MRI_IMAGE K)) : Option (MRI_IMAGE K) :=
  match thrim, im with
  | some t, some i =>
    if t.nvox ≠ i.nvox ∨ thbot ≥ thtop then some i
    else
      match t.im with
      | .short thar =>
        some { i with im := mri_threshold_data (toShort thbot) (toShort thtop) thar 0 i.nvox i.im }
      | .float thar =>
        some { i with im := mri_threshold_data thbot thtop thar 0 i.nvox i.im }
      | _ => some i
  | _, _ => im

/-- The data image is of a kind `mri_threshold` has a case for. -/
def MRI_DATA.supported : MRI_DATA K → Prop
  | .other _ _ => False
  | _ => True

/-- The threshold image is of kind `MRI_short` or `MRI_float`. -/
def MRI_DATA.short_or_float : MRI_DATA K → Prop
  | .short _ => True
  | .float _ => True
  | _ => False

end Threshold

section Scenario

variable {K : Type} [LinearOrderedField K]

end Scenario

/-- Two copies of the vector agree on the `n` values the update reads. -/
def zz_agree {K : Type} [LinearOrderedField K] (n : Nat) (z1 z2 : List K) : Prop :=
  n ≤ z1.length ∧ n ≤ z2.length ∧ ∀ k, k < n → z1.getD k 0 = z2.getD k 0

/-- Two voxels, of two voxel states with `nref = n`, hold the same row. -/
def same_row {K : Type} [LinearOrderedField K] (n : Nat) (vc1 vc2 : PCOR_voxel_corr K)
    (v1 v2 : Nat) : Prop :=
  vc1.nref = (n : Int) ∧ vc2.nref = (n : Int) ∧
  ∀ j : Nat, j ≤ n → VCH vc1 v1 j = VCH vc2 v2 j

/-- A voxel state with two voxels and two reference vectors; voxel `1` holds
the row `[a, b, c]`, voxel `0` the row `[9, 9, 9]`. -/
def ex_vc2 {K : Type} [LinearOrderedField K] (a b c : K) : PCOR_voxel_corr K :=
  { nvox := 2, nref := 2, chrow := [9, 9, 9, a, b, c], nupdate := 0 }

/-! ## The `-orient` option of `3drefit` -/

/-- Result of the `-orient` block of `main` of `3drefit.c`: `fatal_error str`
is the call `Syntax(str)`, which prints `*** Fatal error: str` and calls
`exit(1)`; `new_orient` is the normal end of the block (`new_orient = 1`)
with the three codes kept in `xxor`, `yyor`, `zzor`. -/
inductive Orient_result where
  | fatal_error (str : String) : Orient_result
  | new_orient (xxor yyor zzor : Int) : Orient_result
  deriving DecidableEq, Repr

/-- Modelled from the spec: the orientation type code of `3ddata.h` (not
under `src/`) for the letter `R`, the first of the codes `0..5`. -/
def ORI_R2L_TYPE : Int := 0

/-- Modelled from the spec: the orientation type code of `3ddata.h` for `L`. -/
def ORI_L2R_TYPE : Int := 1

/-- Modelled from the spec: the orientation type code of `3ddata.h` for `P`. -/
def ORI_P2A_TYPE : Int := 2

/-- Modelled from the spec: the orientation type code of `3ddata.h` for `A`. -/
def ORI_A2P_TYPE : Int := 3

/-- Modelled from the spec: the orientation type code of `3ddata.h` for `I`. -/
def ORI_I2S_TYPE : Int := 4

/-- Modelled from the spec: the orientation type code of `3ddata.h` for `S`. -/
def ORI_S2I_TYPE : Int := 5

/-- The macro `ORCODE(aa)` of `3drefit.c`; the constant `ILLEGAL_TYPE` of
`3ddata.h` (not under `src/`) is a parameter. -/
def ORCODE (ILLEGAL_TYPE : Int) (aa : Char) : Int :=
  if aa = 'R' then ORI_R2L_TYPE else if aa = 'L' then ORI_L2R_TYPE
  else if aa = 'P' then ORI_P2A_TYPE else if aa = 'A' then ORI_A2P_TYPE
  else if aa = 'I' then ORI_I2S_TYPE else if aa = 'S' then ORI_S2I_TYPE
  else ILLEGAL_TYPE

/-- The macro `OR3OK(x,y,z)` of `3drefit.c`; `Int.land` is the C operator `&`. -/
def OR3OK (x y z : Int) : Bool :=
  Int.land x 6 + Int.land y 6 + Int.land z 6 == 6

/-- The `-orient` block of `main` of `3drefit.c`.  A C string is the list of
its characters; `arg` is `argv[iarg+1]`, `none` when `iarg+1 >= argc`; and
`toupper` is `Char.toUpper` (the "C" locale).  The macro `MCW_strncpy` of the
AFNI headers (not under `src/`) is a parameter: `MCW_strncpy src 4` is the
string left in `orient_code[4]`. -/
def orient_option (MCW_strncpy : List Char → Nat → List Char) (ILLEGAL_TYPE : Int)
    (arg : Option (List Char)) : Orient_result :=
  match arg with
  | none => .fatal_error "need an argument after -orient!"
  | some a =>
    let orient_code := MCW_strncpy a 4
    if orient_code.length ≠ 3 then .fatal_error "Illegal -orient code"
    else
      let xxor := ORCODE ILLEGAL_TYPE (orient_code.getD 0 'A').toUpper
      let yyor := ORCODE ILLEGAL_TYPE (orient_code.getD 1 'A').toUpper
      let zzor := ORCODE ILLEGAL_TYPE (orient_code.getD 2 'A').toUpper
      if xxor < 0 ∨ yyor < 0 ∨ zzor < 0 ∨ OR3OK xxor yyor zzor = false then
        .fatal_error "Unusable -orient code!"
      else .new_orient xxor yyor zzor

/-- A letter of the pair `{p, q}`, in either case. -/
def letter_of_pair (p q : Char) (c : Char) : Prop := c.toUpper = p ∨ c.toUpper = q

instance (p q c : Char) : Decidable (letter_of_pair p q c) := by
  unfold letter_of_pair; infer_instance

/-- The codes the help text of `3drefit` asks for: three letters, one from
each of the pairs `{R,L}`, `{A,P}`, `{I,S}`, in any order and either case. -/
def one_from_each_pair (code : List Char) : Prop :=
  code.length = 3 ∧ (∃ c ∈ code, letter_of_pair 'R' 'L' c) ∧
  (∃ c ∈ code, letter_of_pair 'A' 'P' c) ∧ (∃ c ∈ code, letter_of_pair 'I' 'S' c)

instance (code : List Char) : Decidable (one_from_each_pair code) := by
  unfold one_from_each_pair; infer_instance

/-- Three letters, all of them from the pair `{A,P}`. -/
def three_from_AP (code : List Char) : Prop :=
  code.length = 3 ∧ ∀ c ∈ code, letter_of_pair 'A' 'P' c

instance (code : List Char) : Decidable (three_from_AP code) := by
  unfold three_from_AP; infer_instance

/-- A copy that keeps at most `n - 1` characters, as a `MCW_strncpy` into a
buffer of `n` characters can. -/
def copy_at_most (src : List Char) (n : Nat) : List Char := src.take (n - 1)

/-! ## Extraction with checked indices

The extraction routines once more, with every read of `chol` and of
`lastRow` going through an accessor that yields `none` when an index is
out of range; the arithmetic and the order of the loops are those of the
definitions above. -/

section Checked

variable {K : Type} [LinearOrderedField K]

/-- The read `RCH(ref,ii,jj)` with its indices checked: `none` unless
`0 ≤ jj ≤ ii < nref` and the entry is in the storage. -/
def RCH_checked (ref : PCOR_references K) (ii jj : Int) : Option K :=
  if 0 ≤ jj ∧ jj ≤ ii ∧ ii < ref.nref then
    (ref.chol[ii.toNat]?).bind (fun row => row[jj.toNat]?)
  else none

/-- The read `VCH(vc,iv,jj)` with its indices checked: `none` unless
`0 ≤ iv < nvox`, `0 ≤ jj ≤ nref`, `lo ≤ jj`, and the entry is in the storage;
`lo` is a lower bound the caller asks for. -/
def VCH_checked (vc : PCOR_voxel_corr K) (lo iv jj : Int) : Option K :=
  if 0 ≤ iv ∧ iv < vc.nvox ∧ 0 ≤ jj ∧ lo ≤ jj ∧ jj ≤ vc.nref then
    vc.chrow[(VCHidx vc iv jj).toNat]?
  else none

/-- Body of the voxel loop of `PCOR_get_pcor`, with checked reads. -/
def PCOR_get_pcor_voxel_checked (sqrt : K → K) (vc : PCOR_voxel_corr K) (vox : Nat) :
    Option K :=
  let nr := vc.nref
  (VCH_checked vc 0 vox nr).bind fun den =>
    if den > DENEPS then
      (VCH_checked vc 0 vox (nr - 1)).bind fun num =>
        (VCH_checked vc 0 vox (nr - 1)).bind fun num2 => some (num / sqrt (den + SQR num2))
    else some 0

/-- The function `PCOR_get_pcor`, with checked reads. -/
def PCOR_get_pcor_checked (sqrt : K → K) (ref : PCOR_references K) (vc : PCOR_voxel_corr K)
    (pcor : List K) : Option (Outcome (List K)) :=
  if vc.nref ≠ ref.nref then some (.exited .get_pcor_size_mismatch)
  else
    ((List.range vc.nvox.toNat).foldlM
      (fun out (vox : Nat) => (PCOR_get_pcor_voxel_checked sqrt vc vox).map (fun x => out.set vox x))
      pcor).map (Outcome.returned [])

/-- The generic loop of the `default:` case of `PCOR_get_mcor`, with checked
reads no lower than `lo`. -/
def PCOR_get_mcor_loop_checked (vc : PCOR_voxel_corr K) (lo : Int) (vox : Nat) (m : Int)
    (den : K) : Option K :=
  (List.range' 1 m.toNat).foldlM
    (fun d (ii : Nat) =>
      (VCH_checked vc lo vox (vc.nref - (ii : Int))).map (fun x => d + SQR x)) den

/-- The `switch(m)` of `PCOR_get_mcor`, with checked reads no lower than
`nref - max m 0`. -/
def PCOR_get_mcor_den_checked (vc : PCOR_voxel_corr K) (vox : Nat) (m : Int) : Option K :=
  let nr := vc.nref
  let lo := nr - max m 0
  (VCH_checked vc lo vox nr).bind fun den =>
    if m = 1 then (VCH_checked vc lo vox (nr - 1)).map fun a1 => den + SQR a1
    else if m = 2 then
      (VCH_checked vc lo vox (nr - 1)).bind fun a1 =>
        (VCH_checked vc lo vox (nr - 2)).map fun a2 => den + (SQR a1 + SQR a2)
    else if m = 3 then
      (VCH_checked vc lo vox (nr - 1)).bind fun a1 =>
        (VCH_checked vc lo vox (nr - 2)).bind fun a2 =>
          (VCH_checked vc lo vox (nr - 3)).map fun a3 => den + (SQR a1 + SQR a2 + SQR a3)
    else if m = 4 then
      (VCH_checked vc lo vox (nr - 1)).bind fun a1 =>
        (VCH_checked vc lo vox (nr - 2)).bind fun a2 =>
          (VCH_checked vc lo vox (nr - 3)).bind fun a3 =>
            (VCH_checked vc lo vox (nr - 4)).map fun a4 =>
              den + (SQR a1 + SQR a2 + SQR a3 + SQR a4)
    else PCOR_get_mcor_loop_checked vc lo vox m den

/-- Body of the voxel loop of `PCOR_get_mcor`, with checked reads. -/
def PCOR_get_mcor_voxel_checked (sqrt : K → K) (vc : PCOR_voxel_corr K) (m : Int) (vox : Nat) :
    Option K :=
  (PCOR_get_mcor_den_checked vc vox m).bind fun d =>
    (VCH_checked vc (vc.nref - max m 0) vox vc.nref).map fun e =>
      let den := 1 - e / d
      if den > 0 then sqrt den else 0

/-- The function `PCOR_get_mcor`, with checked reads. -/
def PCOR_get_mcor_checked (sqrt : K → K) (ref : PCOR_references K) (vc : PCOR_voxel_corr K)
    (m : Int) (pcor : List K) : Option (Outcome (List K)) :=
  if vc.nref ≠ ref.nref then some (.exited .get_mcor_size_mismatch)
  else if m ≥ vc.nref then some (.exited .get_mcor_m_nref)
  else
    ((List.range vc.nvox.toNat).foldlM
      (fun out (vox : Nat) => (PCOR_get_mcor_voxel_checked sqrt vc m vox).map (fun x => out.set vox x))
      pcor).map (Outcome.returned [])

/-- The function `PCOR_get_coef`, with checked reads. -/
def PCOR_get_coef_checked (ref : PCOR_references K) (vc : PCOR_voxel_corr K) (coef : List K) :
    Option (Outcome (List K)) :=
  if vc.nref ≠ ref.nref then some (.exited .get_coef_size_mismatch)
  else
    let nr := vc.nref
    (RCH_checked ref (nr - 1) (nr - 1)).bind fun r =>
      let scale := 1 / r
      ((List.range vc.nvox.toNat).foldlM
        (fun out (vox : Nat) => (VCH_checked vc 0 vox (nr - 1)).map (fun x => out.set vox (scale * x)))
        coef).map (Outcome.returned [])

/-- The function `PCOR_get_variance`, with checked reads. -/
def PCOR_get_variance_checked (vc : PCOR_voxel_corr K) (var : List K) :
    Option (Outcome (List K)) :=
  let nr := vc.nref
  let nup := vc.nupdate
  if nup ≤ nr then
    some (.returned [.get_variance_not_enough_data]
      ((List.range vc.nvox.toNat).foldl (fun out (vox : Nat) => out.set vox 0) var))
  else
    let scale : K := 1 / ((nup - nr : Int) : K)
    ((List.range vc.nvox.toNat).foldlM
      (fun out (vox : Nat) => (VCH_checked vc 0 vox nr).map (fun x => out.set vox (scale * x)))
      var).map (Outcome.returned [])

/-- The loop `for( kk=jj+1 ; kk < nr ; kk++ ) sum -= ff[kk] * RCH(ref,kk,jj)`
of `PCOR_get_lsqfit`, with checked reads. -/
def PCOR_get_lsqfit_sum_checked (ref : PCOR_references K) (ff : List K) (nr jj : Nat)
    (sum : K) : Option K :=
  (List.range' (jj + 1) (nr - (jj + 1))).foldlM
    (fun s (kk : Nat) => (RCH_checked ref kk jj).map (fun r => s - ff.getD kk 0 * r)) sum

/-- The backward loop of `PCOR_get_lsqfit` for voxel `vox`, with checked reads. -/
def PCOR_get_lsqfit_backsub_checked (ref : PCOR_references K) (vc : PCOR_voxel_corr K)
    (vox nr : Nat) (ff : List K) : Option (List K) :=
  (List.range nr).reverse.foldlM
    (fun w (jj : Nat) =>
      (VCH_checked vc 0 vox jj).bind fun v =>
        (PCOR_get_lsqfit_sum_checked ref w nr jj v).bind fun sum =>
          (RCH_checked ref jj jj).map fun r => w.set jj (sum / r)) ff

/-- Body of the voxel loop of `PCOR_get_lsqfit`, with checked reads. -/
def PCOR_get_lsqfit_voxel_checked (ref : PCOR_references K) (vc : PCOR_voxel_corr K) (nr : Nat)
    (s : List K × List (Option (List K))) (vox : Nat) :
    Option (List K × List (Option (List K))) :=
  (PCOR_get_lsqfit_backsub_checked ref vc vox nr s.1).map
    fun w => (w, PCOR_get_lsqfit_store w vox nr s.2)

/-- The function `PCOR_get_lsqfit`, with checked reads. -/
def PCOR_get_lsqfit_checked (junk : Nat → K) (ref : PCOR_references K)
    (vc : PCOR_voxel_corr K) (fit : List (Option (List K))) :
    Option (Outcome (List (Option (List K)))) :=
  if vc.nref ≠ ref.nref then some (.exited .get_lsqfit_size_mismatch)
  else
    let nr := vc.nref.toNat
    if PCOR_get_lsqfit_count nr fit = 0 then some (.returned [.get_lsqfit_no_output] fit)
    else
      ((List.range vc.nvox.toNat).foldlM (PCOR_get_lsqfit_voxel_checked ref vc nr)
        (malloc junk vc.nref, fit)).map (fun r => Outcome.returned [] r.2)

/-- Body of the voxel loops of `PCOR_get_pcor_and_coef`, with checked reads;
`scale` is `1.0 / RCH(ref,nr-1,nr-1)`. -/
def PCOR_get_pcor_and_coef_voxel_checked (sqrt : K → K) (vc : PCOR_voxel_corr K)
    (scale pcthresh : K) (vox : Nat) : Option (K × K) :=
  let nr := vc.nref
  (VCH_checked vc 0 vox nr).bind fun den =>
    (VCH_checked vc 0 vox (nr - 1)).map fun num =>
      if pcthresh ≤ 0 then (num / sqrt (den + SQR num), scale * num)
      else
        let thfac := SQR pcthresh / (1 - SQR pcthresh)
        if SQR num > thfac * den then (num / sqrt (den + SQR num), scale * num)
        else (0, 0)

/-- The function `PCOR_get_pcor_and_coef`, with checked reads. -/
def PCOR_get_pcor_and_coef_checked (sqrt : K → K) (ref : PCOR_references K)
    (vc : PCOR_voxel_corr K) (pcthresh : K) (pcor coef : List K) :
    Option (Outcome (List K × List K)) :=
  if vc.nref ≠ ref.nref then some (.exited .get_pcor_and_coef_size_mismatch)
  else
    let nr := vc.nref
    (RCH_checked ref (nr - 1) (nr - 1)).bind fun r =>
      ((List.range vc.nvox.toNat).foldlM
        (fun (o : List K × List K) (vox : Nat) =>
          (PCOR_get_pcor_and_coef_voxel_checked sqrt vc (1 / r) pcthresh vox).map
            (fun pc => (o.1.set vox pc.1, o.2.set vox pc.2)))
        (pcor, coef)).map (Outcome.returned [])

/-- Shape of a voxel state as `new_PCOR_voxel_corr` builds it: `nref+1`
values for each of the `nvox` voxels. -/
def PCOR_voxel_corr.shaped (vc : PCOR_voxel_corr K) : Prop :=
  0 ≤ vc.nref ∧ vc.chrow.length = vc.nvox.toNat * (vc.nref.toNat + 1)

end Checked

/-- The state `new_PCOR_references` returns for `numref = 2`, `REF_EPS = 1`
and zero-filled fresh storage. -/
def ex_fresh2 {K : Type} [LinearOrderedField K] : PCOR_references K :=
  { nref := 2, chol := [[1], [0, 1]], alp := [0, 0], ff := [0, 0], gg := [0, 0],
    betasq := 0, nupdate := 0 }

/-! ## Floating-point arithmetic

The routines of `afni_pcor.c` once more, in the arithmetic of the C
program: `float` is IEEE 754 binary32, `double` is binary64, every
operation is rounded to nearest (ties to even) in the type C gives it
(`FLT_EVAL_METHOD` 0), and `sqrt` is correctly rounded.  The definitions
above are the same routines in exact arithmetic. -/

/-- A value of an IEEE 754 binary format: a NaN, an infinity with its sign,
or a finite value, kept as the rational number it stands for (the two
zeros are not told apart). -/
inductive FP where
  | nan : FP
  | inf (neg : Bool) : FP
  | fin (q : ℚ) : FP
  deriving DecidableEq

/-- An IEEE 754 binary format: the number of bits of the significand and the
largest exponent. -/
structure FP_format where
  prec : Nat
  emax : Int

/-- The format of the C type `float`. -/
def binary32 : FP_format := { prec := 24, emax := 127 }

/-- The format of the C type `double`. -/
def binary64 : FP_format := { prec := 53, emax := 1023 }

/-- The integer nearest to `x`, the even one of the two when `x` lies half
way between them. -/
def round_half_even (x : ℚ) : Int :=
  if x - ⌊x⌋ < 1 / 2 then ⌊x⌋
  else if x - ⌊x⌋ > 1 / 2 then ⌊x⌋ + 1
  else if ⌊x⌋ % 2 = 0 then ⌊x⌋ else ⌊x⌋ + 1

/-- The number of binary digits of `n`, counted in at most `fuel` halvings. -/
def bit_length_aux : Nat → Nat → Nat
  | 0, _ => 0
  | fuel + 1, n => if n = 0 then 0 else bit_length_aux fuel (n / 2) + 1

/-- The number of binary digits of `n` (`0` for `n = 0`). -/
def bit_length (n : Nat) : Nat := bit_length_aux n n

/-- The exponent of a positive rational `q`: the integer `e` with
`2^e ≤ q < 2^(e+1)`, one of the two candidates the bit lengths of the numerator
and of the denominator leave. -/
def ilog2 (q : ℚ) : Int :=
  let e : Int := (bit_length q.num.toNat : Int) - (bit_length q.den : Int)
  if (2 : ℚ) ^ e ≤ q then e else e - 1

/-- Rounding of the exact value `q` to the format, to nearest with ties to
even: gradual underflow below `2^(1-emax)`, an infinity when the rounded value
reaches `2^(emax+1)`. -/
def FP.round (fmt : FP_format) (q : ℚ) : FP :=
  if q = 0 then .fin 0
  else
    let e := max (ilog2 |q|) (1 - fmt.emax)
    let ulp : ℚ := 2 ^ (e - ((fmt.prec : Int) - 1))
    let v := (round_half_even (q / ulp) : ℚ) * ulp
    if 2 ^ (fmt.emax + 1) ≤ |v| then .inf (decide (q < 0)) else .fin v

/-- Conversion of a value to the format (`(float)` of a `double`). -/
def FP.cvt (fmt : FP_format) : FP → FP
  | .fin q => FP.round fmt q
  | x => x

/-- The sum `x + y` in the format. -/
def FP.add (fmt : FP_format) : FP → FP → FP
  | .nan, _ => .nan
  | _, .nan => .nan
  | .inf a, .inf b => if a = b then .inf a else .nan
  | .inf a, .fin _ => .inf a
  | .fin _, .inf b => .inf b
  | .fin x, .fin y => FP.round fmt (x + y)

/-- The opposite `-x`. -/
def FP.neg : FP → FP
  | .nan => .nan
  | .inf a => .inf (!a)
  | .fin x => .fin (-x)

/-- The difference `x - y` in the format. -/
def FP.sub (fmt : FP_format) (x y : FP) : FP := FP.add fmt x (FP.neg y)

/-- The product `x * y` in the format. -/
def FP.mul (fmt : FP_format) : FP → FP → FP
  | .nan, _ => .nan
  | _, .nan => .nan
  | .inf a, .inf b => .inf (a != b)
  | .inf a, .fin y => if y = 0 then .nan else .inf (a != decide (y < 0))
  | .fin x, .inf b => if x = 0 then .nan else .inf (decide (x < 0) != b)
  | .fin x, .fin y => FP.round fmt (x * y)

/-- The quotient `x / y` in the format; a zero divisor counts as `+0`. -/
def FP.div (fmt : FP_format) : FP → FP → FP
  | .nan, _ => .nan
  | _, .nan => .nan
  | .inf _, .inf _ => .nan
  | .inf a, .fin y => .inf (a != decide (y < 0))
  | .fin _, .inf _ => .fin 0
  | .fin x, .fin y =>
    if y = 0 then (if x = 0 then .nan else .inf (decide (x < 0)))
    else FP.round fmt (x / y)

/-- The comparison `x < y` of C: false when an operand is a NaN. -/
def FP.lt : FP → FP → Bool
  | .nan, _ => false
  | _, .nan => false
  | .inf a, .inf b => a && !b
  | .inf a, .fin _ => a
  | .fin _, .inf b => !b
  | .fin x, .fin y => decide (x < y)

/-- The comparison `x <= y` of C: false when an operand is a NaN. -/
def FP.le : FP → FP → Bool
  | .nan, _ => false
  | _, .nan => false
  | .inf a, .inf b => a || !b
  | .inf a, .fin _ => a
  | .fin _, .inf b => !b
  | .fin x, .fin y => decide (x ≤ y)

/-- The bits of the integer square root of `n` below bit `k`, from the top:
`acc` grows by `2^k` whenever its square stays within `n`. -/
def isqrt_bits (n : Nat) : Nat → Nat → Nat
  | 0, acc => acc
  | k + 1, acc => isqrt_bits n k (if (acc + 2 ^ k) * (acc + 2 ^ k) ≤ n then acc + 2 ^ k else acc)

/-- The integer square root of `n`, the largest `s` with `s * s ≤ n`. -/
def isqrt (n : Nat) : Nat := isqrt_bits n (bit_length n / 2 + 1) 0

/-- The function `sqrt` of `math.h` in the format, correctly rounded.  For
`q = a/b > 0` and `N = a·b·4^(prec+2)`, `sqrt q = sqrt N / (b·2^(prec+2))`
with `s ≤ sqrt N < s+1` for `s = isqrt N`; when `s*s ≠ N` the value rounds as
`s + 1/2` does, `s` having more bits than the significand (`b` is a power of
two for a value of a binary format). -/
def FP.sqrt (fmt : FP_format) : FP → FP
  | .nan => .nan
  | .inf a => if a then .nan else .inf false
  | .fin q =>
    if q < 0 then .nan
    else if q = 0 then .fin 0
    else
      let N := q.num.toNat * q.den * 4 ^ (fmt.prec + 2)
      let s := isqrt N
      let scale : ℚ := (q.den : ℚ) * 2 ^ (fmt.prec + 2)
      if s * s = N then FP.round fmt ((s : ℚ) / scale)
      else FP.round fmt (((s : ℚ) + 1 / 2) / scale)

/-- The macro `VCH(vv,iv,jj)` on `float` storage. -/
def VCH_fp (vc : PCOR_voxel_corr FP) (iv jj : Int) : FP :=
  if 0 ≤ jj + iv * (vc.nref + 1) then vc.chrow.getD (jj + iv * (vc.nref + 1)).toNat .nan
  else .nan

/-- The macro `RCH(rr,ii,jj)` on `float` storage. -/
def RCH_fp (ref : PCOR_references FP) (ii jj : Int) : FP :=
  if 0 ≤ ii ∧ 0 ≤ jj then (ref.chol.getD ii.toNat []).getD jj.toNat .nan else .nan

/-- The macro `SQR(x)` on a `float`: the product is a `float`. -/
def SQR_fp (x : FP) : FP := FP.mul binary32 x x

/-- The generic loop of the `default:` case of `PCOR_get_mcor`: each square is
a `float`, added to the `double` `den`. -/
def PCOR_get_mcor_loop_fp (vc : PCOR_voxel_corr FP) (vox : Nat) (m : Int) (den : FP) : FP :=
  (List.range' 1 m.toNat).foldl
    (fun d (ii : Nat) => FP.add binary64 d (SQR_fp (VCH_fp vc vox (vc.nref - (ii : Int))))) den

/-- The `switch(m)` of `PCOR_get_mcor`: in the cases 2, 3, 4 the squares are
added up in `float` and the sum is added to the `double` `den`. -/
def PCOR_get_mcor_den_fp (vc : PCOR_voxel_corr FP) (vox : Nat) (m : Int) : FP :=
  let nr := vc.nref
  let den := VCH_fp vc vox nr
  if m = 1 then FP.add binary64 den (SQR_fp (VCH_fp vc vox (nr - 1)))
  else if m = 2 then
    FP.add binary64 den
      (FP.add binary32 (SQR_fp (VCH_fp vc vox (nr - 1))) (SQR_fp (VCH_fp vc vox (nr - 2))))
  else if m = 3 then
    FP.add binary64 den
      (FP.add binary32
        (FP.add binary32 (SQR_fp (VCH_fp vc vox (nr - 1))) (SQR_fp (VCH_fp vc vox (nr - 2))))
        (SQR_fp (VCH_fp vc vox (nr - 3))))
  else if m = 4 then
    FP.add binary64 den
      (FP.add binary32
        (FP.add binary32
          (FP.add binary32 (SQR_fp (VCH_fp vc vox (nr - 1))) (SQR_fp (VCH_fp vc vox (nr - 2))))
          (SQR_fp (VCH_fp vc vox (nr - 3))))
        (SQR_fp (VCH_fp vc vox (nr - 4))))
  else PCOR_get_mcor_loop_fp vc vox m den

/-- The value `(den > 0.0) ? sqrt(den) : 0.0` for `den = 1.0 - num / d`, a
`double`, as it is stored in a `float`. -/
def mcor_value_fp (num d : FP) : FP :=
  let den := FP.sub binary64 (.fin 1) (FP.div binary64 num d)
  FP.cvt binary32 (if FP.lt (.fin 0) den then FP.sqrt binary64 den else .fin 0)

/-- Value assigned to `pcor[vox]` in the loop of `PCOR_get_mcor`. -/
def PCOR_get_mcor_voxel_fp (vc : PCOR_voxel_corr FP) (m : Int) (vox : Nat) : FP :=
  mcor_value_fp (VCH_fp vc vox vc.nref) (PCOR_get_mcor_den_fp vc vox m)

/-- The function `PCOR_get_mcor` in floating-point arithmetic. -/
def PCOR_get_mcor_fp (ref : PCOR_references FP) (vc : PCOR_voxel_corr FP) (m : Int)
    (pcor : List FP) : Outcome (List FP) :=
  if vc.nref ≠ ref.nref then .exited .get_mcor_size_mismatch
  else if m ≥ vc.nref then .exited .get_mcor_m_nref
  else
    .returned [] ((List.range vc.nvox.toNat).foldl
      (fun out (vox : Nat) => out.set vox (PCOR_get_mcor_voxel_fp vc m vox)) pcor)

/-- Values assigned to `(pcor[vox], coef[vox])` in `PCOR_get_pcor_and_coef`:
`scale`, `thfac`, `den`, `num` are `float`s; `1.0 / RCH(...)`,
`SQR(pcthresh)/(1.0-SQR(pcthresh))` and `num / sqrt(...)` are computed in
`double` and stored in a `float`; the threshold test compares two `float`s. -/
def PCOR_get_pcor_and_coef_voxel_fp (ref : PCOR_references FP) (vc : PCOR_voxel_corr FP)
    (pcthresh : FP) (vox : Nat) : FP × FP :=
  let nr := vc.nref
  let scale := FP.cvt binary32 (FP.div binary64 (.fin 1) (RCH_fp ref (nr - 1) (nr - 1)))
  let den := VCH_fp vc vox nr
  let num := VCH_fp vc vox (nr - 1)
  if FP.le pcthresh (.fin 0) then
    (FP.cvt binary32 (FP.div binary64 num (FP.sqrt binary64 (FP.add binary32 den (SQR_fp num)))),
     FP.mul binary32 scale num)
  else
    let thfac := FP.cvt binary32
      (FP.div binary64 (SQR_fp pcthresh) (FP.sub binary64 (.fin 1) (SQR_fp pcthresh)))
    if FP.lt (FP.mul binary32 thfac den) (SQR_fp num) then
      (FP.cvt binary32
        (FP.div binary64 num (FP.sqrt binary64 (FP.add binary32 den (SQR_fp num)))),
       FP.mul binary32 scale num)
    else (.fin 0, .fin 0)

/-- The function `PCOR_get_pcor_and_coef` in floating-point arithmetic. -/
def PCOR_get_pcor_and_coef_fp (ref : PCOR_references FP) (vc : PCOR_voxel_corr FP)
    (pcthresh : FP) (pcor coef : List FP) : Outcome (List FP × List FP) :=
  if vc.nref ≠ ref.nref then .exited .get_pcor_and_coef_size_mismatch
  else
    .returned [] ((List.range vc.nvox.toNat).foldl
      (fun (o : List FP × List FP) (vox : Nat) =>
        (o.1.set vox (PCOR_get_pcor_and_coef_voxel_fp ref vc pcthresh vox).1,
         o.2.set vox (PCOR_get_pcor_and_coef_voxel_fp ref vc pcthresh vox).2)) (pcor, coef))

/-- A `float` reference state with `nref` reference vectors and identity
factor. -/
def ex_ref_fp (nref : Nat) : PCOR_references FP :=
  { nref := nref
    chol := (List.range nref).map
      (fun (i : Nat) => (List.range (i + 1)).map (fun (j : Nat) => FP.fin (if j = i then 1 else 0)))
    alp := List.replicate nref (.fin 0), ff := List.replicate nref (.fin 1)
    gg := List.replicate nref (.fin 0), betasq := .fin 1, nupdate := 0 }

/-- A `float` voxel state with one voxel and the last row `row` of
`nref + 1` values. -/
def ex_vc_fp (row : List ℚ) : PCOR_voxel_corr FP :=
  { nvox := 1, nref := (row.length : Int) - 1, chrow := row.map FP.fin, nupdate := 0 }

section FitCoef

variable {K : Type} [LinearOrderedField K]

/-- Spec-side (section 4.3, `fullLeastSquaresFit`): the coefficients
`fitCoef[nr-d], …, fitCoef[nr-1]` of voxel `v`, in this order, by the
recurrence of the specification, `j` going down from `nr-1`:
`sum = lastRow[v][j] - Σ_{k=j+1}^{nr-1} fitCoef[k]·cholesky[k][j]`,
`fitCoef[j] = sum / cholesky[j][j]`. -/
def fitCoef_from (ref : PCOR_references K) (vc : PCOR_voxel_corr K) (v nr : Nat) :
    Nat → List K
  | 0 => []
  | d + 1 =>
    ((VCH vc v ((nr - (d + 1) : Nat) : Int)
        - ∑ i ∈ Finset.range d,
            (fitCoef_from ref vc v nr d).getD i 0
              * RCH ref ((nr - (d + 1) + 1 + i : Nat) : Int) ((nr - (d + 1) : Nat) : Int))
      / RCH ref ((nr - (d + 1) : Nat) : Int) ((nr - (d + 1) : Nat) : Int))
    :: fitCoef_from ref vc v nr d

/-- Spec-side (section 4.3): the coefficient `fitCoef[j]` of voxel `v`. -/
def fitCoef (ref : PCOR_references K) (vc : PCOR_voxel_corr K) (v j : Nat) : K :=
  (fitCoef_from ref vc v vc.nref.toNat vc.nref.toNat).getD j 0

end FitCoef

/-- A reference state with two reference vectors and the triangular factor
`[[2], [1, 4]]`. -/
def ex_ref_tri : PCOR_references ℚ :=
  { nref := 2, chol := [[2], [1, 4]], alp := [0, 0], ff := [1, 1], gg := [0, 0],
    betasq := 1, nupdate := 0 }

/-! ## The options of `1dREMLfit` -/

/-- The `ERROR_exit` calls of `main` of `1dREMLfit.c`, one constructor per
message; `setup_check` stands for the checks of the two files between the
option loop and the call of `REML_setup`. -/
inductive REML_error where
  | more_than_1_matrix : REML_error
  | cant_process_matrix : REML_error
  | unknown_option (opt : String) : REML_error
  | no_1D_file : REML_error
  | cant_read_1D (name : String) : REML_error
  | setup_check (msg : String) : REML_error
  deriving DecidableEq, Repr

/-- How a run of `main` of `1dREMLfit.c` goes, up to the call of
`REML_setup`: `help` prints the usage and calls `exit(0)`; `ERROR_exit e`
ends the program with a message; `undefined` is a run whose behaviour the C
standard leaves undefined: it hands the `NULL` of `argv[argc]` to a library
routine, dereferences a `NULL` `nelmat`, or converts to `int` a value that
has no `int`; `REML_setup rhonum rhomax delnum` is a run that reaches the
call `REML_setup( &X , tau , rhonum,rhomax,delnum )` with these arguments. -/
inductive REML_result where
  | help : REML_result
  | ERROR_exit (e : REML_error) : REML_result
  | undefined : REML_result
  | REML_setup (rhonum : Int) (rhomax : FP) (delnum : Int) : REML_result
  deriving DecidableEq

/-- The conversion `(int)x` of a `double` `x`, for the 32-bit `int`: the
fraction is dropped (truncation toward zero); when the integral part is not
in `-2^31 .. 2^31 - 1`, or `x` is an infinity or a NaN, the behaviour is
undefined (C99 6.3.1.4) and the result is `none`. -/
def C_int_cast : FP → Option Int
  | .fin q =>
    if -2 ^ 31 ≤ Int.tdiv q.num q.den ∧ Int.tdiv q.num q.den ≤ 2 ^ 31 - 1 then
      some (Int.tdiv q.num q.den)
    else none
  | _ => none

/-- What `main` of `1dREMLfit.c` takes from outside `src/`: `MTYPE`, the
floating type of `matrix.h`; the library routine `strtod(s,NULL)`, which
returns a `double`; `read_matrix`, the reading of the `-matrix` file as a
NIML element or, failing that, as a 1D file (`none` when
`ERROR_exit("Can't process -matrix file!")` follows); `mri_read_1D`; and
`checks`, the message of the first `ERROR_exit` between the reading of the 1D
file and the call of `REML_setup`, if any. -/
structure REML_env (E I : Type) where
  MTYPE : FP_format
  strtod : String → FP
  read_matrix : String → Option E
  mri_read_1D : String → Option I
  checks : E → I → Option String

/-- The variables of `main` of `1dREMLfit.c` that the option loop assigns. -/
structure REML_vars (E : Type) where
  rhomax : FP
  rhonum : Int
  delnum : Int
  nelmat : Option E

/-- The statements `rhomax = (MTYPE)x ; if( rhomax < 0.3 ) rhomax = 0.3 ;
else if( rhomax > 0.9 ) rhomax = 0.9 ;` of the `-MAXrho` option, for the
`double` `x`; the constants `0.3` and `0.9` are `double`s. -/
def REML_MAXrho (fmt : FP_format) (x : FP) : FP :=
  let rhomax := FP.cvt fmt x
  if FP.lt rhomax (FP.round binary64 (3 / 10)) then FP.cvt fmt (FP.round binary64 (3 / 10))
  else if FP.lt (FP.round binary64 (9 / 10)) rhomax then FP.cvt fmt (FP.round binary64 (9 / 10))
  else rhomax

section REML

variable {E I : Type}

/-- The loop `while( iarg < argc && argv[iarg][0] == '-' )` of `main` of
`1dREMLfit.c`, on the arguments from `argv[iarg]` on: either the program
ends in the loop, or the loop ends with the variables `vars` and the
arguments `rest` left from `argv[iarg]` on. -/
def REML_option_loop (env : REML_env E I) :
    List String → REML_vars E → REML_result ⊕ (REML_vars E × List String)
  | [], vars => .inr (vars, [])
  | a :: rest, vars =>
    if a.toList.head? ≠ some '-' then .inr (vars, a :: rest)
    else if a = "-MAXrho" then
      match rest with
      | [] => .inl .undefined
      | v :: rest1 =>
        REML_option_loop env rest1 { vars with rhomax := REML_MAXrho env.MTYPE (env.strtod v) }
    else if a = "-Nrho" then
      match rest with
      | [] => .inl .undefined
      | v :: rest1 =>
        match C_int_cast (env.strtod v) with
        | none => .inl .undefined
        | some rhonum =>
          let rhonum := if rhonum < 2 then 2 else if rhonum > 20 then 20 else rhonum
          REML_option_loop env rest1 { vars with rhonum := rhonum }
    else if a = "-Ndel" then
      match rest with
      | [] => .inl .undefined
      | v :: rest1 =>
        match C_int_cast (env.strtod v) with
        | none => .inl .undefined
        | some delnum =>
          let delnum := if delnum < 2 then 2 else if delnum > 20 then 20 else delnum
          REML_option_loop env rest1 { vars with delnum := delnum }
    else if a = "-matrix" then
      if vars.nelmat.isSome then .inl (.ERROR_exit .more_than_1_matrix)
      else
        match rest with
        | [] => .inl .undefined
        | v :: rest1 =>
          match env.read_matrix v with
          | none => .inl (.ERROR_exit .cant_process_matrix)
          | some nelmat => REML_option_loop env rest1 { vars with nelmat := some nelmat }
    else .inl (.ERROR_exit (.unknown_option a))

/-- The function `main` of `1dREMLfit.c` up to the call of `REML_setup`;
`argv` starts with the program name `argv[0]`. The initial value of
`rhomax` is the `double` constant `0.7` converted to `MTYPE`. -/
def REML_main (env : REML_env E I) (argv : List String) : REML_result :=
  if argv.length < 2 ∨ argv.getD 1 "" = "-help" then .help
  else
    match REML_option_loop env (argv.drop 1)
        { rhomax := FP.cvt env.MTYPE (FP.round binary64 (7 / 10)), rhonum := 7, delnum := 10,
          nelmat := none } with
    | .inl r => r
    | .inr (vars, rest) =>
      match rest with
      | [] => .ERROR_exit .no_1D_file
      | f :: _ =>
        match env.mri_read_1D f with
        | none => .ERROR_exit (.cant_read_1D f)
        | some inim =>
          match vars.nelmat with
          | none => .undefined
          | some nelmat =>
            match env.checks nelmat inim with
            | some msg => .ERROR_exit (.setup_check msg)
            | none => .REML_setup vars.rhonum vars.rhomax vars.delnum

end REML

/-- The arguments of a command line whose options are the pairs
`(name, value)` of `opts`, in this order. -/
def REML_argv : List (String × String) → List String
  | [] => []
  | p :: opts => p.1 :: p.2 :: REML_argv opts

/-- The values given to the option `name` among `opts`, in the order of the
command line. -/
def REML_values (name : String) (opts : List (String × String)) : List String :=
  (opts.filter (fun p => p.1 = name)).map Prod.snd

/-- Spec-side (help text of `-Nrho` and `-Ndel`): the number of values used
for the parameter of option `name`: the default when the option is not
given, otherwise the integer `nval v` that the value `v` of its last
occurrence denotes, brought into `2..20`. -/
def REML_count (nval : String → Int) (name : String) (dflt : Int)
    (opts : List (String × String)) : Int :=
  match (REML_values name opts).getLast? with
  | none => dflt
  | some v => max 2 (min 20 (nval v))

/-- Spec-side (help text of `-MAXrho`): the largest `rho` allowed: the default
when the option is not given, otherwise what the `-MAXrho` statements make
of the value of its last occurrence. -/
def REML_rhomax {E I : Type} (env : REML_env E I) (dflt : FP)
    (opts : List (String × String)) : FP :=
  match (REML_values "-MAXrho" opts).getLast? with
  | none => dflt
  | some v => REML_MAXrho env.MTYPE (env.strtod v)

/-- The integer a string of decimal digits denotes. -/
def decimal_value (s : String) : Int :=
  s.toList.foldl (fun n c => 10 * n + ((c.toNat : Int) - 48)) 0

/-- An environment in which `MTYPE` is `double`, every file can be read and
passes the checks, and `strtod` reads a string of decimal digits as the
`double` nearest to the integer it denotes. -/
def ex_REML_env : REML_env Unit Unit :=
  { MTYPE := binary64
    strtod := fun s => FP.round binary64 (decimal_value s)
    read_matrix := fun _ => some ()
    mri_read_1D := fun _ => some ()
    checks := fun _ _ => none }

/-- The options of an example command line: two `-Nrho`, of which the last
counts, one `-MAXrho`, one `-Ndel` and the `-matrix`. -/
def ex_REML_opts : List (String × String) :=
  [("-Nrho", "3"), ("-matrix", "X.xmat.1D"), ("-MAXrho", "1"), ("-Nrho", "5"), ("-Ndel", "50")]

/-! ## Theorems -/

section Lemmas

variable {K : Type}

theorem foldl_range_succ {σ : Type} (f : σ → Nat → σ) (s : σ) (n : Nat) :
    (List.range (n + 1)).foldl f s = f ((List.range n).foldl f s) n := by
  rw [List.range_succ, List.foldl_append]; rfl

theorem foldl_range'_succ {σ : Type} (f : σ → Nat → σ) (s : σ) (lo len : Nat) :
    (List.range' lo (len + 1)).foldl f s = f ((List.range' lo len).foldl f s) (lo + len) := by
  rw [List.range'_concat, List.foldl_append]; simp

theorem getD_set {α : Type} (l : List α) (i j : Nat) (a d : α) :
    (l.set i a).getD j d = if i = j ∧ i < l.length then a else l.getD j d := by
  simp only [List.getD_eq_getElem?_getD, List.getElem?_set]
  by_cases h : i = j
  · subst h
    by_cases h2 : i < l.length
    · simp [h2]
    · rw [List.getElem?_eq_none (by omega)]; simp [h2]
  · simp [h]

theorem store_loop_length (f : Nat → K) (n : Nat) (buf : List K) :
    ((List.range n).foldl (fun out vox => out.set vox (f vox)) buf).length = buf.length := by
  induction n with
  | zero => rfl
  | succ n ih => rw [foldl_range_succ, List.length_set, ih]

theorem store_loop_getD (f : Nat → K) (n : Nat) (buf : List K) (v : Nat) (d : K) :
    ((List.range n).foldl (fun out vox => out.set vox (f vox)) buf).getD v d
      = if v < n ∧ v < buf.length then f v else buf.getD v d := by
  induction n with
  | zero => simp
  | succ n ih =>
    rw [foldl_range_succ, getD_set, store_loop_length, ih]
    by_cases h1 : n = v
    · subst h1; by_cases h2 : n < buf.length <;> simp [h2]
    · by_cases h2 : v < n
      · have : v < n + 1 := by omega
        simp [h1, h2, this]
      · have : ¬ v < n + 1 := by omega
        simp [h1, h2, this]

theorem store_loop_pair (f g : Nat → K) (n : Nat) (a b : List K) :
    (List.range n).foldl (fun (o : List K × List K) vox => (o.1.set vox (f vox), o.2.set vox (g vox))) (a, b)
      = ((List.range n).foldl (fun out vox => out.set vox (f vox)) a,
         (List.range n).foldl (fun out vox => out.set vox (g vox)) b) := by
  induction n with
  | zero => rfl
  | succ n ih => simp only [foldl_range_succ, ih]

end Lemmas

/-- Bounds of the quotient `num / sqrt (den + num*num)` for positive `den`. -/
theorem quot_bounds (num den : ℝ) (hden : 0 < den) :
    -1 ≤ num / Real.sqrt (den + num * num) ∧ num / Real.sqrt (den + num * num) ≤ 1 := by
  have hpos : 0 < den + num * num := by nlinarith [mul_self_nonneg num]
  have hs : 0 < Real.sqrt (den + num * num) := Real.sqrt_pos.mpr hpos
  have habs : |num| ≤ Real.sqrt (den + num * num) := by
    apply Real.abs_le_sqrt
    nlinarith
  have h1 := abs_le.mp habs
  constructor
  · rw [le_div_iff₀ hs]; linarith [h1.1]
  · rw [div_le_iff₀ hs]; linarith [h1.2]

theorem PCOR_get_pcor_voxel_bounds (vc : PCOR_voxel_corr ℝ) (v : Nat) :
    -1 ≤ PCOR_get_pcor_voxel Real.sqrt vc v ∧ PCOR_get_pcor_voxel Real.sqrt vc v ≤ 1 := by
  unfold PCOR_get_pcor_voxel
  by_cases h : VCH vc v vc.nref > DENEPS
  · have hd : (0:ℝ) < VCH vc v vc.nref := by
      have : (0:ℝ) < DENEPS := by unfold DENEPS; norm_num
      exact lt_trans this h
    simp only [h, if_true, SQR]
    exact quot_bounds _ _ hd
  · simp only [h, if_false]; constructor <;> norm_num

/-- C3: with matching `nref`, `PCOR_get_pcor` returns, and every value it
writes lies in `[-1, 1]`, whatever the voxel row holds; where
`den = lastRow[v][nref] ≤ 1e-5` (equality included) the value written is
exactly `0`, the branch without a division. -/
theorem PCOR_get_pcor_range (ref : PCOR_references ℝ) (vc : PCOR_voxel_corr ℝ)
    (pcor : List ℝ) (hn : vc.nref = ref.nref) :
    ∃ out, PCOR_get_pcor Real.sqrt ref vc pcor = Outcome.returned [] out ∧
      out.length = pcor.length ∧
      ∀ v, v < vc.nvox.toNat → v < pcor.length →
        out.getD v 0 = PCOR_get_pcor_voxel Real.sqrt vc v ∧
        -1 ≤ out.getD v 0 ∧ out.getD v 0 ≤ 1 ∧
        (VCH vc v vc.nref ≤ 1 / 100000 → out.getD v 0 = 0) := by
  have hne : ¬ vc.nref ≠ ref.nref := by simpa using hn
  unfold PCOR_get_pcor
  rw [if_neg hne]
  refine ⟨_, rfl, store_loop_length _ _ _, ?_⟩
  · intro v hv hl
    have hval : ((List.range vc.nvox.toNat).foldl
        (fun out vox => out.set vox (PCOR_get_pcor_voxel Real.sqrt vc vox)) pcor).getD v 0
          = PCOR_get_pcor_voxel Real.sqrt vc v := by
      rw [store_loop_getD, if_pos ⟨hv, hl⟩]
    rw [hval]
    refine ⟨rfl, (PCOR_get_pcor_voxel_bounds vc v).1, (PCOR_get_pcor_voxel_bounds vc v).2, ?_⟩
    intro hle
    unfold PCOR_get_pcor_voxel
    have : ¬ VCH vc v vc.nref > DENEPS := by unfold DENEPS; exact not_lt.mpr hle
    simp only [this, if_false]

theorem ex_VCH0 (a b c : ℝ) : VCH (ex_vc a b c) ((0:ℕ) : Int) 0 = a := by
  simp [VCH, VCHidx, ex_vc]

theorem ex_VCH1 (a b c : ℝ) : VCH (ex_vc a b c) ((0:ℕ) : Int) 1 = b := by
  simp [VCH, VCHidx, ex_vc]

theorem ex_VCH2 (a b c : ℝ) : VCH (ex_vc a b c) ((0:ℕ) : Int) 2 = c := by
  simp [VCH, VCHidx, ex_vc]

/-- C4 (counterexample): `m = 0` does not satisfy `1 ≤ m < nref`, yet with
`nref = 2` `PCOR_get_mcor` does not fail: it returns normally and writes `0`
for the voxel with last row `[0, 3, 4]`. -/
theorem PCOR_get_mcor_accepts_zero :
    ¬ (1 ≤ (0 : Int) ∧ (0 : Int) < (ex_ref : PCOR_references ℝ).nref) ∧
    PCOR_get_mcor Real.sqrt ex_ref (ex_vc 0 3 4) 0 [7] = Outcome.returned [] [0] := by
  refine ⟨by decide, ?_⟩
  simp [PCOR_get_mcor, ex_ref, PCOR_get_mcor_voxel, PCOR_get_mcor_den, PCOR_get_mcor_loop,
    ex_vc, VCH, VCHidx, List.range_succ]

/-- C4 (amended): `PCOR_get_mcor` ends with the InvalidArgument diagnostic
exactly when the two `nref` agree and `m ≥ nref`; it returns normally, with
nothing printed, exactly when the two `nref` agree and `m < nref`, which
includes `m = 0` and every negative `m`. -/
theorem PCOR_get_mcor_fails_iff {K : Type} [LinearOrderedField K] (sqrt : K → K)
    (ref : PCOR_references K) (vc : PCOR_voxel_corr K) (m : Int) (pcor : List K) :
    ((∃ d, PCOR_get_mcor sqrt ref vc m pcor = Outcome.exited d ∧
        d.kind = ErrorKind.InvalidArgument) ↔ (vc.nref = ref.nref ∧ m ≥ vc.nref)) ∧
    ((∃ out, PCOR_get_mcor sqrt ref vc m pcor = Outcome.returned [] out) ↔
        (vc.nref = ref.nref ∧ m < vc.nref)) := by
  unfold PCOR_get_mcor
  by_cases hn : vc.nref = ref.nref
  · have hne : ¬ vc.nref ≠ ref.nref := by simpa using hn
    rw [if_neg hne]
    by_cases hm : m ≥ vc.nref
    · rw [if_pos hm]
      refine ⟨⟨fun _ => ⟨hn, hm⟩, fun _ => ⟨_, rfl, rfl⟩⟩, ⟨?_, ?_⟩⟩
      · rintro ⟨out, h⟩; cases h
      · rintro ⟨_, h⟩; omega
    · rw [if_neg hm]
      refine ⟨⟨?_, ?_⟩, ⟨fun _ => ⟨hn, by omega⟩, fun _ => ⟨_, rfl⟩⟩⟩
      · rintro ⟨d, h, _⟩; cases h
      · rintro ⟨_, h⟩; exact absurd h hm
  · have hne : vc.nref ≠ ref.nref := hn
    rw [if_pos hne]
    refine ⟨⟨?_, ?_⟩, ⟨?_, ?_⟩⟩
    · rintro ⟨d, h, hk⟩
      cases h
      cases hk
    · rintro ⟨h, _⟩; exact absurd h hn
    · rintro ⟨out, h⟩; cases h
    · rintro ⟨h, _⟩; exact absurd h hn

/-- The generic loop of `PCOR_get_mcor` adds the squares of the `n` entries
before the last one. -/
theorem mcor_loop_sum {K : Type} [LinearOrderedField K] (f : Nat → K) (n : Nat) (d : K) :
    (List.range' 1 n).foldl (fun d ii => d + f ii) d = d + ∑ i ∈ Finset.Icc 1 n, f i := by
  induction n with
  | zero => simp
  | succ n ih =>
    rw [foldl_range'_succ, ih, Finset.sum_Icc_succ_top (by omega), add_assoc, add_comm 1 n]

theorem PCOR_get_mcor_loop_eq {K : Type} [LinearOrderedField K] (vc : PCOR_voxel_corr K)
    (v : Nat) (m : Int) (d : K) :
    PCOR_get_mcor_loop vc v m d
      = d + ∑ i ∈ Finset.Icc 1 m.toNat, (VCH vc v (vc.nref - (i : Int))) ^ 2 := by
  unfold PCOR_get_mcor_loop
  rw [mcor_loop_sum (fun ii => SQR (VCH vc v (vc.nref - (ii : Int))))]
  simp only [SQR, pow_two]

theorem PCOR_get_mcor_den_eq_loop {K : Type} [LinearOrderedField K] (vc : PCOR_voxel_corr K)
    (v : Nat) (m : Int) :
    PCOR_get_mcor_den vc v m = PCOR_get_mcor_loop vc v m (VCH vc v vc.nref) := by
  unfold PCOR_get_mcor_den
  by_cases h1 : m = 1
  · subst h1; simp [PCOR_get_mcor_loop, List.range']
  by_cases h2 : m = 2
  · subst h2; simp [PCOR_get_mcor_loop, List.range']; ring
  by_cases h3 : m = 3
  · subst h3; simp [PCOR_get_mcor_loop, List.range']; ring
  by_cases h4 : m = 4
  · subst h4; simp [PCOR_get_mcor_loop, List.range']; ring
  simp only [h1, h2, h3, h4, if_false]

/-- C5 (amended): in exact arithmetic, for every `m < nref`, hence for every
`m` with `1 ≤ m < nref` (and matching `nref`), `PCOR_get_mcor` returns and
writes, for every voxel `v` with `den ≠ 0`,
`sqrt (max (1 - lastRow[v][nref]/den) 0)` with
`den = lastRow[v][nref] + Σ_{i=1..m} lastRow[v][nref-i]^2`; the `den` of the
`switch` (unrolled cases `1..4` included) is the `den` of the generic loop. -/
theorem PCOR_get_mcor_value (ref : PCOR_references ℝ) (vc : PCOR_voxel_corr ℝ) (m : Int)
    (pcor : List ℝ) (hn : vc.nref = ref.nref) (h2 : m < vc.nref) :
    ∃ out, PCOR_get_mcor Real.sqrt ref vc m pcor = Outcome.returned [] out ∧
      ∀ v, v < vc.nvox.toNat → v < pcor.length →
        (VCH vc v vc.nref + ∑ i ∈ Finset.Icc 1 m.toNat, (VCH vc v (vc.nref - (i : Int))) ^ 2 ≠ 0 →
          out.getD v 0 = Real.sqrt (max (1 - VCH vc v vc.nref /
            (VCH vc v vc.nref
              + ∑ i ∈ Finset.Icc 1 m.toNat, (VCH vc v (vc.nref - (i : Int))) ^ 2)) 0))
        ∧ PCOR_get_mcor_den vc v m = PCOR_get_mcor_loop vc v m (VCH vc v vc.nref)
        ∧ PCOR_get_mcor_den vc v m
            = VCH vc v vc.nref + ∑ i ∈ Finset.Icc 1 m.toNat, (VCH vc v (vc.nref - (i : Int))) ^ 2 := by
  have hne : ¬ vc.nref ≠ ref.nref := by simpa using hn
  have hm : ¬ m ≥ vc.nref := by omega
  unfold PCOR_get_mcor
  rw [if_neg hne, if_neg hm]
  refine ⟨_, rfl, ?_⟩
  intro v hv hl
  have hden := PCOR_get_mcor_den_eq_loop vc v m
  have hsum := PCOR_get_mcor_loop_eq vc v m (VCH vc v vc.nref)
  refine ⟨?_, hden, hden.trans hsum⟩
  intro _
  rw [store_loop_getD, if_pos ⟨hv, hl⟩]
  unfold PCOR_get_mcor_voxel
  rw [hden, hsum]
  by_cases hpos : 1 - VCH vc v vc.nref /
      (VCH vc v vc.nref + ∑ i ∈ Finset.Icc 1 m.toNat, (VCH vc v (vc.nref - (i : Int))) ^ 2) > 0
  · simp only [hpos, if_true]
    rw [max_eq_left (le_of_lt hpos)]
  · simp only [hpos, if_false]
    rw [max_eq_right (not_lt.mp hpos), Real.sqrt_zero]

theorem PCOR_get_pcor_and_coef_eq {K : Type} [LinearOrderedField K] (sqrt : K → K)
    (ref : PCOR_references K) (vc : PCOR_voxel_corr K) (p : K) (pcor coef : List K)
    (hn : vc.nref = ref.nref) :
    PCOR_get_pcor_and_coef sqrt ref vc p pcor coef = Outcome.returned []
      ((List.range vc.nvox.toNat).foldl
        (fun out vox => out.set vox (PCOR_get_pcor_and_coef_voxel sqrt ref vc p vox).1) pcor,
       (List.range vc.nvox.toNat).foldl
        (fun out vox => out.set vox (PCOR_get_pcor_and_coef_voxel sqrt ref vc p vox).2) coef) := by
  have hne : ¬ vc.nref ≠ ref.nref := by simpa using hn
  unfold PCOR_get_pcor_and_coef
  rw [if_neg hne]
  exact congrArg _ (store_loop_pair (fun vox => (PCOR_get_pcor_and_coef_voxel sqrt ref vc p vox).1)
      (fun vox => (PCOR_get_pcor_and_coef_voxel sqrt ref vc p vox).2) _ pcor coef)

theorem PCOR_get_pcor_eq {K : Type} [LinearOrderedField K] (sqrt : K → K)
    (ref : PCOR_references K) (vc : PCOR_voxel_corr K) (pcor : List K)
    (hn : vc.nref = ref.nref) :
    PCOR_get_pcor sqrt ref vc pcor = Outcome.returned []
      ((List.range vc.nvox.toNat).foldl
        (fun out vox => out.set vox (PCOR_get_pcor_voxel sqrt vc vox)) pcor) := by
  have hne : ¬ vc.nref ≠ ref.nref := by simpa using hn
  unfold PCOR_get_pcor
  rw [if_neg hne]

theorem PCOR_get_coef_eq {K : Type} [LinearOrderedField K]
    (ref : PCOR_references K) (vc : PCOR_voxel_corr K) (coef : List K)
    (hn : vc.nref = ref.nref) :
    PCOR_get_coef ref vc coef = Outcome.returned []
      ((List.range vc.nvox.toNat).foldl
        (fun out vox => out.set vox (PCOR_get_coef_voxel ref vc vox)) coef) := by
  have hne : ¬ vc.nref ≠ ref.nref := by simpa using hn
  unfold PCOR_get_coef
  rw [if_neg hne]

/-- C6 (counterexample): with `pcthresh = 0` and a voxel whose
`den = lastRow[nref] = 2.000001e-6 ≤ 1e-5` and `lastRow[nref-1] = 1`,
`PCOR_get_pcor` writes `0` but `PCOR_get_pcor_and_coef` writes
`pcor = 1000000/1000001`. -/
theorem PCOR_get_pcor_and_coef_low_den_differs :
    (2000001 / 1000000000000 : ℝ) ≤ 1 / 100000 ∧
    PCOR_get_pcor Real.sqrt ex_ref (ex_vc (0:ℝ) 1 (2000001 / 1000000000000)) [7]
      = Outcome.returned [] [0] ∧
    PCOR_get_pcor_and_coef Real.sqrt ex_ref (ex_vc (0:ℝ) 1 (2000001 / 1000000000000)) 0 [7] [7]
      = Outcome.returned [] ([1000000 / 1000001], [1]) := by
  have hs : Real.sqrt (2000001 / 1000000000000 + 1) = 1000001 / 1000000 := by
    rw [show (2000001 / 1000000000000 + 1 : ℝ) = (1000001 / 1000000) ^ 2 by norm_num]
    exact Real.sqrt_sq (by norm_num)
  refine ⟨by norm_num, ?_, ?_⟩
  · simp [PCOR_get_pcor, ex_ref, PCOR_get_pcor_voxel, ex_vc, VCH, VCHidx, List.range_succ,
      DENEPS]
    norm_num
  · simp [PCOR_get_pcor_and_coef, ex_ref, PCOR_get_pcor_and_coef_voxel, ex_vc, VCH, VCHidx,
      List.range_succ, SQR, RCH, rget]
    rw [hs]
    norm_num

/-- C6 (amended): for `pcthresh ≤ 0` and matching `nref`, all three routines
return; `PCOR_get_pcor_and_coef` writes the same `coef[v]` as `PCOR_get_coef`
for every voxel, and the same `pcor[v]` as `PCOR_get_pcor` for every voxel
with `den = lastRow[v][nref] > 1e-5`; where `den ≤ 1e-5`, `PCOR_get_pcor`
writes `0` and `PCOR_get_pcor_and_coef` writes `num / sqrt (den + num^2)`. -/
theorem PCOR_get_pcor_and_coef_unthresholded (ref : PCOR_references ℝ)
    (vc : PCOR_voxel_corr ℝ) (p : ℝ) (pcor coef : List ℝ)
    (hn : vc.nref = ref.nref) (hp : p ≤ 0) :
    ∃ P C Q D, PCOR_get_pcor_and_coef Real.sqrt ref vc p pcor coef = Outcome.returned [] (P, C) ∧
      PCOR_get_pcor Real.sqrt ref vc pcor = Outcome.returned [] Q ∧
      PCOR_get_coef ref vc coef = Outcome.returned [] D ∧
      ∀ v, v < vc.nvox.toNat → v < pcor.length → v < coef.length →
        C.getD v 0 = D.getD v 0 ∧
        (VCH vc v vc.nref > 1 / 100000 → P.getD v 0 = Q.getD v 0) ∧
        (VCH vc v vc.nref ≤ 1 / 100000 → Q.getD v 0 = 0 ∧
          P.getD v 0 = VCH vc v (vc.nref - 1) /
            Real.sqrt (VCH vc v vc.nref + VCH vc v (vc.nref - 1) ^ 2)) := by
  refine ⟨_, _, _, _, PCOR_get_pcor_and_coef_eq _ ref vc p pcor coef hn,
    PCOR_get_pcor_eq _ ref vc pcor hn, PCOR_get_coef_eq ref vc coef hn, ?_⟩
  intro v hv hl hc
  simp only [store_loop_getD, hv, hl, hc, and_self, if_true]
  have hvox : PCOR_get_pcor_and_coef_voxel Real.sqrt ref vc p v
      = (VCH vc v (vc.nref - 1) / Real.sqrt (VCH vc v vc.nref + VCH vc v (vc.nref - 1) ^ 2),
         1 / RCH ref (vc.nref - 1) (vc.nref - 1) * VCH vc v (vc.nref - 1)) := by
    unfold PCOR_get_pcor_and_coef_voxel
    simp only [hp, if_true, SQR, pow_two]
  rw [hvox]
  refine ⟨?_, ?_, ?_⟩
  · simp only [PCOR_get_coef_voxel]
  · intro hd
    have hd2 : VCH vc v vc.nref > DENEPS := by unfold DENEPS; exact hd
    simp only [PCOR_get_pcor_voxel, hd2, if_true, SQR, pow_two]
  · intro hd
    have hd2 : ¬ VCH vc v vc.nref > DENEPS := by unfold DENEPS; exact not_lt.mpr hd
    simp only [PCOR_get_pcor_voxel, hd2, if_false, and_self]

/-- C7 (the code at the failing input): with `pcthresh = 1/2` and a voxel
with `lastRow[nref-1] = 1`, `lastRow[nref] = 3`, the correlation is exactly
`1/2 ≥ pcthresh`, the test `num^2 > thfac*den` is `1 > 1`, and
`PCOR_get_pcor_and_coef` writes `(0, 0)`. -/
theorem PCOR_get_pcor_and_coef_boundary :
    |(1:ℝ) / Real.sqrt (3 + SQR 1)| = 1 / 2 ∧
    ¬ (SQR (1:ℝ) > SQR (1 / 2) / (1 - SQR (1 / 2)) * 3) ∧
    PCOR_get_pcor_and_coef Real.sqrt ex_ref (ex_vc (0:ℝ) 1 3) (1 / 2) [7] [7]
      = Outcome.returned [] ([0], [0]) := by
  have h4 : Real.sqrt 4 = 2 := by
    rw [show (4:ℝ) = 2 ^ 2 by norm_num]
    exact Real.sqrt_sq (by norm_num)
  refine ⟨?_, ?_, ?_⟩
  · simp only [SQR]
    rw [show (3:ℝ) + 1 * 1 = 4 by norm_num, h4]
    norm_num
  · simp only [SQR]; norm_num
  · simp [PCOR_get_pcor_and_coef, ex_ref, PCOR_get_pcor_and_coef_voxel, ex_vc, VCH, VCHidx,
      List.range_succ, SQR, RCH, rget]
    norm_num

theorem PCOR_get_lsqfit_count_none {K : Type} (nr : Nat) (fit : List (Option (List K)))
    (h : ∀ j, j < nr → fit.getD j none = none) : PCOR_get_lsqfit_count nr fit = 0 := by
  unfold PCOR_get_lsqfit_count
  induction nr with
  | zero => rfl
  | succ n ih =>
    rw [foldl_range_succ, ih (fun j hj => h j (by omega)), h n (by omega)]
    rfl

/-- C10: with matching `nref`, when no column is requested (every `fit[j]`,
`j < nref`, is `NULL`), `PCOR_get_lsqfit` prints its "NO OUTPUT REQUESTED"
diagnostic, of kind InvalidArgument, and returns with the caller's `fit`
storage exactly as it was. -/
theorem PCOR_get_lsqfit_no_request {K : Type} [LinearOrderedField K] (junk : Nat → K)
    (ref : PCOR_references K) (vc : PCOR_voxel_corr K) (fit : List (Option (List K)))
    (hn : vc.nref = ref.nref) (hnone : ∀ j, j < vc.nref.toNat → fit.getD j none = none) :
    PCOR_get_lsqfit junk ref vc fit = Outcome.returned [Diag.get_lsqfit_no_output] fit ∧
    Diag.get_lsqfit_no_output.kind = ErrorKind.InvalidArgument := by
  have hne : ¬ vc.nref ≠ ref.nref := by simpa using hn
  refine ⟨?_, rfl⟩
  unfold PCOR_get_lsqfit
  rw [if_neg hne]
  simp only [PCOR_get_lsqfit_count_none _ fit hnone, if_true]

/-- C10 (witness): two reference columns, none requested. -/
theorem PCOR_get_lsqfit_no_request_witness :
    (∀ j, j < (ex_vc (0:ℝ) 1 3).nref.toNat →
      ([none, none] : List (Option (List ℝ))).getD j none = none) ∧
    PCOR_get_lsqfit (fun _ => 0) ex_ref (ex_vc (0:ℝ) 1 3) [none, none]
      = Outcome.returned [Diag.get_lsqfit_no_output] [none, none] ∧
    Diag.get_lsqfit_no_output.kind = ErrorKind.InvalidArgument := by
  have h : ∀ j, j < (ex_vc (0:ℝ) 1 3).nref.toNat →
      ([none, none] : List (Option (List ℝ))).getD j none = none := by
    intro j hj
    have hj2 : j < 2 := by simpa [ex_vc] using hj
    interval_cases j <;> rfl
  exact ⟨h, PCOR_get_lsqfit_no_request (fun _ => 0) ex_ref (ex_vc (0:ℝ) 1 3) [none, none] rfl h⟩

/-- C3 (witness): the states `ex_ref`, `ex_vc 0 1 3` have the same `nref`. -/
theorem PCOR_get_pcor_range_witness :
    ∃ out, PCOR_get_pcor Real.sqrt ex_ref (ex_vc (0:ℝ) 1 3) [7] = Outcome.returned [] out ∧
      out.length = [(7:ℝ)].length ∧
      ∀ v, v < (ex_vc (0:ℝ) 1 3).nvox.toNat → v < [(7:ℝ)].length →
        out.getD v 0 = PCOR_get_pcor_voxel Real.sqrt (ex_vc (0:ℝ) 1 3) v ∧
        -1 ≤ out.getD v 0 ∧ out.getD v 0 ≤ 1 ∧
        (VCH (ex_vc (0:ℝ) 1 3) v (ex_vc (0:ℝ) 1 3).nref ≤ 1 / 100000 → out.getD v 0 = 0) :=
  PCOR_get_pcor_range ex_ref (ex_vc (0:ℝ) 1 3) [7] rfl

/-- C5 (witness): `m = 1` with `nref = 2`. -/
theorem PCOR_get_mcor_value_witness :
    ∃ out, PCOR_get_mcor Real.sqrt ex_ref (ex_vc (0:ℝ) 1 3) 1 [7] = Outcome.returned [] out ∧
      ∀ v, v < (ex_vc (0:ℝ) 1 3).nvox.toNat → v < [(7:ℝ)].length →
        (VCH (ex_vc (0:ℝ) 1 3) v (ex_vc (0:ℝ) 1 3).nref
            + ∑ i ∈ Finset.Icc 1 (1:Int).toNat,
                (VCH (ex_vc (0:ℝ) 1 3) v ((ex_vc (0:ℝ) 1 3).nref - (i : Int))) ^ 2 ≠ 0 →
          out.getD v 0 = Real.sqrt (max (1 - VCH (ex_vc (0:ℝ) 1 3) v (ex_vc (0:ℝ) 1 3).nref /
            (VCH (ex_vc (0:ℝ) 1 3) v (ex_vc (0:ℝ) 1 3).nref
              + ∑ i ∈ Finset.Icc 1 (1:Int).toNat,
                  (VCH (ex_vc (0:ℝ) 1 3) v ((ex_vc (0:ℝ) 1 3).nref - (i : Int))) ^ 2)) 0))
        ∧ PCOR_get_mcor_den (ex_vc (0:ℝ) 1 3) v 1
            = PCOR_get_mcor_loop (ex_vc (0:ℝ) 1 3) v 1
                (VCH (ex_vc (0:ℝ) 1 3) v (ex_vc (0:ℝ) 1 3).nref)
        ∧ PCOR_get_mcor_den (ex_vc (0:ℝ) 1 3) v 1
            = VCH (ex_vc (0:ℝ) 1 3) v (ex_vc (0:ℝ) 1 3).nref
              + ∑ i ∈ Finset.Icc 1 (1:Int).toNat,
                  (VCH (ex_vc (0:ℝ) 1 3) v ((ex_vc (0:ℝ) 1 3).nref - (i : Int))) ^ 2 :=
  PCOR_get_mcor_value ex_ref (ex_vc (0:ℝ) 1 3) 1 [7] rfl (by decide)

/-- C6 (witness of the amended statement): `pcthresh = 0`. -/
theorem PCOR_get_pcor_and_coef_unthresholded_witness :
    ∃ P C Q D, PCOR_get_pcor_and_coef Real.sqrt ex_ref (ex_vc (0:ℝ) 1 3) 0 [7] [7]
        = Outcome.returned [] (P, C) ∧
      PCOR_get_pcor Real.sqrt ex_ref (ex_vc (0:ℝ) 1 3) [7] = Outcome.returned [] Q ∧
      PCOR_get_coef ex_ref (ex_vc (0:ℝ) 1 3) [7] = Outcome.returned [] D ∧
      ∀ v, v < (ex_vc (0:ℝ) 1 3).nvox.toNat → v < [(7:ℝ)].length → v < [(7:ℝ)].length →
        C.getD v 0 = D.getD v 0 ∧
        (VCH (ex_vc (0:ℝ) 1 3) v (ex_vc (0:ℝ) 1 3).nref > 1 / 100000 →
          P.getD v 0 = Q.getD v 0) ∧
        (VCH (ex_vc (0:ℝ) 1 3) v (ex_vc (0:ℝ) 1 3).nref ≤ 1 / 100000 → Q.getD v 0 = 0 ∧
          P.getD v 0 = VCH (ex_vc (0:ℝ) 1 3) v ((ex_vc (0:ℝ) 1 3).nref - 1) /
            Real.sqrt (VCH (ex_vc (0:ℝ) 1 3) v (ex_vc (0:ℝ) 1 3).nref
              + VCH (ex_vc (0:ℝ) 1 3) v ((ex_vc (0:ℝ) 1 3).nref - 1) ^ 2)) :=
  PCOR_get_pcor_and_coef_unthresholded ex_ref (ex_vc (0:ℝ) 1 3) 0 [7] [7] rfl (le_refl 0)

theorem foldl_range'_sub {K : Type} [LinearOrderedField K] (f : Nat → K) (a len : Nat) (s : K) :
    (List.range' a len).foldl (fun s (k : Nat) => s - f k) s
      = s - ∑ k ∈ Finset.Ico a (a + len), f k := by
  induction len with
  | zero => simp
  | succ n ih =>
    rw [foldl_range'_succ, ih, ← add_assoc, Finset.sum_Ico_succ_top (by omega)]
    ring

theorem PCOR_get_lsqfit_sum_eq {K : Type} [LinearOrderedField K] (ref : PCOR_references K)
    (ff : List K) (nr jj : Nat) (sum : K) (hj : jj < nr) :
    PCOR_get_lsqfit_sum ref ff nr jj sum
      = sum - ∑ k ∈ Finset.Ico (jj + 1) nr, ff.getD k 0 * RCH ref k jj := by
  unfold PCOR_get_lsqfit_sum
  rw [foldl_range'_sub (fun k => ff.getD k 0 * RCH ref k jj)]
  have : jj + 1 + (nr - (jj + 1)) = nr := by omega
  rw [this]

theorem foldl_reverse_range_succ {σ : Type} (f : σ → Nat → σ) (s : σ) (n : Nat) :
    (List.range (n + 1)).reverse.foldl f s = (List.range n).reverse.foldl f (f s n) := by
  rw [List.range_succ, List.reverse_append]; rfl

theorem backsub_inv_loop {K : Type} [LinearOrderedField K] (ref : PCOR_references K)
    (vc : PCOR_voxel_corr K) (vox nr : Nat)
    (hd : ∀ j : Nat, j < nr → RCH ref j j ≠ 0) (n : Nat) (hn : n ≤ nr) (w : List K)
    (h : backsub_inv ref vc vox nr n w) :
    backsub_inv ref vc vox nr 0 ((List.range n).reverse.foldl
      (fun w (jj : Nat) =>
        w.set jj (PCOR_get_lsqfit_sum ref w nr jj (VCH vc vox jj) / RCH ref jj jj)) w) := by
  induction n generalizing w with
  | zero => exact h
  | succ n ih =>
    rw [foldl_reverse_range_succ]
    apply ih (by omega)
    obtain ⟨hlen, heq⟩ := h
    refine ⟨by rw [List.length_set]; exact hlen, ?_⟩
    intro j hj hjn
    have hnl : n < w.length := by omega
    by_cases hjeq : j = n
    · subst hjeq
      rw [Finset.sum_eq_sum_Ico_succ_bot hjn, getD_set, if_pos ⟨rfl, hnl⟩,
        PCOR_get_lsqfit_sum_eq ref w nr j _ hjn, div_mul_cancel₀ _ (hd j hjn)]
      have hrest : ∑ k ∈ Finset.Ico (j + 1) nr,
          (w.set j ((VCH vc vox j - ∑ k ∈ Finset.Ico (j + 1) nr, w.getD k 0 * RCH ref k j)
            / RCH ref j j)).getD k 0 * RCH ref k j
          = ∑ k ∈ Finset.Ico (j + 1) nr, w.getD k 0 * RCH ref k j := by
        apply Finset.sum_congr rfl
        intro k hk
        have hk2 := Finset.mem_Ico.mp hk
        rw [getD_set, if_neg (by omega)]
      rw [hrest]; ring
    · have hj2 : n + 1 ≤ j := by omega
      rw [← heq j hj2 hjn]
      apply Finset.sum_congr rfl
      intro k hk
      have hk2 := Finset.mem_Ico.mp hk
      rw [getD_set, if_neg (by omega)]

theorem PCOR_get_lsqfit_backsub_solves {K : Type} [LinearOrderedField K]
    (ref : PCOR_references K) (vc : PCOR_voxel_corr K)
    (vox nr : Nat) (ff : List K) (hlen : nr ≤ ff.length)
    (hd : ∀ j : Nat, j < nr → RCH ref j j ≠ 0) :
    backsub_inv ref vc vox nr 0 (PCOR_get_lsqfit_backsub ref vc vox nr ff) :=
  backsub_inv_loop ref vc vox nr hd nr (le_refl _) ff
    ⟨hlen, fun j h1 h2 => absurd h2 (by omega)⟩

theorem PCOR_get_lsqfit_backsub_length {K : Type} [LinearOrderedField K]
    (ref : PCOR_references K) (vc : PCOR_voxel_corr K) (vox nr : Nat) (ff : List K) :
    (PCOR_get_lsqfit_backsub ref vc vox nr ff).length = ff.length := by
  unfold PCOR_get_lsqfit_backsub
  generalize nr = n at *
  suffices h : ∀ (m : Nat) (w : List K), ((List.range m).reverse.foldl
      (fun w (jj : Nat) =>
        w.set jj (PCOR_get_lsqfit_sum ref w n jj (VCH vc vox jj) / RCH ref jj jj)) w).length
        = w.length from h n ff
  intro m
  induction m with
  | zero => intro w; rfl
  | succ m ih => intro w; rw [foldl_reverse_range_succ, ih, List.length_set]

theorem PCOR_get_lsqfit_loop_length {K : Type} [LinearOrderedField K] (junk : Nat → K)
    (ref : PCOR_references K) (vc : PCOR_voxel_corr K) (fit : List (Option (List K)))
    (n : Nat) : (PCOR_get_lsqfit_loop junk ref vc fit n).1.length = vc.nref.toNat := by
  unfold PCOR_get_lsqfit_loop
  induction n with
  | zero => simp [malloc]
  | succ n ih =>
    rw [foldl_range_succ]
    simp only [PCOR_get_lsqfit_voxel]
    rw [PCOR_get_lsqfit_backsub_length, ih]

/-- C9: with matching `nref` and a non-zero diagonal of `chol`, the workspace
`ff` that `PCOR_get_lsqfit` holds after the back-substitution of voxel `vox`
solves the triangular system: for every `j < nref`,
`Σ_{k=j..nref-1} ff[k]·chol[k][j] = lastRow[vox][j]`. -/
theorem PCOR_get_lsqfit_solves (junk : Nat → ℝ) (ref : PCOR_references ℝ)
    (vc : PCOR_voxel_corr ℝ) (fit : List (Option (List ℝ))) (vox : Nat)
    (hn : vc.nref = ref.nref)
    (hd : ∀ j : Nat, j < ref.nref.toNat → RCH ref j j ≠ 0) :
    ∀ j : Nat, j < ref.nref.toNat →
      ∑ k ∈ Finset.Ico j ref.nref.toNat,
        (PCOR_get_lsqfit_loop junk ref vc fit (vox + 1)).1.getD k 0 * RCH ref k j
        = VCH vc vox j := by
  intro j hj
  rw [← hn] at hd hj ⊢
  have hlen := PCOR_get_lsqfit_loop_length junk ref vc fit vox
  have h := PCOR_get_lsqfit_backsub_solves ref vc vox vc.nref.toNat
    (PCOR_get_lsqfit_loop junk ref vc fit vox).1 (le_of_eq hlen.symm) hd
  have e : (PCOR_get_lsqfit_loop junk ref vc fit (vox + 1)).1
      = PCOR_get_lsqfit_backsub ref vc vox vc.nref.toNat
          (PCOR_get_lsqfit_loop junk ref vc fit vox).1 := by
    unfold PCOR_get_lsqfit_loop
    rw [foldl_range_succ]
    rfl
  rw [e]
  exact h.2 j (Nat.zero_le j) hj

/-- C9 (witness): the identity factor of `ex_ref` has a non-zero diagonal;
the equation of column `0` for the voxel with last row `[0, 1, 3]`. -/
theorem PCOR_get_lsqfit_solves_witness :
    ∑ k ∈ Finset.Ico 0 (ex_ref : PCOR_references ℝ).nref.toNat,
      (PCOR_get_lsqfit_loop (fun _ => 0) ex_ref (ex_vc (0:ℝ) 1 3) [none, some [7]]
        (0 + 1)).1.getD k 0 * RCH ex_ref k (0:ℕ)
      = VCH (ex_vc (0:ℝ) 1 3) (0:ℕ) (0:ℕ) :=
  PCOR_get_lsqfit_solves (fun _ => 0) ex_ref (ex_vc (0:ℝ) 1 3) [none, some [7]] 0 rfl
    (by
      intro j hj
      have hj2 : j < 2 := by simpa [ex_ref] using hj
      interval_cases j <;> simp [RCH, rget, ex_ref]) 0 (by decide)

section Ragged

variable {K : Type}

theorem rset_length (c : List (List K)) (i j : Nat) (v : K) :
    (rset c i j v).length = c.length := by
  unfold rset; rw [List.length_set]

theorem rset_row_length (c : List (List K)) (i j : Nat) (v : K) (k : Nat) :
    ((rset c i j v).getD k []).length = (c.getD k []).length := by
  unfold rset
  rw [getD_set]
  split
  · next h => rw [List.length_set, h.1]
  · rfl

theorem rget_rset [LinearOrderedField K] (c : List (List K)) (i j : Nat) (v : K) (k l : Nat)
    (hi : i < c.length) (hj : j < (c.getD i []).length) :
    rget (rset c i j v) k l = if i = k ∧ j = l then v else rget c k l := by
  unfold rget rset
  rw [getD_set]
  by_cases hik : i = k
  · subst hik
    rw [if_pos ⟨rfl, hi⟩, getD_set]
    by_cases hjl : j = l
    · rw [if_pos ⟨hjl, hj⟩, if_pos ⟨rfl, hjl⟩]
    · rw [if_neg (fun h => hjl h.1), if_neg (fun h => hjl h.2)]
  · rw [if_neg (fun h => hik h.1), if_neg (fun h => hik h.1)]

theorem RCH_nat [LinearOrderedField K] (ref : PCOR_references K) (i j : Nat) :
    RCH ref (i : Int) (j : Int) = rget ref.chol i j := by
  unfold RCH
  rw [if_pos ⟨Int.ofNat_nonneg i, Int.ofNat_nonneg j⟩, Int.toNat_ofNat, Int.toNat_ofNat]

theorem setRCH_nat (ref : PCOR_references K) (i j : Nat) (v : K) :
    setRCH ref (i : Int) (j : Int) v = { ref with chol := rset ref.chol i j v } := by
  unfold setRCH
  rw [if_pos ⟨Int.ofNat_nonneg i, Int.ofNat_nonneg j⟩, Int.toNat_ofNat, Int.toNat_ofNat]

/-- Effect of the inner loop of `update_PCOR_references` on rows
`jj .. jj+len-1` of column `jj` and on the copy `zz` of the vector. -/
theorem update_inner_loop [LinearOrderedField K] (a f g : K) (jj len : Nat) (z : List K) (r : PCOR_references K)
    (hz : jj + len ≤ z.length) (hc : jj + len ≤ r.chol.length)
    (hrow : ∀ k, jj ≤ k → k < jj + len → jj < (r.chol.getD k []).length) :
    ((List.range' jj len).foldl (update_inner a f g jj) (z, r)).1.length = z.length ∧
    ((List.range' jj len).foldl (update_inner a f g jj) (z, r)).2
      = { r with chol := ((List.range' jj len).foldl (update_inner a f g jj) (z, r)).2.chol } ∧
    ((List.range' jj len).foldl (update_inner a f g jj) (z, r)).2.chol.length
      = r.chol.length ∧
    (∀ k, (((List.range' jj len).foldl (update_inner a f g jj) (z, r)).2.chol.getD k []).length
      = (r.chol.getD k []).length) ∧
    (∀ k, ((List.range' jj len).foldl (update_inner a f g jj) (z, r)).1.getD k 0
      = if jj ≤ k ∧ k < jj + len then z.getD k 0 - a * rget r.chol k jj else z.getD k 0) ∧
    (∀ k c, rget ((List.range' jj len).foldl (update_inner a f g jj) (z, r)).2.chol k c
      = if c = jj ∧ jj ≤ k ∧ k < jj + len then
          f * rget r.chol k jj + g * (z.getD k 0 - a * rget r.chol k jj)
        else rget r.chol k c) := by
  induction len with
  | zero =>
    refine ⟨rfl, rfl, rfl, fun _ => rfl, fun k => ?_, fun k c => ?_⟩
    · rw [if_neg (by omega)]; rfl
    · rw [if_neg (by omega)]; rfl
  | succ n ih =>
    obtain ⟨h1, h2, h3, h4, h5, h6⟩ := ih (by omega) (by omega)
      (fun k hk1 hk2 => hrow k hk1 (by omega))
    rw [foldl_range'_succ]
    generalize (List.range' jj n).foldl (update_inner a f g jj) (z, r) = s at *
    obtain ⟨z1, r1⟩ := s
    simp only at h1 h2 h3 h4 h5 h6
    have hzk : z1.getD (jj + n) 0 = z.getD (jj + n) 0 := by rw [h5, if_neg (by omega)]
    have hLk : rget r1.chol (jj + n) jj = rget r.chol (jj + n) jj := by
      rw [h6, if_neg (by omega)]
    have hin : jj + n < z1.length := by omega
    have hcn : jj + n < r1.chol.length := by omega
    have hrn : jj < (r1.chol.getD (jj + n) []).length := by
      rw [h4]; exact hrow _ (by omega) (by omega)
    simp only [update_inner, RCH_nat, setRCH_nat, getD_set, hzk, hLk, hin, and_self, if_true]
    refine ⟨by rw [List.length_set, h1], ?_, by rw [rset_length, h3], ?_, ?_, ?_⟩
    · rw [h2]
    · intro k; rw [rset_row_length, h4]
    · intro k
      by_cases hk : jj + n = k
      · subst hk
        rw [if_pos ⟨rfl, trivial⟩, if_pos ⟨by omega, by omega⟩]
      · rw [if_neg (fun h => hk h.1), h5]
        by_cases hk2 : jj ≤ k ∧ k < jj + n
        · rw [if_pos hk2, if_pos ⟨hk2.1, by omega⟩]
        · rw [if_neg hk2, if_neg (by omega)]
    · intro k c
      rw [rget_rset _ _ _ _ _ _ hcn hrn, h6]
      by_cases hk : jj + n = k ∧ jj = c
      · obtain ⟨hk1, hk2⟩ := hk
        subst hk1; subst hk2
        rw [if_pos ⟨rfl, rfl⟩, if_pos ⟨rfl, by omega, by omega⟩]
      · rw [if_neg hk]
        by_cases hk2 : c = jj ∧ jj ≤ k ∧ k < jj + n
        · rw [if_pos hk2, if_pos ⟨hk2.1, hk2.2.1, by omega⟩]
        · rw [if_neg hk2, if_neg (by omega)]

end Ragged

/-- One column of the Carlson rotation preserves `L·Lᵀ + z·zᵀ/β²`. -/
theorem carlson_step (b bn a Lk Ll zk zl : ℝ) (hb : b ≠ 0) (hbn : bn ≠ 0)
    (h : bn * bn = b * b + a * a) :
    (bn / b * Lk + a / (bn * b) * (zk - a * Lk)) * (bn / b * Ll + a / (bn * b) * (zl - a * Ll))
      + (zk - a * Lk) * (zl - a * Ll) / (bn * bn) = Lk * Ll + zk * zl / (b * b) := by
  have key : (bn / b * Lk + a / (bn * b) * (zk - a * Lk))
        * (bn / b * Ll + a / (bn * b) * (zl - a * Ll))
      + (zk - a * Lk) * (zl - a * Ll) / (bn * bn) - (Lk * Ll + zk * zl / (b * b))
      = (bn * bn - (b * b + a * a)) * (bn * bn * Lk * Ll - (zk - a * Lk) * (zl - a * Ll))
          / (bn * bn * (b * b)) := by
    field_simp
    ring
  rw [sub_eq_zero.mpr h, zero_mul, zero_div] at key
  exact sub_eq_zero.mp key

/-- Effect of one iteration of the outer loop of `update_PCOR_references`
(column `jj`) on a state whose rows `jj .. n-1` hold column `jj`. -/
theorem update_outer_step {K : Type} [LinearOrderedField K] (sqrt : K → K) (n jj : Nat)
    (b : K) (z : List K) (r : PCOR_references K) (hj : jj < n)
    (hz : n ≤ z.length) (hc : n ≤ r.chol.length)
    (hrow : ∀ k, jj ≤ k → k < n → jj < (r.chol.getD k []).length) :
    (update_outer sqrt n (b, z, r) jj).1
        = sqrt (b * b + z.getD jj 0 / rget r.chol jj jj * (z.getD jj 0 / rget r.chol jj jj)) ∧
    (update_outer sqrt n (b, z, r) jj).2.1.length = z.length ∧
    (update_outer sqrt n (b, z, r) jj).2.2.nref = r.nref ∧
    (update_outer sqrt n (b, z, r) jj).2.2.betasq = r.betasq ∧
    (update_outer sqrt n (b, z, r) jj).2.2.nupdate = r.nupdate ∧
    (update_outer sqrt n (b, z, r) jj).2.2.alp
        = r.alp.set jj (z.getD jj 0 / rget r.chol jj jj) ∧
    (update_outer sqrt n (b, z, r) jj).2.2.ff
        = r.ff.set jj ((update_outer sqrt n (b, z, r) jj).1 / b) ∧
    (update_outer sqrt n (b, z, r) jj).2.2.gg
        = r.gg.set jj (z.getD jj 0 / rget r.chol jj jj
            / ((update_outer sqrt n (b, z, r) jj).1 * b)) ∧
    (update_outer sqrt n (b, z, r) jj).2.2.chol.length = r.chol.length ∧
    (∀ k, ((update_outer sqrt n (b, z, r) jj).2.2.chol.getD k []).length
        = (r.chol.getD k []).length) ∧
    (∀ k, (update_outer sqrt n (b, z, r) jj).2.1.getD k 0
        = if jj ≤ k ∧ k < n then
            z.getD k 0 - z.getD jj 0 / rget r.chol jj jj * rget r.chol k jj
          else z.getD k 0) ∧
    (∀ k c, rget (update_outer sqrt n (b, z, r) jj).2.2.chol k c
        = if c = jj ∧ jj ≤ k ∧ k < n then
            (update_outer sqrt n (b, z, r) jj).1 / b * rget r.chol k jj
              + z.getD jj 0 / rget r.chol jj jj / ((update_outer sqrt n (b, z, r) jj).1 * b)
                * (z.getD k 0 - z.getD jj 0 / rget r.chol jj jj * rget r.chol k jj)
          else rget r.chol k c) := by
  have hlen : jj + (n - jj) = n := by omega
  have key := update_inner_loop (z.getD jj 0 / rget r.chol jj jj)
    (sqrt (b * b + z.getD jj 0 / rget r.chol jj jj * (z.getD jj 0 / rget r.chol jj jj)) / b)
    (z.getD jj 0 / rget r.chol jj jj /
      (sqrt (b * b + z.getD jj 0 / rget r.chol jj jj * (z.getD jj 0 / rget r.chol jj jj)) * b))
    jj (n - jj) z
    { r with alp := r.alp.set jj (z.getD jj 0 / rget r.chol jj jj),
             ff := r.ff.set jj
               (sqrt (b * b + z.getD jj 0 / rget r.chol jj jj * (z.getD jj 0 / rget r.chol jj jj))
                 / b),
             gg := r.gg.set jj (z.getD jj 0 / rget r.chol jj jj /
               (sqrt (b * b + z.getD jj 0 / rget r.chol jj jj
                  * (z.getD jj 0 / rget r.chol jj jj)) * b)) }
    (by omega) (by simp only []; omega) (fun k h1 h2 => hrow k h1 (by omega))
  simp only [hlen] at key
  obtain ⟨h1, h2, h3, h4, h5, h6⟩ := key
  simp only [update_outer, RCH_nat]
  refine ⟨trivial, h1, ?_, ?_, ?_, ?_, ?_, ?_, h3, h4, h5, h6⟩
  · rw [h2]
  · rw [h2]
  · rw [h2]
  · rw [h2]
  · rw [h2]
  · rw [h2]

theorem UpdInv_init (n : Nat) (z0 : List ℝ) (r0 : PCOR_references ℝ) :
    UpdInv n z0 r0 0 (1, z0, r0) where
  nref_eq := rfl
  betasq_eq := rfl
  nupdate_eq := rfl
  z_len := rfl
  chol_len := rfl
  row_len := fun _ => rfl
  alp_len := rfl
  ff_len := rfl
  gg_len := rfl
  b_ge := le_refl _
  z_zero := fun k hk => absurd hk (Nat.not_lt_zero k)
  col_same := fun _ _ _ => rfl
  gram := fun k l _ _ => by simp
  diag := fun i hi => absurd hi (Nat.not_lt_zero i)
  bsq := by simp

theorem UpdInv_step (n : Nat) (z0 : List ℝ) (r0 : PCOR_references ℝ) (H : UpdHyp n z0 r0)
    (j : Nat) (hj : j < n) (s : ℝ × List ℝ × PCOR_references ℝ) (h : UpdInv n z0 r0 j s) :
    UpdInv n z0 r0 (j + 1) (update_outer Real.sqrt n s j) := by
  obtain ⟨b, z, r⟩ := s
  obtain ⟨i1, i2, i3, i4, i5, i6, i7, i8, i9, i10, i11, i12, i13, i14, i15⟩ := h
  simp only at i1 i2 i3 i4 i5 i6 i7 i8 i9 i10 i11 i12 i13 i14 i15
  have hz : n ≤ z.length := by rw [i4]; exact H.z0_len
  have hc : n ≤ r.chol.length := by rw [i5, H.chol_len]
  have hrow : ∀ k, j ≤ k → k < n → j < (r.chol.getD k []).length := by
    intro k h1 h2; rw [i6, H.row_len k h2]; omega
  have hL : rget r.chol j j = rget r0.chol j j := i12 j j (le_refl j)
  have hLpos : 0 < rget r.chol j j := by rw [hL]; exact H.diag_pos j hj
  obtain ⟨e1, e2, e3, e4, e5, e6, e7, e8, e9, e10, e11, e12⟩ :=
    update_outer_step Real.sqrt n j b z r hj hz hc hrow
  generalize update_outer Real.sqrt n (b, z, r) j = t at *
  obtain ⟨bn, z', r'⟩ := t
  simp only at e1 e2 e3 e4 e5 e6 e7 e8 e9 e10 e11 e12
  generalize ha : z.getD j 0 / rget r.chol j j = a at *
  have hbpos : 0 < b := lt_of_lt_of_le one_pos i10
  have hnn : 0 ≤ b * b + a * a := add_nonneg (mul_self_nonneg b) (mul_self_nonneg a)
  have hsq : bn * bn = b * b + a * a := by rw [e1]; exact Real.mul_self_sqrt hnn
  have hbn0 : 0 ≤ bn := by rw [e1]; exact Real.sqrt_nonneg _
  have hbbn : b ≤ bn := by
    by_contra hlt
    have hlt2 : bn < b := not_le.mp hlt
    nlinarith [mul_self_nonneg a]
  have hbnpos : 0 < bn := lt_of_lt_of_le hbpos hbbn
  have hzj : z.getD j 0 - a * rget r.chol j j = 0 := by
    rw [← ha, div_mul_cancel₀ _ (ne_of_gt hLpos), sub_self]
  have hf : 1 ≤ bn / b := (one_le_div hbpos).mpr hbbn
  refine
    { nref_eq := e3.trans i1
      betasq_eq := e4.trans i2
      nupdate_eq := e5.trans i3
      z_len := e2.trans i4
      chol_len := e9.trans i5
      row_len := fun k => (e10 k).trans (i6 k)
      alp_len := by rw [e6, List.length_set]; exact i7
      ff_len := by rw [e7, List.length_set]; exact i8
      gg_len := by rw [e8, List.length_set]; exact i9
      b_ge := le_trans i10 hbbn
      z_zero := ?_
      col_same := ?_
      gram := ?_
      diag := ?_
      bsq := ?_ }
  · intro k hk
    show z'.getD k 0 = 0
    rw [e11]
    by_cases hkj : k = j
    · subst hkj; rw [if_pos ⟨le_refl k, hj⟩]; exact hzj
    · rw [if_neg (by omega)]; exact i11 k (by omega)
  · intro k c hcj
    show rget r'.chol k c = rget r0.chol k c
    rw [e12, if_neg (by omega)]
    exact i12 k c (by omega)
  · intro k l hk hl
    show (∑ c ∈ Finset.range (min k l + 1), rget r'.chol k c * rget r'.chol l c)
      + z'.getD k 0 * z'.getD l 0 / (bn * bn) = _
    rw [← i13 k l hk hl]
    by_cases hjm : j ≤ min k l
    · have hjk : j ≤ k := le_trans hjm (min_le_left k l)
      have hjl : j ≤ l := le_trans hjm (min_le_right k l)
      have hmem : j ∈ Finset.range (min k l + 1) := Finset.mem_range.mpr (by omega)
      rw [← Finset.add_sum_erase _ _ hmem, ← Finset.add_sum_erase _ _ hmem]
      have hrest : ∑ c ∈ (Finset.range (min k l + 1)).erase j, rget r'.chol k c * rget r'.chol l c
          = ∑ c ∈ (Finset.range (min k l + 1)).erase j, rget r.chol k c * rget r.chol l c := by
        apply Finset.sum_congr rfl
        intro c hcm
        have hne : c ≠ j := (Finset.mem_erase.mp hcm).1
        rw [e12, e12, if_neg (fun h => hne h.1), if_neg (fun h => hne h.1)]
      rw [hrest, e12 k j, e12 l j, if_pos ⟨rfl, hjk, hk⟩, if_pos ⟨rfl, hjl, hl⟩, e11 k, e11 l,
        if_pos ⟨hjk, hk⟩, if_pos ⟨hjl, hl⟩]
      have hstep := carlson_step b bn a (rget r.chol k j) (rget r.chol l j) (z.getD k 0)
        (z.getD l 0) (ne_of_gt hbpos) (ne_of_gt hbnpos) hsq
      linarith
    · have hall : ∑ c ∈ Finset.range (min k l + 1), rget r'.chol k c * rget r'.chol l c
          = ∑ c ∈ Finset.range (min k l + 1), rget r.chol k c * rget r.chol l c := by
        apply Finset.sum_congr rfl
        intro c hcm
        have hlt : c < min k l + 1 := Finset.mem_range.mp hcm
        rw [e12, e12, if_neg (by omega), if_neg (by omega)]
      rw [hall]
      rcases le_total k l with hkl | hkl
      · have hkj : k < j := by rw [min_eq_left hkl] at hjm; omega
        rw [e11 k, if_neg (by omega), i11 k hkj]
        simp
      · have hlj : l < j := by rw [min_eq_right hkl] at hjm; omega
        rw [e11 l, if_neg (by omega), i11 l hlj]
        simp
  · intro i hi
    show 1 ≤ r'.ff.getD i 0 ∧ rget r'.chol i i = r'.ff.getD i 0 * rget r0.chol i i
    rw [e7, getD_set, e12]
    by_cases hij : i = j
    · subst hij
      have hlen : i < r.ff.length := by rw [i8]; exact lt_of_lt_of_le hj H.ff_len
      rw [if_pos ⟨rfl, hlen⟩, if_pos ⟨rfl, le_refl i, hj⟩, hzj, mul_zero, add_zero, hL]
      exact ⟨hf, rfl⟩
    · rw [if_neg (fun h => hij h.1.symm), if_neg (fun h => hij h.1)]
      exact i14 i (by omega)
  · show bn * bn = 1 + ∑ i ∈ Finset.range (j + 1), r'.alp.getD i 0 ^ 2
    rw [hsq, i15, Finset.sum_range_succ, e6]
    have hlen : j < r.alp.length := by rw [i7]; exact lt_of_lt_of_le hj H.alp_len
    have hprev : ∑ i ∈ Finset.range j, (r.alp.set j a).getD i 0 ^ 2
        = ∑ i ∈ Finset.range j, r.alp.getD i 0 ^ 2 := by
      apply Finset.sum_congr rfl
      intro i him
      have : i < j := Finset.mem_range.mp him
      rw [getD_set, if_neg (by omega)]
    rw [hprev, getD_set, if_pos ⟨rfl, hlen⟩]
    ring

/-- Loop rule for a counted loop `for( i=0 ; i < n ; i++ )`. -/
theorem foldl_range_inv {σ : Type} (P : Nat → σ → Prop) (f : σ → Nat → σ) (s0 : σ) (n : Nat)
    (h0 : P 0 s0) (hstep : ∀ i s, i < n → P i s → P (i + 1) (f s i)) :
    P n ((List.range n).foldl f s0) := by
  induction n with
  | zero => exact h0
  | succ m ih =>
    rw [foldl_range_succ]
    exact hstep m _ (Nat.lt_succ_self m) (ih (fun i s hi hp => hstep i s (by omega) hp))

theorem malloc_length {K : Type} [LinearOrderedField K] (junk : Nat → K) (n : Int) :
    (malloc junk n).length = n.toNat := by
  simp [malloc]

/-- What one call of `update_PCOR_references` does, in terms of the loop
invariant at the exit of the outer loop. -/
theorem update_PCOR_references_inv (junk : Nat → ℝ) (vec : List ℝ) (ref : PCOR_references ℝ)
    (st : PCOR_scratch ℝ) (hs : ref.shaped) (hst : st.ok)
    (hd : ∀ i, i < ref.nref.toNat → 0 < rget ref.chol i i) :
    ∃ (z0 : List ℝ) (s : ℝ × List ℝ × PCOR_references ℝ),
      z0.length = (if st.zz_size < ref.nref then ref.nref else st.zz_size).toNat ∧
      ref.nref.toNat ≤ z0.length ∧
      (∀ k, k < ref.nref.toNat → z0.getD k 0 = vec.getD k 0) ∧
      UpdInv ref.nref.toNat z0 ref ref.nref.toNat s ∧
      update_PCOR_references Real.sqrt junk vec ref st
        = ({ s.2.2 with betasq := 1 / (s.1 * s.1), nupdate := s.2.2.nupdate + 1 },
           { zz := s.2.1,
             zz_size := if st.zz_size < ref.nref then ref.nref else st.zz_size }) := by
  obtain ⟨h1, h2, h3, h4, h5, h6⟩ := hs
  have hlen1 : ((if st.zz_size < ref.nref then
      ({ zz := malloc junk ref.nref, zz_size := ref.nref } : PCOR_scratch ℝ) else st).zz).length
      = (if st.zz_size < ref.nref then ref.nref else st.zz_size).toNat := by
    by_cases hlt : st.zz_size < ref.nref
    · rw [if_pos hlt, if_pos hlt]; exact malloc_length junk ref.nref
    · rw [if_neg hlt, if_neg hlt]; exact hst
  have hsz : (if st.zz_size < ref.nref then
      ({ zz := malloc junk ref.nref, zz_size := ref.nref } : PCOR_scratch ℝ) else st).zz_size
      = if st.zz_size < ref.nref then ref.nref else st.zz_size := by
    by_cases hlt : st.zz_size < ref.nref
    · rw [if_pos hlt, if_pos hlt]
    · rw [if_neg hlt, if_neg hlt]
  have hge : ref.nref.toNat ≤ (if st.zz_size < ref.nref then ref.nref else st.zz_size).toNat := by
    by_cases hlt : st.zz_size < ref.nref
    · rw [if_pos hlt]
    · rw [if_neg hlt]; omega
  refine ⟨(List.range ref.nref.toNat).foldl (fun zz (jj : Nat) => zz.set jj (vec.getD jj 0))
      (if st.zz_size < ref.nref then
        ({ zz := malloc junk ref.nref, zz_size := ref.nref } : PCOR_scratch ℝ) else st).zz,
    (List.range ref.nref.toNat).foldl (update_outer Real.sqrt ref.nref.toNat)
      (1, (List.range ref.nref.toNat).foldl (fun zz (jj : Nat) => zz.set jj (vec.getD jj 0))
        (if st.zz_size < ref.nref then
          ({ zz := malloc junk ref.nref, zz_size := ref.nref } : PCOR_scratch ℝ) else st).zz,
       ref), ?_, ?_, ?_, ?_, ?_⟩
  · rw [store_loop_length, hlen1]
  · rw [store_loop_length, hlen1]; exact hge
  · intro k hk
    rw [store_loop_getD, if_pos ⟨hk, by rw [hlen1]; omega⟩]
  · apply foldl_range_inv (UpdInv ref.nref.toNat _ ref)
    · exact UpdInv_init _ _ _
    · intro i s hi hinv
      refine UpdInv_step _ _ _ ?_ i hi s hinv
      exact
        { z0_len := by rw [store_loop_length, hlen1]; exact hge
          chol_len := h2
          row_len := h3
          alp_len := le_of_eq h4.symm
          ff_len := le_of_eq h5.symm
          gg_len := le_of_eq h6.symm
          diag_pos := hd }
  · unfold update_PCOR_references
    simp only [hsz]

/-- Summary of one update on a shaped state with positive diagonal: the
shape and the static storage stay consistent, `nref` is kept, every diagonal
entry is multiplied by the saved factor `ff[i] ≥ 1`, and `L·Lᵀ` grows by
`vec·vecᵀ`. -/
theorem update_PCOR_references_summary (junk : Nat → ℝ) (vec : List ℝ)
    (ref : PCOR_references ℝ) (st : PCOR_scratch ℝ) (hs : ref.shaped) (hst : st.ok)
    (hd : ∀ i : Nat, i < ref.nref.toNat → 0 < RCH ref i i) :
    (update_PCOR_references Real.sqrt junk vec ref st).1.shaped ∧
    (update_PCOR_references Real.sqrt junk vec ref st).2.ok ∧
    (update_PCOR_references Real.sqrt junk vec ref st).1.nref = ref.nref ∧
    (∀ i : Nat, i < ref.nref.toNat →
      1 ≤ (update_PCOR_references Real.sqrt junk vec ref st).1.ff.getD i 0 ∧
      RCH (update_PCOR_references Real.sqrt junk vec ref st).1 i i
        = (update_PCOR_references Real.sqrt junk vec ref st).1.ff.getD i 0 * RCH ref i i) ∧
    (∀ k l : Nat, k < ref.nref.toNat → l < ref.nref.toNat →
      LLt (update_PCOR_references Real.sqrt junk vec ref st).1 k l
        = LLt ref k l + vec.getD k 0 * vec.getD l 0) := by
  have hd2 : ∀ i, i < ref.nref.toNat → 0 < rget ref.chol i i := by
    intro i hi; rw [← RCH_nat]; exact hd i hi
  obtain ⟨z0, s, hz0, hz1, hz2, hinv, heq⟩ := update_PCOR_references_inv junk vec ref st hs hst hd2
  obtain ⟨h1, h2, h3, h4, h5, h6⟩ := hs
  rw [heq]
  refine ⟨⟨?_, ?_, ?_, ?_, ?_, ?_⟩, ?_, hinv.nref_eq, ?_, ?_⟩
  · show 1 ≤ s.2.2.nref
    rw [hinv.nref_eq]; exact h1
  · show s.2.2.chol.length = s.2.2.nref.toNat
    rw [hinv.chol_len, hinv.nref_eq]; exact h2
  · show ∀ i, i < s.2.2.nref.toNat → (s.2.2.chol.getD i []).length = i + 1
    intro i hi
    rw [hinv.nref_eq] at hi
    rw [hinv.row_len]; exact h3 i hi
  · show s.2.2.alp.length = s.2.2.nref.toNat
    rw [hinv.alp_len, hinv.nref_eq]; exact h4
  · show s.2.2.ff.length = s.2.2.nref.toNat
    rw [hinv.ff_len, hinv.nref_eq]; exact h5
  · show s.2.2.gg.length = s.2.2.nref.toNat
    rw [hinv.gg_len, hinv.nref_eq]; exact h6
  · show s.2.1.length = (if st.zz_size < ref.nref then ref.nref else st.zz_size).toNat
    rw [hinv.z_len]; exact hz0
  · intro i hi
    simp only [RCH_nat]
    exact hinv.diag i hi
  · intro k l hk hl
    have hg := hinv.gram k l hk hl
    rw [hinv.z_zero k hk, zero_mul, zero_div, add_zero, hz2 k hk, hz2 l hl] at hg
    simp only [LLt, RCH_nat]
    exact hg

section Fresh

variable {K : Type} [LinearOrderedField K]

theorem init_row_loop (ii m : Nat) (r : PCOR_references K) (hi : ii < r.chol.length)
    (hm : m ≤ (r.chol.getD ii []).length) :
    (List.range m).foldl (fun r (jj : Nat) => setRCH r ii jj 0) r
      = { r with chol := ((List.range m).foldl (fun r (jj : Nat) => setRCH r ii jj 0) r).chol } ∧
    ((List.range m).foldl (fun r (jj : Nat) => setRCH r ii jj 0) r).chol.length
      = r.chol.length ∧
    (∀ k, (((List.range m).foldl (fun r (jj : Nat) => setRCH r ii jj 0) r).chol.getD k []).length
      = (r.chol.getD k []).length) ∧
    (∀ k c, rget ((List.range m).foldl (fun r (jj : Nat) => setRCH r ii jj 0) r).chol k c
      = if k = ii ∧ c < m then 0 else rget r.chol k c) := by
  induction m with
  | zero =>
    refine ⟨rfl, rfl, fun _ => rfl, fun k c => ?_⟩
    rw [if_neg (by omega)]; rfl
  | succ n ih =>
    obtain ⟨h1, h2, h3, h4⟩ := ih (by omega)
    rw [foldl_range_succ]
    generalize (List.range n).foldl (fun r (jj : Nat) => setRCH r ii jj 0) r = t at *
    simp only [setRCH_nat]
    refine ⟨by rw [h1], by rw [rset_length, h2], fun k => by rw [rset_row_length, h3], ?_⟩
    intro k c
    rw [rget_rset _ _ _ _ _ _ (by omega) (by rw [h3]; omega), h4]
    by_cases hk : ii = k ∧ n = c
    · rw [if_pos hk, if_pos ⟨hk.1.symm, by omega⟩]
    · rw [if_neg hk]
      by_cases hk2 : k = ii ∧ c < n
      · rw [if_pos hk2, if_pos ⟨hk2.1, by omega⟩]
      · rw [if_neg hk2, if_neg (by omega)]

theorem new_PCOR_references_row_spec (eps : K) (ii : Nat) (r : PCOR_references K)
    (hi : ii < r.chol.length) (hm : (r.chol.getD ii []).length = ii + 1) :
    new_PCOR_references_row eps r ii
      = { r with chol := (new_PCOR_references_row eps r ii).chol } ∧
    (new_PCOR_references_row eps r ii).chol.length = r.chol.length ∧
    (∀ k, ((new_PCOR_references_row eps r ii).chol.getD k []).length
      = (r.chol.getD k []).length) ∧
    (∀ k c, rget (new_PCOR_references_row eps r ii).chol k c
      = if k = ii ∧ c ≤ ii then (if c = ii then eps else 0) else rget r.chol k c) := by
  obtain ⟨h1, h2, h3, h4⟩ := init_row_loop ii ii r hi (by omega)
  unfold new_PCOR_references_row
  generalize (List.range ii).foldl (fun r (jj : Nat) => setRCH r ii jj 0) r = t at *
  simp only [setRCH_nat]
  refine ⟨by rw [h1], by rw [rset_length, h2], fun k => by rw [rset_row_length, h3], ?_⟩
  intro k c
  rw [rget_rset _ _ _ _ _ _ (by omega) (by rw [h3]; omega), h4]
  by_cases hk : ii = k ∧ ii = c
  · rw [if_pos hk, if_pos ⟨hk.1.symm, by omega⟩, if_pos hk.2.symm]
  · rw [if_neg hk]
    by_cases hk2 : k = ii ∧ c < ii
    · rw [if_pos hk2, if_pos ⟨hk2.1, by omega⟩, if_neg (by omega)]
    · rw [if_neg hk2, if_neg (by omega)]

/-- The state `new_PCOR_references` returns for `numref ≥ 1`: it is shaped,
with `REF_EPS` on the diagonal and `0` below it. -/
theorem new_PCOR_references_spec (eps : K) (junk : Nat → K) (numref : Int) (h : 1 ≤ numref) :
    ∃ ref, new_PCOR_references eps junk numref = some ref ∧ ref.shaped ∧
      ref.nref = numref ∧ ref.nupdate = 0 ∧
      ∀ i j, i < numref.toNat → j ≤ i → rget ref.chol i j = if j = i then eps else 0 := by
  have hlt : ¬ numref < 1 := by omega
  unfold new_PCOR_references
  rw [if_neg hlt]
  refine ⟨_, rfl, ?_⟩
  have hrow0 : ∀ k, k < numref.toNat →
      (((List.range numref.toNat).map (fun (ii : Nat) => malloc junk ((ii : Int) + 1))).getD k
        []).length = k + 1 := by
    intro k hk
    rw [List.getD_eq_getElem?_getD, List.getElem?_map,
      List.getElem?_range (by exact hk)]
    simp only [Option.map_some', Option.getD_some, malloc_length]
    omega
  have hinv := foldl_range_inv
    (FreshInv eps
      { nref := numref, nupdate := 0,
        chol := (List.range numref.toNat).map (fun (ii : Nat) => malloc junk ((ii : Int) + 1)),
        alp := malloc junk numref, ff := malloc junk numref, gg := malloc junk numref,
        betasq := junk 0 })
    (new_PCOR_references_row eps)
    { nref := numref, nupdate := 0,
      chol := (List.range numref.toNat).map (fun (ii : Nat) => malloc junk ((ii : Int) + 1)),
      alp := malloc junk numref, ff := malloc junk numref, gg := malloc junk numref,
      betasq := junk 0 }
    numref.toNat
    ⟨rfl, rfl, fun _ => rfl, fun k c hk => absurd hk (Nat.not_lt_zero k)⟩
    (by
      intro i t hi ⟨t1, t2, t3, t4⟩
      have hil : i < t.chol.length := by rw [t2]; simpa using hi
      obtain ⟨e1, e2, e3, e4⟩ := new_PCOR_references_row_spec eps i t hil
        (by rw [t3]; exact hrow0 i hi)
      refine ⟨by rw [e1, t1], e2.trans t2, fun k => (e3 k).trans (t3 k), ?_⟩
      intro k c hk hc
      rw [e4]
      by_cases hki : k = i
      · rw [if_pos ⟨hki, by omega⟩]
        subst hki; rfl
      · rw [if_neg (fun hh => hki hh.1)]
        exact t4 k c (by omega) hc)
  generalize (List.range numref.toNat).foldl (new_PCOR_references_row eps) _ = t at *
  obtain ⟨t1, t2, t3, t4⟩ := hinv
  simp only [List.length_map, List.length_range] at t2
  refine ⟨⟨?_, ?_, ?_, ?_, ?_, ?_⟩, ?_, ?_, t4⟩
  · rw [t1]; exact h
  · rw [t1]; exact t2
  · intro i hi
    have hi2 : i < numref.toNat := by rw [t1] at hi; exact hi
    rw [t3]; exact hrow0 i hi2
  · rw [t1]; exact malloc_length junk numref
  · rw [t1]; exact malloc_length junk numref
  · rw [t1]; exact malloc_length junk numref
  · rw [t1]
  · rw [t1]

end Fresh

/-- Summary of a sequence of updates on a shaped state with positive
diagonal: shape and static storage stay consistent, no diagonal entry
decreases, and `L·Lᵀ` grows by the sum of the `vec·vecᵀ`. -/
theorem absorb_references_summary (junk : Nat → ℝ) (vecs : List (List ℝ)) :
    ∀ (ref : PCOR_references ℝ) (st : PCOR_scratch ℝ), ref.shaped → st.ok →
      (∀ i : Nat, i < ref.nref.toNat → 0 < RCH ref i i) →
      (absorb_references Real.sqrt junk vecs (ref, st)).1.shaped ∧
      (absorb_references Real.sqrt junk vecs (ref, st)).2.ok ∧
      (absorb_references Real.sqrt junk vecs (ref, st)).1.nref = ref.nref ∧
      (∀ i : Nat, i < ref.nref.toNat →
        RCH ref i i ≤ RCH (absorb_references Real.sqrt junk vecs (ref, st)).1 i i) ∧
      (∀ k l : Nat, k < ref.nref.toNat → l < ref.nref.toNat →
        LLt (absorb_references Real.sqrt junk vecs (ref, st)).1 k l
          = LLt ref k l + (vecs.map (fun v => v.getD k 0 * v.getD l 0)).sum) := by
  induction vecs with
  | nil =>
    intro ref st hs hst _
    refine ⟨hs, hst, rfl, fun i _ => le_refl _, fun k l _ _ => ?_⟩
    simp [absorb_references]
  | cons vec vecs ih =>
    intro ref st hs hst hd
    obtain ⟨u1, u2, u3, u4, u5⟩ := update_PCOR_references_summary junk vec ref st hs hst hd
    have hmono : ∀ i : Nat, i < ref.nref.toNat →
        RCH ref i i ≤ RCH (update_PCOR_references Real.sqrt junk vec ref st).1 i i := by
      intro i hi
      obtain ⟨hf, he⟩ := u4 i hi
      rw [he]
      have hp := hd i hi
      nlinarith
    have hd2 : ∀ i : Nat, i < (update_PCOR_references Real.sqrt junk vec ref st).1.nref.toNat →
        0 < RCH (update_PCOR_references Real.sqrt junk vec ref st).1 i i := by
      intro i hi
      rw [u3] at hi
      exact lt_of_lt_of_le (hd i hi) (hmono i hi)
    obtain ⟨a1, a2, a3, a4, a5⟩ := ih (update_PCOR_references Real.sqrt junk vec ref st).1
      (update_PCOR_references Real.sqrt junk vec ref st).2 u1 u2 hd2
    rw [u3] at a3 a4 a5
    have hunf : absorb_references Real.sqrt junk (vec :: vecs) (ref, st)
        = absorb_references Real.sqrt junk vecs
            ((update_PCOR_references Real.sqrt junk vec ref st).1,
             (update_PCOR_references Real.sqrt junk vec ref st).2) := rfl
    rw [hunf]
    refine ⟨a1, a2, a3, fun i hi => le_trans (hmono i hi) (a4 i hi), fun k l hk hl => ?_⟩
    rw [a5 k l hk hl, u5 k l hk hl, List.map_cons, List.sum_cons]
    ring

/-- The product `L·Lᵀ` of a fresh state is `REF_EPS²·I`. -/
theorem LLt_fresh {K : Type} [LinearOrderedField K] (eps : K) (ref : PCOR_references K)
    (n : Nat) (h : ∀ i j, i < n → j ≤ i → rget ref.chol i j = if j = i then eps else 0)
    (k l : Nat) (hk : k < n) (hl : l < n) :
    LLt ref k l = if k = l then eps ^ 2 else 0 := by
  unfold LLt
  simp only [RCH_nat]
  by_cases hkl : k = l
  · subst hkl
    rw [if_pos rfl, min_self, Finset.sum_range_succ]
    have hz : ∑ c ∈ Finset.range k, rget ref.chol k c * rget ref.chol k c = 0 := by
      apply Finset.sum_eq_zero
      intro c hc
      have hck : c < k := Finset.mem_range.mp hc
      rw [h k c hk (by omega), if_neg (by omega), mul_zero]
    rw [hz, h k k hk (le_refl k), if_pos rfl]
    ring
  · rw [if_neg hkl]
    apply Finset.sum_eq_zero
    intro c hc
    have hcm : c < min k l + 1 := Finset.mem_range.mp hc
    have hck : c ≤ k := by have := min_le_left k l; omega
    have hcl : c ≤ l := by have := min_le_right k l; omega
    rw [h k c hk hck, h l c hl hcl]
    by_cases h1 : c = k
    · rw [if_neg (by omega : ¬ c = l), mul_zero]
    · rw [if_neg h1, zero_mul]

/-- C1: in exact real arithmetic, one `update_PCOR_references` on a state
with `nref ≥ 1` rows and positive diagonal, with a vector of length `nref`,
turns the factor `L` into `L'` with `L'·L'ᵀ = L·Lᵀ + vec·vecᵀ`; hence after
absorbing `vecs` into a fresh state, `L·Lᵀ = REF_EPS²·I + Σ_t v_t·v_tᵀ`. -/
theorem update_PCOR_references_rank_one (REF_EPS : ℝ) (junk : Nat → ℝ) (numref : Int)
    (ref0 ref : PCOR_references ℝ) (st : PCOR_scratch ℝ) (vec : List ℝ)
    (vecs : List (List ℝ))
    (heps : 0 < REF_EPS) (hfresh : new_PCOR_references REF_EPS junk numref = some ref0)
    (hst : st.ok) (hs : ref.shaped)
    (hd : ∀ i : Nat, i < ref.nref.toNat → 0 < RCH ref i i)
    (_hvec : vec.length = ref.nref.toNat)
    (_hvecs : ∀ v ∈ vecs, v.length = numref.toNat) :
    (∀ k l : Nat, k < ref.nref.toNat → l < ref.nref.toNat →
      LLt (update_PCOR_references Real.sqrt junk vec ref st).1 k l
        = LLt ref k l + vec.getD k 0 * vec.getD l 0) ∧
    (∀ k l : Nat, k < numref.toNat → l < numref.toNat →
      LLt (absorb_references Real.sqrt junk vecs (ref0, st)).1 k l
        = (if k = l then REF_EPS ^ 2 else 0)
          + (vecs.map (fun v => v.getD k 0 * v.getD l 0)).sum) := by
  refine ⟨(update_PCOR_references_summary junk vec ref st hs hst hd).2.2.2.2, ?_⟩
  have hn : 1 ≤ numref := by
    by_contra hlt
    unfold new_PCOR_references at hfresh
    rw [if_pos (by omega)] at hfresh
    cases hfresh
  obtain ⟨r, hr, hshape, hnref, _, hval⟩ := new_PCOR_references_spec REF_EPS junk numref hn
  have hrr : r = ref0 := Option.some.inj (hr.symm.trans hfresh)
  subst hrr
  have hd0 : ∀ i : Nat, i < r.nref.toNat → 0 < RCH r i i := by
    intro i hi
    rw [hnref] at hi
    rw [RCH_nat, hval i i hi (le_refl i), if_pos rfl]
    exact heps
  intro k l hk hl
  have hsum := (absorb_references_summary junk vecs r st hshape hst hd0).2.2.2.2 k l
    (by rw [hnref]; exact hk) (by rw [hnref]; exact hl)
  rw [hsum, LLt_fresh REF_EPS r numref.toNat hval k l hk hl]

/-- C2: in exact real arithmetic, after absorbing any finite sequence of
vectors into a state returned by `new_PCOR_references` (with `REF_EPS > 0`),
every diagonal entry is `≥ REF_EPS > 0`; a further update multiplies
`chol[i][i]` by the saved factor `ff[i] ≥ 1`, so it divides by a non-zero
entry and never decreases a diagonal entry. -/
theorem update_PCOR_references_diag (REF_EPS : ℝ) (junk : Nat → ℝ) (numref : Int)
    (ref0 : PCOR_references ℝ) (st : PCOR_scratch ℝ) (vecs : List (List ℝ)) (vec : List ℝ)
    (heps : 0 < REF_EPS) (hfresh : new_PCOR_references REF_EPS junk numref = some ref0)
    (hst : st.ok) (_hvecs : ∀ v ∈ vecs, v.length = numref.toNat)
    (_hvec : vec.length = numref.toNat) :
    ∀ i : Nat, i < numref.toNat →
      REF_EPS ≤ RCH (absorb_references Real.sqrt junk vecs (ref0, st)).1 i i ∧
      0 < RCH (absorb_references Real.sqrt junk vecs (ref0, st)).1 i i ∧
      1 ≤ (update_PCOR_references Real.sqrt junk vec
            (absorb_references Real.sqrt junk vecs (ref0, st)).1
            (absorb_references Real.sqrt junk vecs (ref0, st)).2).1.ff.getD i 0 ∧
      RCH (update_PCOR_references Real.sqrt junk vec
            (absorb_references Real.sqrt junk vecs (ref0, st)).1
            (absorb_references Real.sqrt junk vecs (ref0, st)).2).1 i i
        = (update_PCOR_references Real.sqrt junk vec
            (absorb_references Real.sqrt junk vecs (ref0, st)).1
            (absorb_references Real.sqrt junk vecs (ref0, st)).2).1.ff.getD i 0
          * RCH (absorb_references Real.sqrt junk vecs (ref0, st)).1 i i ∧
      REF_EPS ≤ RCH (update_PCOR_references Real.sqrt junk vec
            (absorb_references Real.sqrt junk vecs (ref0, st)).1
            (absorb_references Real.sqrt junk vecs (ref0, st)).2).1 i i := by
  have hn : 1 ≤ numref := by
    by_contra hlt
    unfold new_PCOR_references at hfresh
    rw [if_pos (by omega)] at hfresh
    cases hfresh
  obtain ⟨r, hr, hshape, hnref, _, hval⟩ := new_PCOR_references_spec REF_EPS junk numref hn
  have hrr : r = ref0 := Option.some.inj (hr.symm.trans hfresh)
  subst hrr
  have hd0 : ∀ i : Nat, i < r.nref.toNat → 0 < RCH r i i := by
    intro i hi
    rw [hnref] at hi
    rw [RCH_nat, hval i i hi (le_refl i), if_pos rfl]
    exact heps
  obtain ⟨a1, a2, a3, a4, _⟩ := absorb_references_summary junk vecs r st hshape hst hd0
  intro i hi
  have hi0 : i < r.nref.toNat := by rw [hnref]; exact hi
  have hge : REF_EPS ≤ RCH (absorb_references Real.sqrt junk vecs (r, st)).1 i i := by
    have := a4 i hi0
    rw [RCH_nat r, hval i i hi (le_refl i), if_pos rfl] at this
    exact this
  have hd1 : ∀ i : Nat, i < (absorb_references Real.sqrt junk vecs (r, st)).1.nref.toNat →
      0 < RCH (absorb_references Real.sqrt junk vecs (r, st)).1 i i := by
    intro i hi
    rw [a3] at hi
    exact lt_of_lt_of_le (hd0 i hi) (a4 i hi)
  obtain ⟨hf, he⟩ := (update_PCOR_references_summary junk vec _ _ a1 a2 hd1).2.2.2.1 i
    (by rw [a3]; exact hi0)
  refine ⟨hge, lt_of_lt_of_le heps hge, hf, he, ?_⟩
  rw [he]
  have hp : 0 < RCH (absorb_references Real.sqrt junk vecs (r, st)).1 i i :=
    lt_of_lt_of_le heps hge
  nlinarith

theorem ex_fresh_eq : new_PCOR_references (1:ℝ) (fun _ => 0) 1 = some ex_fresh := by
  simp [new_PCOR_references, new_PCOR_references_row, malloc, ex_fresh, List.range_succ,
    setRCH, rset]

theorem ex_ref_shaped : (ex_ref : PCOR_references ℝ).shaped := by
  refine ⟨by decide, rfl, ?_, rfl, rfl, rfl⟩
  intro i hi
  have hi2 : i < 2 := by simpa [ex_ref] using hi
  interval_cases i <;> rfl

theorem ex_ref_diag : ∀ i : Nat, i < (ex_ref : PCOR_references ℝ).nref.toNat →
    0 < RCH (ex_ref : PCOR_references ℝ) i i := by
  intro i hi
  have hi2 : i < 2 := by simpa [ex_ref] using hi
  interval_cases i <;> simp [RCH, rget, ex_ref]

/-- C1 (witness): one update of the identity factor with `[3, 4]`, and the
vectors `[3]`, `[4]` absorbed into the fresh state with `nref = 1`. -/
theorem update_PCOR_references_rank_one_witness :
    (∀ k l : Nat, k < (ex_ref : PCOR_references ℝ).nref.toNat →
      l < (ex_ref : PCOR_references ℝ).nref.toNat →
      LLt (update_PCOR_references Real.sqrt (fun _ => 0) [3, 4] ex_ref PCOR_scratch.init).1 k l
        = LLt (ex_ref : PCOR_references ℝ) k l
          + ([3, 4] : List ℝ).getD k 0 * ([3, 4] : List ℝ).getD l 0) ∧
    (∀ k l : Nat, k < (1 : Int).toNat → l < (1 : Int).toNat →
      LLt (absorb_references Real.sqrt (fun _ => 0) [[3], [4]]
          (ex_fresh, PCOR_scratch.init)).1 k l
        = (if k = l then (1:ℝ) ^ 2 else 0)
          + (([[3], [4]] : List (List ℝ)).map (fun v => v.getD k 0 * v.getD l 0)).sum) :=
  update_PCOR_references_rank_one 1 (fun _ => 0) 1 ex_fresh ex_ref PCOR_scratch.init [3, 4]
    [[3], [4]] one_pos ex_fresh_eq rfl ex_ref_shaped ex_ref_diag rfl
    (by intro v hv; simp at hv; rcases hv with h | h <;> subst h <;> rfl)

/-- C2 (witness): the vectors `[3]`, `[4]`, then `[5]`, absorbed into the
fresh state with `nref = 1` and `REF_EPS = 1`; the diagonal entry `0`. -/
theorem update_PCOR_references_diag_witness :
    (1:ℝ) ≤ RCH (absorb_references Real.sqrt (fun _ => 0) [[3], [4]]
        (ex_fresh, PCOR_scratch.init)).1 (0:ℕ) (0:ℕ) ∧
    0 < RCH (absorb_references Real.sqrt (fun _ => 0) [[3], [4]]
        (ex_fresh, PCOR_scratch.init)).1 (0:ℕ) (0:ℕ) ∧
    1 ≤ (update_PCOR_references Real.sqrt (fun _ => 0) [5]
          (absorb_references Real.sqrt (fun _ => 0) [[3], [4]]
            (ex_fresh, PCOR_scratch.init)).1
          (absorb_references Real.sqrt (fun _ => 0) [[3], [4]]
            (ex_fresh, PCOR_scratch.init)).2).1.ff.getD 0 0 ∧
    RCH (update_PCOR_references Real.sqrt (fun _ => 0) [5]
          (absorb_references Real.sqrt (fun _ => 0) [[3], [4]]
            (ex_fresh, PCOR_scratch.init)).1
          (absorb_references Real.sqrt (fun _ => 0) [[3], [4]]
            (ex_fresh, PCOR_scratch.init)).2).1 (0:ℕ) (0:ℕ)
      = (update_PCOR_references Real.sqrt (fun _ => 0) [5]
          (absorb_references Real.sqrt (fun _ => 0) [[3], [4]]
            (ex_fresh, PCOR_scratch.init)).1
          (absorb_references Real.sqrt (fun _ => 0) [[3], [4]]
            (ex_fresh, PCOR_scratch.init)).2).1.ff.getD 0 0
        * RCH (absorb_references Real.sqrt (fun _ => 0) [[3], [4]]
            (ex_fresh, PCOR_scratch.init)).1 (0:ℕ) (0:ℕ) ∧
    (1:ℝ) ≤ RCH (update_PCOR_references Real.sqrt (fun _ => 0) [5]
          (absorb_references Real.sqrt (fun _ => 0) [[3], [4]]
            (ex_fresh, PCOR_scratch.init)).1
          (absorb_references Real.sqrt (fun _ => 0) [[3], [4]]
            (ex_fresh, PCOR_scratch.init)).2).1 (0:ℕ) (0:ℕ) :=
  update_PCOR_references_diag 1 (fun _ => 0) 1 ex_fresh PCOR_scratch.init [[3], [4]] [5]
    one_pos ex_fresh_eq rfl
    (by intro v hv; simp at hv; rcases hv with h | h <;> subst h <;> rfl) rfl 0 (by decide)

/-- C13: `PCOR_get_variance` never ends the process: it always returns, with
the output array of unchanged length; for `nupdate ≤ nref` it prints its
"not enough data" message and writes `var[v] = 0` for every voxel, and for
`nupdate > nref` it prints nothing and writes
`var[v] = lastRow[v][nref] / (nupdate - nref)` for every voxel. -/
theorem PCOR_get_variance_total {K : Type} [LinearOrderedField K] (vc : PCOR_voxel_corr K)
    (var : List K) :
    ∃ log out, PCOR_get_variance vc var = Outcome.returned log out ∧
      out.length = var.length ∧
      log = (if vc.nupdate ≤ vc.nref then [Diag.get_variance_not_enough_data] else []) ∧
      ∀ v, v < vc.nvox.toNat → v < var.length →
        out.getD v 0 = if vc.nupdate ≤ vc.nref then 0
          else VCH vc v vc.nref / ((vc.nupdate - vc.nref : Int) : K) := by
  unfold PCOR_get_variance
  by_cases h : vc.nupdate ≤ vc.nref
  · simp only [h, if_true]
    refine ⟨_, _, rfl, store_loop_length _ _ _, rfl, ?_⟩
    intro v hv hl
    rw [store_loop_getD (fun _ => (0 : K)), if_pos ⟨hv, hl⟩]
  · simp only [h, if_false]
    refine ⟨_, _, rfl, store_loop_length _ _ _, rfl, ?_⟩
    intro v hv hl
    rw [store_loop_getD (fun vox => 1 / ((vc.nupdate - vc.nref : Int) : K) * VCH vc vox vc.nref),
      if_pos ⟨hv, hl⟩]
    ring

/-- C14: each of `PCOR_get_pcor`, `PCOR_get_mcor`, `PCOR_get_coef`,
`PCOR_get_lsqfit` and `PCOR_get_pcor_and_coef` ends the process with a
diagnostic of kind DimensionMismatch, hence with nothing written, exactly when
`vc->nref` differs from `ref->nref`. -/
theorem PCOR_get_size_mismatch_iff {K : Type} [LinearOrderedField K] (sqrt : K → K)
    (junk : Nat → K) (ref : PCOR_references K) (vc : PCOR_voxel_corr K) (m : Int)
    (pcthresh : K) (pcor coef : List K) (fit : List (Option (List K))) :
    ((∃ d, PCOR_get_pcor sqrt ref vc pcor = Outcome.exited d ∧
        d.kind = ErrorKind.DimensionMismatch) ↔ vc.nref ≠ ref.nref) ∧
    ((∃ d, PCOR_get_mcor sqrt ref vc m pcor = Outcome.exited d ∧
        d.kind = ErrorKind.DimensionMismatch) ↔ vc.nref ≠ ref.nref) ∧
    ((∃ d, PCOR_get_coef ref vc coef = Outcome.exited d ∧
        d.kind = ErrorKind.DimensionMismatch) ↔ vc.nref ≠ ref.nref) ∧
    ((∃ d, PCOR_get_lsqfit junk ref vc fit = Outcome.exited d ∧
        d.kind = ErrorKind.DimensionMismatch) ↔ vc.nref ≠ ref.nref) ∧
    ((∃ d, PCOR_get_pcor_and_coef sqrt ref vc pcthresh pcor coef = Outcome.exited d ∧
        d.kind = ErrorKind.DimensionMismatch) ↔ vc.nref ≠ ref.nref) := by
  by_cases hn : vc.nref = ref.nref
  · have hne : ¬ vc.nref ≠ ref.nref := by simpa using hn
    refine ⟨⟨?_, fun h => absurd h hne⟩, ⟨?_, fun h => absurd h hne⟩,
      ⟨?_, fun h => absurd h hne⟩, ⟨?_, fun h => absurd h hne⟩, ⟨?_, fun h => absurd h hne⟩⟩
    · rintro ⟨d, h, _⟩
      rw [PCOR_get_pcor_eq sqrt ref vc pcor hn] at h
      cases h
    · rintro ⟨d, h, hk⟩
      unfold PCOR_get_mcor at h
      rw [if_neg hne] at h
      by_cases hm : m ≥ vc.nref
      · rw [if_pos hm] at h
        cases h
        cases hk
      · rw [if_neg hm] at h
        cases h
    · rintro ⟨d, h, _⟩
      rw [PCOR_get_coef_eq ref vc coef hn] at h
      cases h
    · rintro ⟨d, h, _⟩
      unfold PCOR_get_lsqfit at h
      rw [if_neg hne] at h
      by_cases hc : PCOR_get_lsqfit_count vc.nref.toNat fit = 0
      · simp only [hc, if_true] at h
        cases h
      · simp only [hc, if_false] at h
        cases h
    · rintro ⟨d, h, _⟩
      rw [PCOR_get_pcor_and_coef_eq sqrt ref vc pcthresh pcor coef hn] at h
      cases h
  · have hne : vc.nref ≠ ref.nref := hn
    refine ⟨⟨fun _ => hne, fun _ => ⟨Diag.get_pcor_size_mismatch, ?_, rfl⟩⟩,
      ⟨fun _ => hne, fun _ => ⟨Diag.get_mcor_size_mismatch, ?_, rfl⟩⟩,
      ⟨fun _ => hne, fun _ => ⟨Diag.get_coef_size_mismatch, ?_, rfl⟩⟩,
      ⟨fun _ => hne, fun _ => ⟨Diag.get_lsqfit_size_mismatch, ?_, rfl⟩⟩,
      ⟨fun _ => hne, fun _ => ⟨Diag.get_pcor_and_coef_size_mismatch, ?_, rfl⟩⟩⟩
    · unfold PCOR_get_pcor; rw [if_pos hne]
    · unfold PCOR_get_mcor; rw [if_pos hne]
    · unfold PCOR_get_coef; rw [if_pos hne]
    · unfold PCOR_get_lsqfit; rw [if_pos hne]
    · unfold PCOR_get_pcor_and_coef; rw [if_pos hne]

/-- C15: `new_PCOR_references` returns `NULL` exactly when `numref < 1`; for
`numref ≥ 1` the state it returns has `nref = numref`, `nupdate = 0`, `numref`
rows, row `i` of `i+1` entries, `chol[i][i] = REF_EPS` and `chol[i][j] = 0`
for `j < i`. -/
theorem new_PCOR_references_result {K : Type} [LinearOrderedField K] (REF_EPS : K)
    (junk : Nat → K) (numref : Int) :
    (new_PCOR_references REF_EPS junk numref = none ↔ numref < 1) ∧
    (1 ≤ numref → ∃ ref, new_PCOR_references REF_EPS junk numref = some ref ∧
      ref.nref = numref ∧ ref.nupdate = 0 ∧ ref.chol.length = numref.toNat ∧
      ∀ i : Nat, i < numref.toNat →
        (ref.chol.getD i []).length = i + 1 ∧ RCH ref i i = REF_EPS ∧
        ∀ j : Nat, j < i → RCH ref i j = 0) := by
  constructor
  · constructor
    · intro h
      by_contra hlt
      obtain ⟨r, hr, _⟩ := new_PCOR_references_spec REF_EPS junk numref (by omega)
      rw [hr] at h
      cases h
    · intro h
      unfold new_PCOR_references
      rw [if_pos h]
  · intro h
    obtain ⟨r, hr, hshape, hnref, hnup, hval⟩ := new_PCOR_references_spec REF_EPS junk numref h
    obtain ⟨_, s2, s3, _, _, _⟩ := hshape
    rw [hnref] at s2 s3
    refine ⟨r, hr, hnref, hnup, s2, ?_⟩
    intro i hi
    refine ⟨s3 i hi, ?_, ?_⟩
    · rw [RCH_nat, hval i i hi (le_refl i), if_pos rfl]
    · intro j hj
      rw [RCH_nat, hval i j hi (by omega), if_neg (by omega)]

theorem setVCH_nat {K : Type} (vc : PCOR_voxel_corr K) (n v j : Nat) (x : K) (hn : vc.nref = (n : Int)) :
    setVCH vc (v : Int) (j : Int) x = { vc with chrow := vc.chrow.set (j + v * (n + 1)) x } := by
  unfold setVCH VCHidx
  rw [hn]
  have h0 : (0 : Int) ≤ (j : Int) + (v : Int) * ((n : Int) + 1) := by positivity
  have e : ((j : Int) + (v : Int) * ((n : Int) + 1)).toNat = j + v * (n + 1) := by
    have : (j : Int) + (v : Int) * ((n : Int) + 1) = ((j + v * (n + 1) : Nat) : Int) := by
      push_cast; ring
    rw [this, Int.toNat_ofNat]
  rw [if_pos h0, e]

section VoxelFresh
variable {K : Type} [LinearOrderedField K]

theorem VCH_nat (vc : PCOR_voxel_corr K) (n v j : Nat) (hn : vc.nref = (n : Int)) :
    VCH vc (v : Int) (j : Int) = vc.chrow.getD (j + v * (n + 1)) 0 := by
  unfold VCH VCHidx
  rw [hn]
  have h0 : (0 : Int) ≤ (j : Int) + (v : Int) * ((n : Int) + 1) := by positivity
  have e : ((j : Int) + (v : Int) * ((n : Int) + 1)).toNat = j + v * (n + 1) := by
    have : (j : Int) + (v : Int) * ((n : Int) + 1) = ((j + v * (n + 1) : Nat) : Int) := by
      push_cast; ring
    rw [this, Int.toNat_ofNat]
  rw [if_pos h0, e]

/-- Effect of the zeroing loop of `new_PCOR_voxel_corr` on voxel `vox`. -/
theorem voxel_zero_loop (n vox k : Nat) (vc : PCOR_voxel_corr K) (hn : vc.nref = (n : Int))
    (hlen : k + vox * (n + 1) ≤ vc.chrow.length) :
    (List.range k).foldl (fun v (jj : Nat) => setVCH v vox jj 0) vc
      = { vc with chrow :=
            ((List.range k).foldl (fun v (jj : Nat) => setVCH v vox jj 0) vc).chrow } ∧
    ((List.range k).foldl (fun v (jj : Nat) => setVCH v vox jj 0) vc).chrow.length
      = vc.chrow.length ∧
    (∀ p, ((List.range k).foldl (fun v (jj : Nat) => setVCH v vox jj 0) vc).chrow.getD p 0
      = if vox * (n + 1) ≤ p ∧ p < k + vox * (n + 1) then 0 else vc.chrow.getD p 0) := by
  induction k with
  | zero =>
    refine ⟨rfl, rfl, fun p => ?_⟩
    rw [if_neg (by omega)]; rfl
  | succ m ih =>
    obtain ⟨h1, h2, h3⟩ := ih (by omega)
    rw [foldl_range_succ]
    generalize (List.range m).foldl (fun v (jj : Nat) => setVCH v vox jj 0) vc = t at *
    have htn : t.nref = (n : Int) := by rw [h1]; exact hn
    rw [setVCH_nat t n vox m 0 htn]
    refine ⟨by rw [h1], by simp only [List.length_set]; exact h2, fun p => ?_⟩
    simp only []
    rw [getD_set, h3]
    by_cases hp : m + vox * (n + 1) = p
    · rw [if_pos ⟨hp, by omega⟩, if_pos ⟨by omega, by omega⟩]
    · rw [if_neg (fun h => hp h.1)]
      by_cases hp2 : vox * (n + 1) ≤ p ∧ p < m + vox * (n + 1)
      · rw [if_pos hp2, if_pos ⟨hp2.1, by omega⟩]
      · rw [if_neg hp2, if_neg (by omega)]

theorem new_PCOR_voxel_corr_row_spec (eps : K) (n vox : Nat) (vc : PCOR_voxel_corr K)
    (hn : vc.nref = (n : Int)) (hlen : (vox + 1) * (n + 1) ≤ vc.chrow.length) :
    new_PCOR_voxel_corr_row eps (n : Int) vc vox
      = { vc with chrow := (new_PCOR_voxel_corr_row eps (n : Int) vc vox).chrow } ∧
    (new_PCOR_voxel_corr_row eps (n : Int) vc vox).chrow.length = vc.chrow.length ∧
    (∀ p, (new_PCOR_voxel_corr_row eps (n : Int) vc vox).chrow.getD p 0
      = if vox * (n + 1) ≤ p ∧ p < (vox + 1) * (n + 1) then
          (if p = n + vox * (n + 1) then eps else 0)
        else vc.chrow.getD p 0) := by
  have e1 : (vox + 1) * (n + 1) = n + 1 + vox * (n + 1) := by ring
  obtain ⟨h1, h2, h3⟩ := voxel_zero_loop n vox n vc hn (by omega)
  unfold new_PCOR_voxel_corr_row
  rw [Int.toNat_ofNat]
  generalize (List.range n).foldl (fun v (jj : Nat) => setVCH v vox jj 0) vc = t at *
  have htn : t.nref = (n : Int) := by rw [h1]; exact hn
  rw [setVCH_nat t n vox n eps htn]
  refine ⟨by rw [h1], by simp only [List.length_set]; exact h2, fun p => ?_⟩
  simp only []
  rw [getD_set, h3]
  by_cases hp : n + vox * (n + 1) = p
  · rw [if_pos ⟨hp, by omega⟩, if_pos ⟨by omega, by omega⟩, if_pos hp.symm]
  · rw [if_neg (fun h => hp h.1)]
    by_cases hp2 : vox * (n + 1) ≤ p ∧ p < n + vox * (n + 1)
    · rw [if_pos hp2, if_pos ⟨hp2.1, by omega⟩, if_neg (fun h => hp h.symm)]
    · rw [if_neg hp2, if_neg (by omega)]

/-- The state `new_PCOR_voxel_corr` returns for `numvox ≥ 1` and
`numref = n ≥ 0`. -/
theorem new_PCOR_voxel_corr_spec (eps : K) (junk : Nat → K) (numvox : Int) (n : Nat)
    (h : 1 ≤ numvox) :
    ∃ vc, new_PCOR_voxel_corr eps junk numvox (n : Int) = some vc ∧
      vc.nvox = numvox ∧ vc.nref = (n : Int) ∧ vc.nupdate = 0 ∧
      vc.chrow.length = numvox.toNat * (n + 1) ∧
      ∀ v j, v < numvox.toNat → j ≤ n →
        vc.chrow.getD (j + v * (n + 1)) 0 = if j = n then eps else 0 := by
  have hlt : ¬ numvox < 1 := by omega
  unfold new_PCOR_voxel_corr
  rw [if_neg hlt]
  refine ⟨_, rfl, ?_⟩
  have hl0 : (malloc junk (numvox * ((n : Int) + 1))).length = numvox.toNat * (n + 1) := by
    rw [malloc_length]
    have : numvox * ((n : Int) + 1) = ((numvox.toNat * (n + 1) : Nat) : Int) := by
      push_cast
      rw [Int.toNat_of_nonneg (by omega)]
    rw [this, Int.toNat_ofNat]
  have hinv := foldl_range_inv
    (fun (m : Nat) (t : PCOR_voxel_corr K) =>
      t = { nvox := numvox, nref := (n : Int), nupdate := 0, chrow := t.chrow } ∧
      t.chrow.length = numvox.toNat * (n + 1) ∧
      ∀ v j, v < m → j ≤ n → t.chrow.getD (j + v * (n + 1)) 0 = if j = n then eps else 0)
    (new_PCOR_voxel_corr_row eps (n : Int))
    { nvox := numvox, nref := (n : Int), nupdate := 0,
      chrow := malloc junk (numvox * ((n : Int) + 1)) }
    numvox.toNat
    ⟨rfl, hl0, fun v j hv => absurd hv (Nat.not_lt_zero v)⟩
    (by
      intro i t hi ⟨t1, t2, t3⟩
      have htn : t.nref = (n : Int) := by rw [t1]
      have hle : (i + 1) * (n + 1) ≤ t.chrow.length := by
        rw [t2]; exact Nat.mul_le_mul_right _ hi
      obtain ⟨e1, e2, e3⟩ := new_PCOR_voxel_corr_row_spec eps n i t htn hle
      refine ⟨by rw [e1, t1], e2.trans t2, ?_⟩
      intro v j hv hj
      rw [e3]
      have hexp : (i + 1) * (n + 1) = n + 1 + i * (n + 1) := by ring
      by_cases hvi : v = i
      · subst hvi
        rw [if_pos ⟨by omega, by omega⟩]
        by_cases hjn : j = n
        · rw [if_pos hjn, if_pos (by omega)]
        · rw [if_neg hjn, if_neg (by omega)]
      · have hvlt : v < i := by omega
        have hle2 : (v + 1) * (n + 1) ≤ i * (n + 1) := Nat.mul_le_mul_right _ hvlt
        have hexp2 : (v + 1) * (n + 1) = n + 1 + v * (n + 1) := by ring
        rw [if_neg (by omega)]
        exact t3 v j hvlt hj)
  generalize (List.range numvox.toNat).foldl (new_PCOR_voxel_corr_row eps (n : Int)) _ = t at *
  obtain ⟨t1, t2, t3⟩ := hinv
  refine ⟨by rw [t1], by rw [t1], by rw [t1], t2, t3⟩

end VoxelFresh

theorem setVCH_fields {K : Type} (vc : PCOR_voxel_corr K) (a b : Int) (x : K) :
    (setVCH vc a b x).nvox = vc.nvox ∧ (setVCH vc a b x).nref = vc.nref ∧
    (setVCH vc a b x).nupdate = vc.nupdate := by
  unfold setVCH
  split <;> exact ⟨rfl, rfl, rfl⟩

theorem new_PCOR_voxel_corr_row_fields {K : Type} [LinearOrderedField K] (eps : K)
    (numref : Int) (vc : PCOR_voxel_corr K) (vox : Nat) :
    (new_PCOR_voxel_corr_row eps numref vc vox).nvox = vc.nvox ∧
    (new_PCOR_voxel_corr_row eps numref vc vox).nref = vc.nref ∧
    (new_PCOR_voxel_corr_row eps numref vc vox).nupdate = vc.nupdate := by
  unfold new_PCOR_voxel_corr_row
  have hin := foldl_range_inv
    (fun (_ : Nat) (t : PCOR_voxel_corr K) =>
      t.nvox = vc.nvox ∧ t.nref = vc.nref ∧ t.nupdate = vc.nupdate)
    (fun v (jj : Nat) => setVCH v vox jj 0) vc numref.toNat ⟨rfl, rfl, rfl⟩
    (by
      intro i t _ ⟨t1, t2, t3⟩
      obtain ⟨f1, f2, f3⟩ := setVCH_fields t vox i 0
      exact ⟨f1.trans t1, f2.trans t2, f3.trans t3⟩)
  obtain ⟨t1, t2, t3⟩ := hin
  obtain ⟨f1, f2, f3⟩ := setVCH_fields
    ((List.range numref.toNat).foldl (fun v (jj : Nat) => setVCH v vox jj 0) vc) vox numref eps
  exact ⟨f1.trans t1, f2.trans t2, f3.trans t3⟩

/-- The members `nvox`, `nref`, `nupdate` of the state `new_PCOR_voxel_corr`
returns, for any `numref`. -/
theorem new_PCOR_voxel_corr_fields {K : Type} [LinearOrderedField K] (eps : K)
    (junk : Nat → K) (numvox numref : Int) (h : 1 ≤ numvox) :
    ∃ vc, new_PCOR_voxel_corr eps junk numvox numref = some vc ∧
      vc.nvox = numvox ∧ vc.nref = numref ∧ vc.nupdate = 0 := by
  have hlt : ¬ numvox < 1 := by omega
  unfold new_PCOR_voxel_corr
  rw [if_neg hlt]
  refine ⟨_, rfl, ?_⟩
  exact foldl_range_inv
    (fun (_ : Nat) (t : PCOR_voxel_corr K) =>
      t.nvox = numvox ∧ t.nref = numref ∧ t.nupdate = 0)
    (new_PCOR_voxel_corr_row eps numref) _ numvox.toNat ⟨rfl, rfl, rfl⟩
    (by
      intro i t _ ⟨t1, t2, t3⟩
      obtain ⟨f1, f2, f3⟩ := new_PCOR_voxel_corr_row_fields eps numref t i
      exact ⟨f1.trans t1, f2.trans t2, f3.trans t3⟩)

/-- C16: `new_PCOR_voxel_corr` returns `NULL` exactly when `numvox < 1`; for
`numvox ≥ 1` the state it returns has `nvox = numvox`, `nref = numref`,
`nupdate = 0` and, when `numref ≥ 0` (so that a row of `numref+1` entries
exists), `numvox·(numref+1)` stored values and for every voxel a row whose
first `numref` entries are `0` and whose last entry is `REF_EPS`. -/
theorem new_PCOR_voxel_corr_result {K : Type} [LinearOrderedField K] (REF_EPS : K)
    (junk : Nat → K) (numvox numref : Int) :
    (new_PCOR_voxel_corr REF_EPS junk numvox numref = none ↔ numvox < 1) ∧
    (1 ≤ numvox →
      ∃ vc, new_PCOR_voxel_corr REF_EPS junk numvox numref = some vc ∧
        vc.nvox = numvox ∧ vc.nref = numref ∧ vc.nupdate = 0 ∧
        (0 ≤ numref →
          vc.chrow.length = numvox.toNat * (numref.toNat + 1) ∧
          ∀ v : Nat, v < numvox.toNat →
            (∀ j : Nat, j < numref.toNat → VCH vc v j = 0) ∧ VCH vc v numref = REF_EPS)) := by
  constructor
  · constructor
    · intro h
      by_contra hlt
      unfold new_PCOR_voxel_corr at h
      rw [if_neg hlt] at h
      cases h
    · intro h
      unfold new_PCOR_voxel_corr
      rw [if_pos h]
  · intro h1
    obtain ⟨vc, hvc, g1, g2, g3⟩ := new_PCOR_voxel_corr_fields REF_EPS junk numvox numref h1
    refine ⟨vc, hvc, g1, g2, g3, ?_⟩
    intro h0
    obtain ⟨n, hn⟩ := Int.eq_ofNat_of_zero_le h0
    subst hn
    obtain ⟨vc', hvc', _, e2, _, e4, e5⟩ := new_PCOR_voxel_corr_spec REF_EPS junk numvox n h1
    have hvv : vc' = vc := Option.some.inj (hvc'.symm.trans hvc)
    subst hvv
    rw [Int.toNat_ofNat]
    refine ⟨e4, ?_⟩
    intro v hv
    constructor
    · intro j hj
      rw [VCH_nat vc' n v j e2, e5 v j hv (by omega), if_neg (by omega)]
    · rw [VCH_nat vc' n v n e2, e5 v n hv (le_refl n), if_pos rfl]

theorem list_set_getD_self {α : Type} (l : List α) (i : Nat) (d : α) :
    l.set i (l.getD i d) = l := by
  apply List.ext_getElem?
  intro j
  rw [List.getElem?_set]
  by_cases h : i = j
  · subst h
    by_cases h2 : i < l.length
    · simp [h2, List.getD_eq_getElem?_getD, List.getElem?_eq_getElem h2]
    · simp [h2]
      omega
  · simp [h]

theorem rset_rget_self {K : Type} [LinearOrderedField K] (c : List (List K)) (i j : Nat) :
    rset c i j (rget c i j) = c := by
  unfold rset rget
  rw [list_set_getD_self, list_set_getD_self]

theorem foldl_const_id {σ β : Type} (f : σ → β → σ) (h : ∀ s b, f s b = s) (l : List β) (s : σ) :
    l.foldl f s = s := by
  induction l generalizing s with
  | nil => rfl
  | cons b l ih => rw [List.foldl_cons, h, ih]

/-- With `alpha = 0`, `f = 1`, `g = 0` the inner loop body of
`update_PCOR_references` changes nothing. -/
theorem update_inner_zero {K : Type} [LinearOrderedField K] (jj : Nat)
    (s : List K × PCOR_references K) (kk : Nat) : update_inner 0 1 0 jj s kk = s := by
  obtain ⟨z, r⟩ := s
  simp only [update_inner, zero_mul, sub_zero, one_mul, add_zero, list_set_getD_self, RCH_nat,
    setRCH_nat, rset_rget_self]

theorem update_outer_zero (n jj : Nat) (z : List ℝ) (r : PCOR_references ℝ)
    (hz : z.getD jj 0 = 0) :
    update_outer Real.sqrt n (1, z, r) jj
      = (1, z, { r with alp := r.alp.set jj 0, ff := r.ff.set jj 1, gg := r.gg.set jj 0 }) := by
  simp only [update_outer, hz, zero_div, mul_zero, add_zero, mul_one, Real.sqrt_one, div_one]
  rw [foldl_const_id _ (update_inner_zero jj)]

/-- The copy `zz` of the vector that `update_PCOR_references` works on: it
has room for `nref` values and its first `nref` values are those of `vec`. -/
theorem update_zz_copy {K : Type} [LinearOrderedField K] (junk : Nat → K) (vec : List K)
    (nr : Int) (st : PCOR_scratch K) (hst : st.ok) :
    ((List.range nr.toNat).foldl (fun zz (jj : Nat) => zz.set jj (vec.getD jj 0))
        (if st.zz_size < nr then
          ({ zz := malloc junk nr, zz_size := nr } : PCOR_scratch K) else st).zz).length
      = (if st.zz_size < nr then nr else st.zz_size).toNat ∧
    nr.toNat ≤ ((List.range nr.toNat).foldl (fun zz (jj : Nat) => zz.set jj (vec.getD jj 0))
        (if st.zz_size < nr then
          ({ zz := malloc junk nr, zz_size := nr } : PCOR_scratch K) else st).zz).length ∧
    ∀ k, k < nr.toNat →
      ((List.range nr.toNat).foldl (fun zz (jj : Nat) => zz.set jj (vec.getD jj 0))
        (if st.zz_size < nr then
          ({ zz := malloc junk nr, zz_size := nr } : PCOR_scratch K) else st).zz).getD k 0
        = vec.getD k 0 := by
  have hlen1 : ((if st.zz_size < nr then
      ({ zz := malloc junk nr, zz_size := nr } : PCOR_scratch K) else st).zz).length
      = (if st.zz_size < nr then nr else st.zz_size).toNat := by
    by_cases hlt : st.zz_size < nr
    · rw [if_pos hlt, if_pos hlt]; exact malloc_length junk nr
    · rw [if_neg hlt, if_neg hlt]; exact hst
  have hge : nr.toNat ≤ (if st.zz_size < nr then nr else st.zz_size).toNat := by
    by_cases hlt : st.zz_size < nr
    · rw [if_pos hlt]
    · rw [if_neg hlt]; omega
  refine ⟨by rw [store_loop_length, hlen1], by rw [store_loop_length, hlen1]; exact hge, ?_⟩
  intro k hk
  rw [store_loop_getD, if_pos ⟨hk, by rw [hlen1]; omega⟩]

/-- C17: in exact real arithmetic, on a shaped state with non-zero diagonal,
`update_PCOR_references` with the all-zero vector leaves `chol` (and `nref`)
as they were, stores `alp[j] = 0`, `ff[j] = 1`, `gg[j] = 0` for every
`j < nref` and `betasq = 1`, and increments `nupdate` by one. -/
theorem update_PCOR_references_zero (junk : Nat → ℝ) (vec : List ℝ)
    (ref : PCOR_references ℝ) (st : PCOR_scratch ℝ) (hs : ref.shaped) (hst : st.ok)
    (_hd : ∀ i : Nat, i < ref.nref.toNat → RCH ref i i ≠ 0)
    (hvec : vec = List.replicate ref.nref.toNat 0) :
    (update_PCOR_references Real.sqrt junk vec ref st).1.chol = ref.chol ∧
    (update_PCOR_references Real.sqrt junk vec ref st).1.nref = ref.nref ∧
    (update_PCOR_references Real.sqrt junk vec ref st).1.nupdate = ref.nupdate + 1 ∧
    (update_PCOR_references Real.sqrt junk vec ref st).1.betasq = 1 ∧
    (update_PCOR_references Real.sqrt junk vec ref st).1.alp.length = ref.nref.toNat ∧
    (update_PCOR_references Real.sqrt junk vec ref st).1.ff.length = ref.nref.toNat ∧
    (update_PCOR_references Real.sqrt junk vec ref st).1.gg.length = ref.nref.toNat ∧
    ∀ j : Nat, j < ref.nref.toNat →
      (update_PCOR_references Real.sqrt junk vec ref st).1.alp.getD j 0 = 0 ∧
      (update_PCOR_references Real.sqrt junk vec ref st).1.ff.getD j 0 = 1 ∧
      (update_PCOR_references Real.sqrt junk vec ref st).1.gg.getD j 0 = 0 := by
  obtain ⟨_, _, _, s4, s5, s6⟩ := hs
  obtain ⟨_, hz1, hz2⟩ := update_zz_copy junk vec ref.nref st hst
  unfold update_PCOR_references
  simp only []
  generalize (List.range ref.nref.toNat).foldl (fun zz (jj : Nat) => zz.set jj (vec.getD jj 0))
      (if st.zz_size < ref.nref then
        ({ zz := malloc junk ref.nref, zz_size := ref.nref } : PCOR_scratch ℝ) else st).zz
      = z0 at *
  have hz0 : ∀ k, k < ref.nref.toNat → z0.getD k 0 = 0 := by
    intro k hk
    rw [hz2 k hk, hvec]
    simp [List.getD_eq_getElem?_getD, hk]
  have hinv := foldl_range_inv
    (fun (j : Nat) (s : ℝ × List ℝ × PCOR_references ℝ) =>
      s.1 = 1 ∧ s.2.1 = z0 ∧ s.2.2.chol = ref.chol ∧ s.2.2.nref = ref.nref ∧
      s.2.2.nupdate = ref.nupdate ∧ s.2.2.alp.length = ref.alp.length ∧
      s.2.2.ff.length = ref.ff.length ∧ s.2.2.gg.length = ref.gg.length ∧
      ∀ i, i < j →
        s.2.2.alp.getD i 0 = 0 ∧ s.2.2.ff.getD i 0 = 1 ∧ s.2.2.gg.getD i 0 = 0)
    (update_outer Real.sqrt ref.nref.toNat) (1, z0, ref) ref.nref.toNat
    ⟨rfl, rfl, rfl, rfl, rfl, rfl, rfl, rfl, fun i hi => absurd hi (Nat.not_lt_zero i)⟩
    (by
      intro j s hj ⟨p1, p2, p3, p4, p5, p6, p7, p8, p9⟩
      obtain ⟨b, z, r⟩ := s
      simp only at p1 p2 p3 p4 p5 p6 p7 p8 p9
      subst p1; subst p2
      rw [update_outer_zero _ j z r (hz0 j hj)]
      refine ⟨rfl, rfl, p3, p4, p5, by simp only [List.length_set]; exact p6,
        by simp only [List.length_set]; exact p7, by simp only [List.length_set]; exact p8, ?_⟩
      intro i hi
      simp only [getD_set]
      by_cases hij : j = i
      · subst hij
        rw [if_pos ⟨rfl, by omega⟩, if_pos ⟨rfl, by omega⟩, if_pos ⟨rfl, by omega⟩]
        exact ⟨rfl, rfl, rfl⟩
      · rw [if_neg (fun h => hij h.1), if_neg (fun h => hij h.1), if_neg (fun h => hij h.1)]
        exact p9 i (by omega))
  generalize (List.range ref.nref.toNat).foldl (update_outer Real.sqrt ref.nref.toNat)
      (1, z0, ref) = t at *
  obtain ⟨p1, _, p3, p4, p5, p6, p7, p8, p9⟩ := hinv
  refine ⟨p3, p4, by rw [p5], by rw [p1]; norm_num, p6.trans s4, p7.trans s5, p8.trans s6, p9⟩

section Scratch
variable {K : Type} [LinearOrderedField K]

theorem update_inner_length (a f g : K) (jj : Nat) (l : List Nat)
    (s : List K × PCOR_references K) :
    (l.foldl (update_inner a f g jj) s).1.length = s.1.length := by
  induction l generalizing s with
  | nil => rfl
  | cons k l ih =>
    rw [List.foldl_cons, ih]
    simp only [update_inner, List.length_set]

theorem update_outer_length (sqrt : K → K) (n : Nat) (s : K × List K × PCOR_references K)
    (jj : Nat) : (update_outer sqrt n s jj).2.1.length = s.2.1.length := by
  simp only [update_outer]
  rw [update_inner_length]

theorem update_outer_loop_length (sqrt : K → K) (n m : Nat)
    (s : K × List K × PCOR_references K) :
    ((List.range m).foldl (update_outer sqrt n) s).2.1.length = s.2.1.length := by
  induction m with
  | zero => rfl
  | succ m ih => rw [foldl_range_succ, update_outer_length, ih]

/-- Every call of `update_PCOR_references`, on any state, keeps the static
storage consistent. -/
theorem update_PCOR_references_scratch_ok (sqrt : K → K) (junk : Nat → K) (vec : List K)
    (ref : PCOR_references K) (st : PCOR_scratch K) (hst : st.ok) :
    (update_PCOR_references sqrt junk vec ref st).2.ok := by
  obtain ⟨hz0, _, _⟩ := update_zz_copy junk vec ref.nref st hst
  unfold update_PCOR_references PCOR_scratch.ok
  simp only []
  rw [update_outer_loop_length]
  simp only []
  rw [hz0]
  by_cases hlt : st.zz_size < ref.nref
  · simp only [hlt, if_true]
  · simp only [hlt, if_false]

theorem update_inner_agree (a f g : K) (n jj kk : Nat) (hk : kk < n) (z1 z2 : List K)
    (r : PCOR_references K) (h : zz_agree n z1 z2) :
    (update_inner a f g jj (z1, r) kk).2 = (update_inner a f g jj (z2, r) kk).2 ∧
    zz_agree n (update_inner a f g jj (z1, r) kk).1 (update_inner a f g jj (z2, r) kk).1 := by
  obtain ⟨h1, h2, h3⟩ := h
  simp only [update_inner, getD_set, h3 kk hk]
  have e1 : kk < z1.length := by omega
  have e2 : kk < z2.length := by omega
  simp only [e1, e2, and_self, if_true]
  refine ⟨trivial, by rw [List.length_set]; exact h1, by rw [List.length_set]; exact h2, ?_⟩
  intro k hkn
  rw [getD_set, getD_set]
  by_cases hkk : kk = k
  · rw [if_pos ⟨hkk, e1⟩, if_pos ⟨hkk, e2⟩]
  · rw [if_neg (fun hh => hkk hh.1), if_neg (fun hh => hkk hh.1)]
    exact h3 k hkn

theorem update_inner_loop_agree (a f g : K) (n jj : Nat) (l : List Nat)
    (hl : ∀ k ∈ l, k < n) (z1 z2 : List K) (r : PCOR_references K) (h : zz_agree n z1 z2) :
    (l.foldl (update_inner a f g jj) (z1, r)).2 = (l.foldl (update_inner a f g jj) (z2, r)).2 ∧
    zz_agree n (l.foldl (update_inner a f g jj) (z1, r)).1
      (l.foldl (update_inner a f g jj) (z2, r)).1 := by
  induction l generalizing z1 z2 r with
  | nil => exact ⟨rfl, h⟩
  | cons k l ih =>
    rw [List.foldl_cons, List.foldl_cons]
    obtain ⟨e1, e2⟩ := update_inner_agree a f g n jj k (hl k (List.mem_cons_self k l)) z1 z2 r h
    have ih2 := ih (fun x hx => hl x (List.mem_cons_of_mem k hx))
      (update_inner a f g jj (z1, r) k).1 (update_inner a f g jj (z2, r) k).1
      (update_inner a f g jj (z1, r) k).2 e2
    have q1 : update_inner a f g jj (z1, r) k
        = ((update_inner a f g jj (z1, r) k).1, (update_inner a f g jj (z1, r) k).2) := rfl
    have q2 : update_inner a f g jj (z2, r) k
        = ((update_inner a f g jj (z2, r) k).1, (update_inner a f g jj (z1, r) k).2) := by
      rw [e1]
    rw [q1, q2]
    exact ih2

theorem update_outer_agree (sqrt : K → K) (n jj : Nat) (hj : jj < n) (b : K) (z1 z2 : List K)
    (r : PCOR_references K) (h : zz_agree n z1 z2) :
    (update_outer sqrt n (b, z1, r) jj).1 = (update_outer sqrt n (b, z2, r) jj).1 ∧
    (update_outer sqrt n (b, z1, r) jj).2.2 = (update_outer sqrt n (b, z2, r) jj).2.2 ∧
    zz_agree n (update_outer sqrt n (b, z1, r) jj).2.1 (update_outer sqrt n (b, z2, r) jj).2.1 := by
  have hzj : z1.getD jj 0 = z2.getD jj 0 := h.2.2 jj hj
  simp only [update_outer, hzj]
  refine ⟨trivial, ?_⟩
  exact update_inner_loop_agree _ _ _ n jj (List.range' jj (n - jj))
    (by
      intro k hk
      have := List.mem_range'_1.mp hk
      omega) z1 z2 _ h

theorem update_outer_loop_agree (sqrt : K → K) (n m : Nat) (hm : m ≤ n) (z1 z2 : List K)
    (r : PCOR_references K) (h : zz_agree n z1 z2) :
    ((List.range m).foldl (update_outer sqrt n) (1, z1, r)).1
      = ((List.range m).foldl (update_outer sqrt n) (1, z2, r)).1 ∧
    ((List.range m).foldl (update_outer sqrt n) (1, z1, r)).2.2
      = ((List.range m).foldl (update_outer sqrt n) (1, z2, r)).2.2 ∧
    zz_agree n ((List.range m).foldl (update_outer sqrt n) (1, z1, r)).2.1
      ((List.range m).foldl (update_outer sqrt n) (1, z2, r)).2.1 := by
  induction m with
  | zero => exact ⟨rfl, rfl, h⟩
  | succ m ih =>
    obtain ⟨i1, i2, i3⟩ := ih (by omega)
    rw [foldl_range_succ, foldl_range_succ]
    generalize (List.range m).foldl (update_outer sqrt n) (1, z1, r) = s1 at *
    generalize (List.range m).foldl (update_outer sqrt n) (1, z2, r) = s2 at *
    obtain ⟨b1, y1, r1⟩ := s1
    obtain ⟨b2, y2, r2⟩ := s2
    simp only at i1 i2 i3
    subst i1; subst i2
    exact update_outer_agree sqrt n m (by omega) b1 y1 y2 r1 i3

/-- The reference state after `update_PCOR_references` does not depend on the
static storage it finds nor on the contents of fresh storage. -/
theorem update_PCOR_references_scratch_indep (sqrt : K → K) (junk1 junk2 : Nat → K)
    (vec : List K) (ref : PCOR_references K) (st1 st2 : PCOR_scratch K)
    (h1 : st1.ok) (h2 : st2.ok) :
    (update_PCOR_references sqrt junk1 vec ref st1).1
      = (update_PCOR_references sqrt junk2 vec ref st2).1 := by
  obtain ⟨_, a2, a3⟩ := update_zz_copy junk1 vec ref.nref st1 h1
  obtain ⟨_, b2, b3⟩ := update_zz_copy junk2 vec ref.nref st2 h2
  have hag := update_outer_loop_agree sqrt ref.nref.toNat ref.nref.toNat (le_refl _) _ _ ref
    (⟨a2, b2, fun k hk => (a3 k hk).trans (b3 k hk).symm⟩ : zz_agree ref.nref.toNat _ _)
  obtain ⟨e1, e2, _⟩ := hag
  unfold update_PCOR_references
  simp only []
  rw [e1, e2]

end Scratch

section Determinism
variable {K : Type} [LinearOrderedField K]

theorem absorb_references_scratch_ok (sqrt : K → K) (junk : Nat → K) (vecs : List (List K)) :
    ∀ (ref : PCOR_references K) (st : PCOR_scratch K), st.ok →
      (absorb_references sqrt junk vecs (ref, st)).2.ok := by
  induction vecs with
  | nil => intro ref st h; exact h
  | cons vec vecs ih =>
    intro ref st h
    exact ih _ _ (update_PCOR_references_scratch_ok sqrt junk vec ref st h)

theorem absorb_references_scratch_indep (sqrt : K → K) (junk1 junk2 : Nat → K)
    (vecs : List (List K)) :
    ∀ (ref : PCOR_references K) (st1 st2 : PCOR_scratch K), st1.ok → st2.ok →
      (absorb_references sqrt junk1 vecs (ref, st1)).1
        = (absorb_references sqrt junk2 vecs (ref, st2)).1 := by
  induction vecs with
  | nil => intro ref st1 st2 _ _; rfl
  | cons vec vecs ih =>
    intro ref st1 st2 h1 h2
    have e := update_PCOR_references_scratch_indep sqrt junk1 junk2 vec ref st1 st2 h1 h2
    have q1 : absorb_references sqrt junk1 (vec :: vecs) (ref, st1)
        = absorb_references sqrt junk1 vecs
            ((update_PCOR_references sqrt junk1 vec ref st1).1,
             (update_PCOR_references sqrt junk1 vec ref st1).2) := rfl
    have q2 : absorb_references sqrt junk2 (vec :: vecs) (ref, st2)
        = absorb_references sqrt junk2 vecs
            ((update_PCOR_references sqrt junk2 vec ref st2).1,
             (update_PCOR_references sqrt junk2 vec ref st2).2) := rfl
    rw [q1, q2, ← e]
    exact ih _ _ _ (update_PCOR_references_scratch_ok sqrt junk1 vec ref st1 h1)
      (update_PCOR_references_scratch_ok sqrt junk2 vec ref st2 h2)

theorem absorb_pairs_scratch_indep (sqrt : K → K) (junk1 junk2 : Nat → K)
    (ps : List (List K × List K)) :
    ∀ (ref : PCOR_references K) (vc : PCOR_voxel_corr K) (st1 st2 : PCOR_scratch K),
      st1.ok → st2.ok →
      (absorb_pairs sqrt junk1 ps (ref, vc, st1)).1
        = (absorb_pairs sqrt junk2 ps (ref, vc, st2)).1 ∧
      (absorb_pairs sqrt junk1 ps (ref, vc, st1)).2.1
        = (absorb_pairs sqrt junk2 ps (ref, vc, st2)).2.1 := by
  induction ps with
  | nil => intro ref vc st1 st2 _ _; exact ⟨rfl, rfl⟩
  | cons p ps ih =>
    intro ref vc st1 st2 h1 h2
    have e := update_PCOR_references_scratch_indep sqrt junk1 junk2 p.1 ref st1 st2 h1 h2
    have q1 : absorb_pairs sqrt junk1 (p :: ps) (ref, vc, st1)
        = absorb_pairs sqrt junk1 ps
            ((update_PCOR_references sqrt junk1 p.1 ref st1).1,
             update_PCOR_voxel_corr p.2 (update_PCOR_references sqrt junk1 p.1 ref st1).1 vc,
             (update_PCOR_references sqrt junk1 p.1 ref st1).2) := rfl
    have q2 : absorb_pairs sqrt junk2 (p :: ps) (ref, vc, st2)
        = absorb_pairs sqrt junk2 ps
            ((update_PCOR_references sqrt junk2 p.1 ref st2).1,
             update_PCOR_voxel_corr p.2 (update_PCOR_references sqrt junk2 p.1 ref st2).1 vc,
             (update_PCOR_references sqrt junk2 p.1 ref st2).2) := rfl
    rw [q1, q2, ← e]
    exact ih _ _ _ _ (update_PCOR_references_scratch_ok sqrt junk1 p.1 ref st1 h1)
      (update_PCOR_references_scratch_ok sqrt junk2 p.1 ref st2 h2)

end Determinism

/-- C18: the reference state after `update_PCOR_references` is a function of
the vector and the state before it: it is the same for any two consistent
contents `st1`, `st2` of the static storage `zz` (left by earlier calls on any
states) and any contents of fresh storage.  Hence absorbing the same reference
sequence, or the same sequence of (reference vector, voxel values) pairs, from
the same states yields the same `chol`, `alp`, `ff`, `gg`, `betasq` and the same
voxel rows; and every call leaves the static storage consistent. -/
theorem update_PCOR_references_deterministic {K : Type} [LinearOrderedField K]
    (sqrt : K → K) (junk1 junk2 : Nat → K) (vec : List K) (vecs : List (List K))
    (ps : List (List K × List K)) (ref : PCOR_references K) (vc : PCOR_voxel_corr K)
    (st1 st2 : PCOR_scratch K) (h1 : st1.ok) (h2 : st2.ok) :
    (update_PCOR_references sqrt junk1 vec ref st1).1
      = (update_PCOR_references sqrt junk2 vec ref st2).1 ∧
    (absorb_references sqrt junk1 vecs (ref, st1)).1
      = (absorb_references sqrt junk2 vecs (ref, st2)).1 ∧
    (absorb_pairs sqrt junk1 ps (ref, vc, st1)).1
      = (absorb_pairs sqrt junk2 ps (ref, vc, st2)).1 ∧
    (absorb_pairs sqrt junk1 ps (ref, vc, st1)).2.1
      = (absorb_pairs sqrt junk2 ps (ref, vc, st2)).2.1 ∧
    (update_PCOR_references sqrt junk1 vec ref st1).2.ok ∧
    (absorb_references sqrt junk1 vecs (ref, st1)).2.ok :=
  ⟨update_PCOR_references_scratch_indep sqrt junk1 junk2 vec ref st1 st2 h1 h2,
   absorb_references_scratch_indep sqrt junk1 junk2 vecs ref st1 st2 h1 h2,
   (absorb_pairs_scratch_indep sqrt junk1 junk2 ps ref vc st1 st2 h1 h2).1,
   (absorb_pairs_scratch_indep sqrt junk1 junk2 ps ref vc st1 st2 h1 h2).2,
   update_PCOR_references_scratch_ok sqrt junk1 vec ref st1 h1,
   absorb_references_scratch_ok sqrt junk1 vecs ref st1 h1⟩

section Lsqfit
variable {K : Type} [LinearOrderedField K]

/-- The backward loop of `PCOR_get_lsqfit` writes `ff[k]` before it reads it:
run on two voxels with the same row and on two workspaces of any contents, it
leaves the same values in `ff[0..nr-1]`. -/
theorem backsub_agree_loop (ref : PCOR_references K) (vc1 vc2 : PCOR_voxel_corr K)
    (v1 v2 nr : Nat) (hrow : ∀ j : Nat, j < nr → VCH vc1 v1 j = VCH vc2 v2 j) (n : Nat)
    (hn : n ≤ nr) (w1 w2 : List K) (hl1 : nr ≤ w1.length) (hl2 : nr ≤ w2.length)
    (hag : ∀ k, n ≤ k → k < nr → w1.getD k 0 = w2.getD k 0) :
    ∀ k, k < nr →
      ((List.range n).reverse.foldl
        (fun w (jj : Nat) =>
          w.set jj (PCOR_get_lsqfit_sum ref w nr jj (VCH vc1 v1 jj) / RCH ref jj jj)) w1).getD k 0
      = ((List.range n).reverse.foldl
        (fun w (jj : Nat) =>
          w.set jj (PCOR_get_lsqfit_sum ref w nr jj (VCH vc2 v2 jj) / RCH ref jj jj)) w2).getD k 0 := by
  induction n generalizing w1 w2 with
  | zero => intro k hk; exact hag k (Nat.zero_le k) hk
  | succ n ih =>
    rw [foldl_reverse_range_succ, foldl_reverse_range_succ]
    have hnn : n < nr := by omega
    have hsum : PCOR_get_lsqfit_sum ref w1 nr n (VCH vc1 v1 n)
        = PCOR_get_lsqfit_sum ref w2 nr n (VCH vc2 v2 n) := by
      rw [PCOR_get_lsqfit_sum_eq ref w1 nr n _ hnn, PCOR_get_lsqfit_sum_eq ref w2 nr n _ hnn,
        hrow n hnn]
      congr 1
      apply Finset.sum_congr rfl
      intro k hk
      have hk2 := Finset.mem_Ico.mp hk
      rw [hag k (by omega) hk2.2]
    apply ih (by omega)
    · rw [List.length_set]; exact hl1
    · rw [List.length_set]; exact hl2
    · intro k hk1 hk2
      rw [getD_set, getD_set, hsum]
      by_cases hkn : n = k
      · rw [if_pos ⟨hkn, by omega⟩, if_pos ⟨hkn, by omega⟩]
      · rw [if_neg (fun h => hkn h.1), if_neg (fun h => hkn h.1)]
        exact hag k (by omega) hk2

theorem PCOR_get_lsqfit_backsub_agree (ref : PCOR_references K) (vc1 vc2 : PCOR_voxel_corr K)
    (v1 v2 nr : Nat) (hrow : ∀ j : Nat, j < nr → VCH vc1 v1 j = VCH vc2 v2 j)
    (w1 w2 : List K) (hl1 : nr ≤ w1.length) (hl2 : nr ≤ w2.length) :
    ∀ k, k < nr → (PCOR_get_lsqfit_backsub ref vc1 v1 nr w1).getD k 0
      = (PCOR_get_lsqfit_backsub ref vc2 v2 nr w2).getD k 0 :=
  backsub_agree_loop ref vc1 vc2 v1 v2 nr hrow nr (le_refl nr) w1 w2 hl1 hl2
    (fun k h1 h2 => absurd h2 (by omega))

theorem PCOR_get_lsqfit_store_spec (ff : List K) (vox nr : Nat)
    (fit : List (Option (List K))) :
    (PCOR_get_lsqfit_store ff vox nr fit).length = fit.length ∧
    ∀ j, (PCOR_get_lsqfit_store ff vox nr fit).getD j none
      = if j < nr then (fit.getD j none).map (fun col => col.set vox (ff.getD j 0))
        else fit.getD j none := by
  unfold PCOR_get_lsqfit_store
  induction nr with
  | zero => exact ⟨rfl, fun j => by rw [if_neg (Nat.not_lt_zero j)]; rfl⟩
  | succ m ih =>
    obtain ⟨h1, h2⟩ := ih
    rw [foldl_range_succ]
    generalize (List.range m).foldl _ fit = o at *
    have hm : o.getD m none = fit.getD m none := by rw [h2, if_neg (Nat.lt_irrefl m)]
    cases hf : fit.getD m none with
    | none =>
      rw [hf] at hm
      simp only [hm]
      refine ⟨h1, fun j => ?_⟩
      rw [h2]
      by_cases hj : j < m
      · rw [if_pos hj, if_pos (by omega)]
      · rw [if_neg hj]
        by_cases hjm : j = m
        · subst hjm; rw [if_pos (Nat.lt_succ_self j), hf]; rfl
        · rw [if_neg (by omega)]
    | some col =>
      rw [hf] at hm
      simp only [hm]
      have hml : m < o.length := by
        by_contra hge
        rw [List.getD_eq_getElem?_getD, List.getElem?_eq_none (by omega)] at hm
        cases hm
      refine ⟨by rw [List.length_set]; exact h1, fun j => ?_⟩
      rw [getD_set, h2]
      by_cases hjm : m = j
      · subst hjm
        rw [if_pos ⟨rfl, hml⟩, if_pos (Nat.lt_succ_self m), hf]; rfl
      · rw [if_neg (fun h => hjm h.1)]
        by_cases hj : j < m
        · rw [if_pos hj, if_pos (by omega)]
        · rw [if_neg hj, if_neg (by omega)]

/-- State of the voxel loop of `PCOR_get_lsqfit` after `n` voxels: the
workspace keeps its `nref` entries, and each requested column holds the
coefficients of the voxels `0..n-1`. -/
theorem PCOR_get_lsqfit_loop_spec (junk : Nat → K) (ref : PCOR_references K)
    (vc : PCOR_voxel_corr K) (fit : List (Option (List K))) (n : Nat) :
    (PCOR_get_lsqfit_loop junk ref vc fit n).2.length = fit.length ∧
    ∀ j, (PCOR_get_lsqfit_loop junk ref vc fit n).2.getD j none
      = if j < vc.nref.toNat then
          (fit.getD j none).map (fun col =>
            (List.range n).foldl (fun c v => c.set v (PCOR_get_lsqfit_coef ref vc v j)) col)
        else fit.getD j none := by
  induction n with
  | zero =>
    refine ⟨rfl, fun j => ?_⟩
    simp only [PCOR_get_lsqfit_loop, List.range_zero, List.foldl_nil]
    by_cases hj : j < vc.nref.toNat
    · rw [if_pos hj]; cases fit.getD j none <;> rfl
    · rw [if_neg hj]
  | succ n ih =>
    obtain ⟨h1, h2⟩ := ih
    have hlen := PCOR_get_lsqfit_loop_length junk ref vc fit n
    have e : PCOR_get_lsqfit_loop junk ref vc fit (n + 1)
        = PCOR_get_lsqfit_voxel ref vc vc.nref.toNat (PCOR_get_lsqfit_loop junk ref vc fit n) n := by
      unfold PCOR_get_lsqfit_loop
      rw [foldl_range_succ]
    rw [e]
    generalize PCOR_get_lsqfit_loop junk ref vc fit n = s at *
    obtain ⟨w, o⟩ := s
    simp only at h1 h2 hlen
    simp only [PCOR_get_lsqfit_voxel]
    obtain ⟨s1, s2⟩ := PCOR_get_lsqfit_store_spec
      (PCOR_get_lsqfit_backsub ref vc n vc.nref.toNat w) n vc.nref.toNat o
    refine ⟨s1.trans h1, fun j => ?_⟩
    rw [s2, h2]
    by_cases hj : j < vc.nref.toNat
    · simp only [hj, if_true, Option.map_map]
      have hc : (PCOR_get_lsqfit_backsub ref vc n vc.nref.toNat w).getD j 0
          = PCOR_get_lsqfit_coef ref vc n j := by
        unfold PCOR_get_lsqfit_coef
        exact PCOR_get_lsqfit_backsub_agree ref vc vc n n vc.nref.toNat (fun _ _ => rfl) w _
          (le_of_eq hlen.symm) (by rw [List.length_replicate]) j hj
      rw [hc]
      congr 1
      funext col
      simp only [Function.comp, foldl_range_succ]
    · simp only [hj, if_false]

end Lsqfit

theorem PCOR_get_lsqfit_count_nonneg {K : Type} (nr : Nat) (fit : List (Option (List K))) :
    0 ≤ PCOR_get_lsqfit_count nr fit := by
  unfold PCOR_get_lsqfit_count
  induction nr with
  | zero => exact le_refl _
  | succ n ih =>
    rw [foldl_range_succ]
    split <;> omega

theorem PCOR_get_lsqfit_count_pos {K : Type} (nr : Nat) (fit : List (Option (List K)))
    (h : ∃ j, j < nr ∧ (fit.getD j none).isSome = true) :
    PCOR_get_lsqfit_count nr fit ≠ 0 := by
  obtain ⟨j, hj, hs⟩ := h
  induction nr with
  | zero => exact absurd hj (Nat.not_lt_zero j)
  | succ n ih =>
    have hnn := PCOR_get_lsqfit_count_nonneg n fit
    unfold PCOR_get_lsqfit_count at hnn ih ⊢
    rw [foldl_range_succ]
    by_cases hjn : j = n
    · subst hjn
      rw [if_pos hs]
      omega
    · have := ih (by omega)
      split <;> omega

/-- What `PCOR_get_lsqfit` leaves in the caller's `fit` when at least one
column is requested. -/
theorem PCOR_get_lsqfit_spec {K : Type} [LinearOrderedField K] (junk : Nat → K)
    (ref : PCOR_references K) (vc : PCOR_voxel_corr K) (fit : List (Option (List K)))
    (hn : vc.nref = ref.nref)
    (hreq : ∃ j, j < vc.nref.toNat ∧ (fit.getD j none).isSome = true) :
    ∃ out, PCOR_get_lsqfit junk ref vc fit = Outcome.returned [] out ∧
      out.length = fit.length ∧
      ∀ j, (fit.getD j none = none → out.getD j none = none) ∧
        (∀ col, fit.getD j none = some col → j < vc.nref.toNat →
          ∃ col', out.getD j none = some col' ∧ col'.length = col.length ∧
            ∀ v, v < vc.nvox.toNat → v < col.length →
              col'.getD v 0 = PCOR_get_lsqfit_coef ref vc v j) := by
  have hne : ¬ vc.nref ≠ ref.nref := by simpa using hn
  have hc := PCOR_get_lsqfit_count_pos vc.nref.toNat fit hreq
  obtain ⟨l1, l2⟩ := PCOR_get_lsqfit_loop_spec junk ref vc fit vc.nvox.toNat
  unfold PCOR_get_lsqfit
  rw [if_neg hne]
  simp only [hc, if_false]
  refine ⟨_, rfl, l1, fun j => ⟨?_, ?_⟩⟩
  · intro hnone
    rw [l2, hnone]
    split <;> rfl
  · intro col hcol hj
    rw [l2, if_pos hj, hcol]
    refine ⟨_, rfl, store_loop_length _ _ _, ?_⟩
    intro v hv hl
    rw [store_loop_getD (fun v => PCOR_get_lsqfit_coef ref vc v j), if_pos ⟨hv, hl⟩]

section FitCoefLemmas

variable {K : Type} [LinearOrderedField K]

/-- The backward loop of `PCOR_get_lsqfit` over the columns `jj < n`, started
on a workspace that holds the coefficients of the specification for the
columns `n ≤ j < nr`, ends with those of all the columns. -/
theorem backsub_fitCoef_loop (ref : PCOR_references K) (vc : PCOR_voxel_corr K)
    (vox nr n : Nat) (hn : n ≤ nr) (w : List K) (hlen : nr ≤ w.length)
    (h : ∀ i, i < nr - n → w.getD (n + i) 0 = (fitCoef_from ref vc vox nr (nr - n)).getD i 0) :
    ∀ i, i < nr → ((List.range n).reverse.foldl
      (fun w (jj : Nat) =>
        w.set jj (PCOR_get_lsqfit_sum ref w nr jj (VCH vc vox jj) / RCH ref jj jj)) w).getD i 0
      = (fitCoef_from ref vc vox nr nr).getD i 0 := by
  induction n generalizing w with
  | zero =>
    intro i hi
    have := h i (by omega)
    simpa using this
  | succ n ih =>
    rw [foldl_reverse_range_succ]
    have hnl : n < nr := by omega
    obtain ⟨d, hd⟩ : ∃ d, nr - (n + 1) = d := ⟨_, rfl⟩
    have hd1 : nr - n = d + 1 := by omega
    have hj : nr - (d + 1) = n := by omega
    apply ih (by omega) _ (by rw [List.length_set]; exact hlen)
    intro i hi
    rw [hd1]
    rw [hd] at h
    cases i with
    | zero =>
      rw [Nat.add_zero, getD_set, if_pos ⟨rfl, by omega⟩, fitCoef_from, List.getD_cons_zero, hj,
        PCOR_get_lsqfit_sum_eq ref w nr n _ hnl, Finset.sum_Ico_eq_sum_range, hd]
      congr 2
      apply Finset.sum_congr rfl
      intro k hk
      have hk2 := Finset.mem_range.mp hk
      have e := h k hk2
      have e2 : n + 1 + k = n + 1 + k := rfl
      rw [e]
    | succ i =>
      rw [getD_set, if_neg (by omega), fitCoef_from, List.getD_cons_succ]
      have e := h i (by omega)
      have e2 : n + (i + 1) = n + 1 + i := by omega
      rw [e2, e]

/-- The workspace entry the backward loop of `PCOR_get_lsqfit` leaves for
column `j` is the coefficient `fitCoef[j]` of the specification. -/
theorem PCOR_get_lsqfit_coef_eq_fitCoef (ref : PCOR_references K) (vc : PCOR_voxel_corr K)
    (vox j : Nat) (hj : j < vc.nref.toNat) :
    PCOR_get_lsqfit_coef ref vc vox j = fitCoef ref vc vox j := by
  unfold PCOR_get_lsqfit_coef PCOR_get_lsqfit_backsub fitCoef
  exact backsub_fitCoef_loop ref vc vox _ _ le_rfl _ (by simp)
    (fun i hi => absurd hi (by omega)) j hj

end FitCoefLemmas

/-- C11: with matching `nref` and at least one requested column,
`PCOR_get_lsqfit` returns; every requested column `j < nref` receives, for
each voxel `v`, the `j`-th back-substitution coefficient of that voxel, which
is the value `fitCoef[j]` of the recurrence of the specification
(`fitCoef`, written from section 4.3 and not from the loop of the code), a
value that does not depend on the mask (a second call with any other mask
`fit2` requesting `j` writes the same value), and a column that is not
requested stays `NULL`: it receives no output. -/
theorem PCOR_get_lsqfit_requested {K : Type} [LinearOrderedField K] (junk junk2 : Nat → K)
    (ref : PCOR_references K) (vc : PCOR_voxel_corr K) (fit fit2 : List (Option (List K)))
    (hn : vc.nref = ref.nref)
    (hreq : ∃ j, j < vc.nref.toNat ∧ (fit.getD j none).isSome = true)
    (hreq2 : ∃ j, j < vc.nref.toNat ∧ (fit2.getD j none).isSome = true) :
    ∃ out out2, PCOR_get_lsqfit junk ref vc fit = Outcome.returned [] out ∧
      PCOR_get_lsqfit junk2 ref vc fit2 = Outcome.returned [] out2 ∧
      out.length = fit.length ∧
      ∀ j, (fit.getD j none = none → out.getD j none = none) ∧
        (∀ col, fit.getD j none = some col → j < vc.nref.toNat →
          ∃ col', out.getD j none = some col' ∧ col'.length = col.length ∧
            (∀ v, v < vc.nvox.toNat → v < col.length →
              col'.getD v 0 = fitCoef ref vc v j) ∧
            ∀ col2, fit2.getD j none = some col2 →
              ∃ col2', out2.getD j none = some col2' ∧
                ∀ v, v < vc.nvox.toNat → v < col.length → v < col2.length →
                  col2'.getD v 0 = col'.getD v 0) := by
  obtain ⟨out, e1, e2, e3⟩ := PCOR_get_lsqfit_spec junk ref vc fit hn hreq
  obtain ⟨out2, f1, _, f3⟩ := PCOR_get_lsqfit_spec junk2 ref vc fit2 hn hreq2
  refine ⟨out, out2, e1, f1, e2, fun j => ⟨(e3 j).1, ?_⟩⟩
  intro col hcol hj
  obtain ⟨col', c1, c2, c3⟩ := (e3 j).2 col hcol hj
  refine ⟨col', c1, c2, fun v hv hl =>
    (c3 v hv hl).trans (PCOR_get_lsqfit_coef_eq_fitCoef ref vc v j hj), ?_⟩
  intro col2 hcol2
  obtain ⟨col2', d1, _, d3⟩ := (f3 j).2 col2 hcol2 hj
  refine ⟨col2', d1, ?_⟩
  intro v hv hl hl2
  rw [d3 v hv hl2, c3 v hv hl]

section Voxelwise
variable {K : Type} [LinearOrderedField K]

theorem same_row_sub (n : Nat) (vc1 vc2 : PCOR_voxel_corr K) (v1 v2 : Nat)
    (h : same_row n vc1 vc2 v1 v2) (i : Nat) (hi : i ≤ n) :
    VCH vc1 v1 ((n : Int) - (i : Int)) = VCH vc2 v2 ((n : Int) - (i : Int)) := by
  have e : (n : Int) - (i : Int) = ((n - i : Nat) : Int) := by omega
  rw [e]
  exact h.2.2 (n - i) (Nat.sub_le n i)

theorem PCOR_get_pcor_voxel_congr (sqrt : K → K) (n : Nat) (hn : 1 ≤ n)
    (vc1 vc2 : PCOR_voxel_corr K) (v1 v2 : Nat) (h : same_row n vc1 vc2 v1 v2) :
    PCOR_get_pcor_voxel sqrt vc1 v1 = PCOR_get_pcor_voxel sqrt vc2 v2 := by
  have e0 := h.2.2 n (le_refl n)
  have e1 := same_row_sub n vc1 vc2 v1 v2 h 1 hn
  simp only [Nat.cast_one] at e1
  simp only [PCOR_get_pcor_voxel, h.1, h.2.1, e0, e1]

theorem PCOR_get_mcor_voxel_congr (sqrt : K → K) (n : Nat) (m : Int) (hm : m < (n : Int))
    (vc1 vc2 : PCOR_voxel_corr K) (v1 v2 : Nat) (h : same_row n vc1 vc2 v1 v2) :
    PCOR_get_mcor_voxel sqrt vc1 m v1 = PCOR_get_mcor_voxel sqrt vc2 m v2 := by
  have e0 := h.2.2 n (le_refl n)
  have hden : PCOR_get_mcor_den vc1 v1 m = PCOR_get_mcor_den vc2 v2 m := by
    rw [PCOR_get_mcor_den_eq_loop, PCOR_get_mcor_den_eq_loop, PCOR_get_mcor_loop_eq,
      PCOR_get_mcor_loop_eq, h.1, h.2.1, e0]
    congr 1
    apply Finset.sum_congr rfl
    intro i hi
    have hi2 := Finset.mem_Icc.mp hi
    rw [same_row_sub n vc1 vc2 v1 v2 h i (by omega)]
  simp only [PCOR_get_mcor_voxel, hden, h.1, h.2.1, e0]

theorem PCOR_get_coef_voxel_congr (ref : PCOR_references K) (n : Nat) (hn : 1 ≤ n)
    (vc1 vc2 : PCOR_voxel_corr K) (v1 v2 : Nat) (h : same_row n vc1 vc2 v1 v2) :
    PCOR_get_coef_voxel ref vc1 v1 = PCOR_get_coef_voxel ref vc2 v2 := by
  have e1 := same_row_sub n vc1 vc2 v1 v2 h 1 hn
  simp only [Nat.cast_one] at e1
  simp only [PCOR_get_coef_voxel, h.1, h.2.1, e1]

theorem PCOR_get_pcor_and_coef_voxel_congr (sqrt : K → K) (ref : PCOR_references K)
    (p : K) (n : Nat) (hn : 1 ≤ n)
    (vc1 vc2 : PCOR_voxel_corr K) (v1 v2 : Nat) (h : same_row n vc1 vc2 v1 v2) :
    PCOR_get_pcor_and_coef_voxel sqrt ref vc1 p v1
      = PCOR_get_pcor_and_coef_voxel sqrt ref vc2 p v2 := by
  have e0 := h.2.2 n (le_refl n)
  have e1 := same_row_sub n vc1 vc2 v1 v2 h 1 hn
  simp only [Nat.cast_one] at e1
  simp only [PCOR_get_pcor_and_coef_voxel, h.1, h.2.1, e0, e1]

theorem PCOR_get_lsqfit_coef_congr (ref : PCOR_references K) (n : Nat)
    (vc1 vc2 : PCOR_voxel_corr K) (v1 v2 : Nat) (h : same_row n vc1 vc2 v1 v2) (j : Nat)
    (hj : j < n) :
    PCOR_get_lsqfit_coef ref vc1 v1 j = PCOR_get_lsqfit_coef ref vc2 v2 j := by
  unfold PCOR_get_lsqfit_coef
  rw [h.1, h.2.1, Int.toNat_ofNat]
  exact PCOR_get_lsqfit_backsub_agree ref vc1 vc2 v1 v2 n (fun k hk => h.2.2 k (by omega)) _ _
    (by rw [List.length_replicate]) (by rw [List.length_replicate]) j hj

theorem PCOR_get_variance_written (vc : PCOR_voxel_corr K) (var : List K) (v : Nat)
    (hv : v < vc.nvox.toNat) (hl : v < var.length) :
    (PCOR_get_variance vc var).result.map (fun o => o.getD v 0)
      = some (if vc.nupdate ≤ vc.nref then 0
          else 1 / ((vc.nupdate - vc.nref : Int) : K) * VCH vc v vc.nref) := by
  unfold PCOR_get_variance
  by_cases h : vc.nupdate ≤ vc.nref
  · simp only [h, if_true, Outcome.result, Option.map_some']
    rw [store_loop_getD (fun _ => (0 : K)), if_pos ⟨hv, hl⟩]
  · simp only [h, if_false, Outcome.result, Option.map_some']
    rw [store_loop_getD (fun vox => 1 / ((vc.nupdate - vc.nref : Int) : K) * VCH vc vox vc.nref),
      if_pos ⟨hv, hl⟩]

end Voxelwise

/-- C12: every extraction routine is voxel-wise independent.  Let two voxel
states have the `nref ≥ 1` of the reference state and the same `nupdate`, and
let voxel `v1` of the first hold the same row `lastRow[0..nref]` as voxel `v2`
of the second (other voxels, their number, their order and the previous
contents of the output arrays are arbitrary).  Then `PCOR_get_pcor`,
`PCOR_get_coef`, `PCOR_get_variance`, `PCOR_get_pcor_and_coef` and, for any
mask requesting column `j`, `PCOR_get_lsqfit` return and write the same value
for `v1` as for `v2`; `PCOR_get_mcor` does so for every `m < nref` and ends
the process in both cases otherwise.  The workspace `ff` of `PCOR_get_lsqfit`
is written before it is read: its final entries `0..nref-1` do not depend on
its initial contents (fresh storage or the values left by another voxel). -/
theorem extraction_voxelwise {K : Type} [LinearOrderedField K] (sqrt : K → K)
    (junk1 junk2 : Nat → K) (ref : PCOR_references K) (vc1 vc2 : PCOR_voxel_corr K)
    (v1 v2 : Nat) (m : Int) (p : K) (buf1 buf2 cbuf1 cbuf2 : List K)
    (fit1 fit2 : List (Option (List K)))
    (hn1 : vc1.nref = ref.nref) (hn2 : vc2.nref = ref.nref) (hpos : 1 ≤ ref.nref)
    (hup : vc1.nupdate = vc2.nupdate)
    (hrow : ∀ j : Nat, j ≤ ref.nref.toNat → VCH vc1 v1 j = VCH vc2 v2 j)
    (hv1 : v1 < vc1.nvox.toNat) (hv2 : v2 < vc2.nvox.toNat)
    (hb1 : v1 < buf1.length) (hb2 : v2 < buf2.length)
    (hc1 : v1 < cbuf1.length) (hc2 : v2 < cbuf2.length) :
    (∃ x, (PCOR_get_pcor sqrt ref vc1 buf1).result.map (fun o => o.getD v1 0) = some x ∧
        (PCOR_get_pcor sqrt ref vc2 buf2).result.map (fun o => o.getD v2 0) = some x) ∧
    ((PCOR_get_mcor sqrt ref vc1 m buf1).result.map (fun o => o.getD v1 0)
        = (PCOR_get_mcor sqrt ref vc2 m buf2).result.map (fun o => o.getD v2 0) ∧
      (m < ref.nref →
        ∃ x, (PCOR_get_mcor sqrt ref vc1 m buf1).result.map (fun o => o.getD v1 0) = some x)) ∧
    (∃ x, (PCOR_get_coef ref vc1 buf1).result.map (fun o => o.getD v1 0) = some x ∧
        (PCOR_get_coef ref vc2 buf2).result.map (fun o => o.getD v2 0) = some x) ∧
    (∃ x, (PCOR_get_variance vc1 buf1).result.map (fun o => o.getD v1 0) = some x ∧
        (PCOR_get_variance vc2 buf2).result.map (fun o => o.getD v2 0) = some x) ∧
    (∃ x, (PCOR_get_pcor_and_coef sqrt ref vc1 p buf1 cbuf1).result.map
          (fun o => (o.1.getD v1 0, o.2.getD v1 0)) = some x ∧
        (PCOR_get_pcor_and_coef sqrt ref vc2 p buf2 cbuf2).result.map
          (fun o => (o.1.getD v2 0, o.2.getD v2 0)) = some x) ∧
    (∀ (j : Nat) (col1 col2 : List K), j < ref.nref.toNat →
      fit1.getD j none = some col1 → fit2.getD j none = some col2 →
      v1 < col1.length → v2 < col2.length →
      ∃ x, (PCOR_get_lsqfit junk1 ref vc1 fit1).result.map
            (fun o => (o.getD j none).map (fun c => c.getD v1 0)) = some (some x) ∧
          (PCOR_get_lsqfit junk2 ref vc2 fit2).result.map
            (fun o => (o.getD j none).map (fun c => c.getD v2 0)) = some (some x)) ∧
    (∀ (w1 w2 : List K), ref.nref.toNat ≤ w1.length → ref.nref.toNat ≤ w2.length →
      ∀ k, k < ref.nref.toNat →
        (PCOR_get_lsqfit_backsub ref vc1 v1 ref.nref.toNat w1).getD k 0
          = (PCOR_get_lsqfit_backsub ref vc2 v2 ref.nref.toNat w2).getD k 0) := by
  obtain ⟨n, hn⟩ := Int.eq_ofNat_of_zero_le (by omega : 0 ≤ ref.nref)
  have hn' : ref.nref = (n : Int) := hn
  have hnpos : 1 ≤ n := by omega
  have htn : ref.nref.toNat = n := by rw [hn']; exact Int.toNat_ofNat n
  rw [htn] at hrow
  have hs : same_row n vc1 vc2 v1 v2 := ⟨hn1.trans hn', hn2.trans hn', hrow⟩
  have ne1 : ¬ vc1.nref ≠ ref.nref := by simpa using hn1
  have ne2 : ¬ vc2.nref ≠ ref.nref := by simpa using hn2
  rw [htn]
  refine ⟨?_, ⟨?_, ?_⟩, ?_, ?_, ?_, ?_, ?_⟩
  · refine ⟨PCOR_get_pcor_voxel sqrt vc1 v1, ?_, ?_⟩
    · rw [PCOR_get_pcor_eq sqrt ref vc1 buf1 hn1]
      simp only [Outcome.result, Option.map_some']
      rw [store_loop_getD, if_pos ⟨hv1, hb1⟩]
    · rw [PCOR_get_pcor_eq sqrt ref vc2 buf2 hn2]
      simp only [Outcome.result, Option.map_some']
      rw [store_loop_getD, if_pos ⟨hv2, hb2⟩,
        PCOR_get_pcor_voxel_congr sqrt n hnpos vc1 vc2 v1 v2 hs]
  · unfold PCOR_get_mcor
    rw [if_neg ne1, if_neg ne2, hn1, hn2]
    by_cases hm : m ≥ ref.nref
    · rw [if_pos hm, if_pos hm]; rfl
    · rw [if_neg hm, if_neg hm]
      simp only [Outcome.result, Option.map_some']
      rw [store_loop_getD, if_pos ⟨hv1, hb1⟩, store_loop_getD, if_pos ⟨hv2, hb2⟩,
        PCOR_get_mcor_voxel_congr sqrt n m (by omega) vc1 vc2 v1 v2 hs]
  · intro hm
    have hm' : ¬ m ≥ vc1.nref := by rw [hn1]; omega
    unfold PCOR_get_mcor
    rw [if_neg ne1, if_neg hm']
    exact ⟨_, rfl⟩
  · refine ⟨PCOR_get_coef_voxel ref vc1 v1, ?_, ?_⟩
    · rw [PCOR_get_coef_eq ref vc1 buf1 hn1]
      simp only [Outcome.result, Option.map_some']
      rw [store_loop_getD, if_pos ⟨hv1, hb1⟩]
    · rw [PCOR_get_coef_eq ref vc2 buf2 hn2]
      simp only [Outcome.result, Option.map_some']
      rw [store_loop_getD, if_pos ⟨hv2, hb2⟩,
        PCOR_get_coef_voxel_congr ref n hnpos vc1 vc2 v1 v2 hs]
  · refine ⟨_, PCOR_get_variance_written vc1 buf1 v1 hv1 hb1, ?_⟩
    rw [PCOR_get_variance_written vc2 buf2 v2 hv2 hb2, hup, hs.1, hs.2.1,
      hs.2.2 n (le_refl n)]
  · refine ⟨PCOR_get_pcor_and_coef_voxel sqrt ref vc1 p v1, ?_, ?_⟩
    · rw [PCOR_get_pcor_and_coef_eq sqrt ref vc1 p buf1 cbuf1 hn1]
      simp only [Outcome.result, Option.map_some']
      rw [store_loop_getD, if_pos ⟨hv1, hb1⟩, store_loop_getD, if_pos ⟨hv1, hc1⟩]
    · rw [PCOR_get_pcor_and_coef_eq sqrt ref vc2 p buf2 cbuf2 hn2]
      simp only [Outcome.result, Option.map_some']
      rw [store_loop_getD, if_pos ⟨hv2, hb2⟩, store_loop_getD, if_pos ⟨hv2, hc2⟩,
        PCOR_get_pcor_and_coef_voxel_congr sqrt ref p n hnpos vc1 vc2 v1 v2 hs]
  · intro j col1 col2 hj hf1 hf2 hl1 hl2
    have hj1 : j < vc1.nref.toNat := by rw [hs.1, Int.toNat_ofNat]; exact hj
    have hj2 : j < vc2.nref.toNat := by rw [hs.2.1, Int.toNat_ofNat]; exact hj
    obtain ⟨o1, a1, _, a3⟩ := PCOR_get_lsqfit_spec junk1 ref vc1 fit1 hn1
      ⟨j, hj1, by rw [hf1]; rfl⟩
    obtain ⟨o2, b1, _, b3⟩ := PCOR_get_lsqfit_spec junk2 ref vc2 fit2 hn2
      ⟨j, hj2, by rw [hf2]; rfl⟩
    obtain ⟨c1, p1, _, p3⟩ := (a3 j).2 col1 hf1 hj1
    obtain ⟨c2, q1, _, q3⟩ := (b3 j).2 col2 hf2 hj2
    refine ⟨PCOR_get_lsqfit_coef ref vc1 v1 j, ?_, ?_⟩
    · rw [a1]
      simp only [Outcome.result, Option.map_some', p1, p3 v1 hv1 hl1]
    · rw [b1]
      simp only [Outcome.result, Option.map_some', q1, q3 v2 hv2 hl2,
        PCOR_get_lsqfit_coef_congr ref n vc1 vc2 v1 v2 hs j hj]
  · intro w1 w2 hw1 hw2 k hk
    exact PCOR_get_lsqfit_backsub_agree ref vc1 vc2 v1 v2 n (fun i hi => hs.2.2 i (by omega))
      w1 w2 hw1 hw2 k hk

/-- C20: `mri_threshold` leaves the data image as it was whenever `thrim` or
`im` is `NULL`, their voxel counts differ, `thbot ≥ thtop`, the threshold
image is neither short nor float, or the data image is of a kind without a
case in the `switch`. -/
theorem mri_threshold_unchanged {K : Type} [LinearOrderedField K] (toShort : K → Int)
    (thbot thtop : K) (thrim im : Option (MRI_IMAGE K))
    (h : thrim = none ∨ im = none ∨ thbot ≥ thtop ∨
      ∃ t i, thrim = some t ∧ im = some i ∧
        (t.nvox ≠ i.nvox ∨ ¬ t.im.short_or_float ∨ ¬ i.im.supported)) :
    mri_threshold toShort thbot thtop thrim im = im := by
  cases thrim with
  | none => cases im <;> rfl
  | some t =>
    cases im with
    | none => rfl
    | some i =>
      unfold mri_threshold
      simp only []
      by_cases hc : t.nvox ≠ i.nvox ∨ thbot ≥ thtop
      · rw [if_pos hc]
      · rw [if_neg hc]
        have hc1 : ¬ t.nvox ≠ i.nvox := fun hh => hc (Or.inl hh)
        have hc2 : ¬ thbot ≥ thtop := fun hh => hc (Or.inr hh)
        rcases h with h | h | h | ⟨t', i', ht, hi, h⟩
        · cases h
        · cases h
        · exact absurd h hc2
        · cases ht; cases hi
          rcases h with h | h | h
          · exact absurd h hc1
          · obtain ⟨nv, d⟩ := t
            cases d <;> first | rfl | exact absurd trivial h
          · obtain ⟨nv, d⟩ := i
            cases d with
            | other k raw =>
              obtain ⟨tnv, td⟩ := t
              cases td <;> rfl
            | _ => exact absurd trivial h

section ScenarioSteps
variable {K : Type} [LinearOrderedField K]

end ScenarioSteps

section ScenarioStepsBetasq
variable {K : Type} [LinearOrderedField K]

end ScenarioStepsBetasq

/-- Whatever the voxel state, `PCOR_get_pcor` and `PCOR_get_variance` never
deliver, for one voxel, a correlation other than `0` together with a variance
of at most `DENEPS/(nupdate - nref)`: the residual energy `lastRow[v][nref]`
must exceed `DENEPS` for the first and is the numerator of the second. -/
theorem PCOR_get_pcor_zero_or_variance (ref : PCOR_references ℝ) (vc : PCOR_voxel_corr ℝ)
    (pcor var : List ℝ) (hn : vc.nref = ref.nref) (hup : vc.nref < vc.nupdate) :
    ∃ out1 out2, PCOR_get_pcor Real.sqrt ref vc pcor = Outcome.returned [] out1 ∧
      PCOR_get_variance vc var = Outcome.returned [] out2 ∧
      ∀ v, v < vc.nvox.toNat → v < pcor.length → v < var.length →
        out1.getD v 0 = 0 ∨
          DENEPS / ((vc.nupdate - vc.nref : Int) : ℝ) < out2.getD v 0 := by
  have hne : ¬ vc.nref ≠ ref.nref := by simpa using hn
  have hup2 : ¬ vc.nupdate ≤ vc.nref := by omega
  unfold PCOR_get_pcor PCOR_get_variance
  simp only [if_neg hne, if_neg hup2]
  refine ⟨_, _, rfl, rfl, ?_⟩
  intro v hv hl1 hl2
  rw [store_loop_getD (fun v => PCOR_get_pcor_voxel Real.sqrt vc v), if_pos ⟨hv, hl1⟩,
    store_loop_getD (fun v => 1 / ((vc.nupdate - vc.nref : Int) : ℝ) * VCH vc v vc.nref),
    if_pos ⟨hv, hl2⟩]
  have hc : (0 : ℝ) < ((vc.nupdate - vc.nref : Int) : ℝ) := by
    have : (0 : Int) < vc.nupdate - vc.nref := by omega
    exact_mod_cast this
  unfold PCOR_get_pcor_voxel
  by_cases hden : VCH vc v vc.nref > DENEPS
  · right
    rw [one_div, inv_mul_eq_div]
    exact div_lt_div_of_pos_right hden hc
  · left
    simp only [hden, if_false]

/-- C11 (witness): `nref = 2`; the first mask requests column `1` only, the
second both columns. -/
theorem PCOR_get_lsqfit_requested_witness :
    ∃ out out2,
      PCOR_get_lsqfit (fun _ => 0) ex_ref (ex_vc (0:ℝ) 1 3) [none, some [7]]
        = Outcome.returned [] out ∧
      PCOR_get_lsqfit (fun _ => 5) ex_ref (ex_vc (0:ℝ) 1 3) [some [5], some [6]]
        = Outcome.returned [] out2 ∧
      out.length = ([none, some [7]] : List (Option (List ℝ))).length ∧
      ∀ j, (([none, some [7]] : List (Option (List ℝ))).getD j none = none →
          out.getD j none = none) ∧
        (∀ col, ([none, some [7]] : List (Option (List ℝ))).getD j none = some col →
          j < (ex_vc (0:ℝ) 1 3).nref.toNat →
          ∃ col', out.getD j none = some col' ∧ col'.length = col.length ∧
            (∀ v, v < (ex_vc (0:ℝ) 1 3).nvox.toNat → v < col.length →
              col'.getD v 0 = fitCoef ex_ref (ex_vc (0:ℝ) 1 3) v j) ∧
            ∀ col2, ([some [5], some [6]] : List (Option (List ℝ))).getD j none = some col2 →
              ∃ col2', out2.getD j none = some col2' ∧
                ∀ v, v < (ex_vc (0:ℝ) 1 3).nvox.toNat → v < col.length → v < col2.length →
                  col2'.getD v 0 = col'.getD v 0) :=
  PCOR_get_lsqfit_requested (fun _ => 0) (fun _ => 5) ex_ref (ex_vc (0:ℝ) 1 3)
    [none, some [7]] [some [5], some [6]] rfl ⟨1, by decide, rfl⟩ ⟨0, by decide, rfl⟩

theorem ex_vc_same_row : ∀ j : Nat, j ≤ (ex_ref : PCOR_references ℝ).nref.toNat →
    VCH (ex_vc (0:ℝ) 1 3) (0:ℕ) j = VCH (ex_vc2 (0:ℝ) 1 3) (1:ℕ) j := by
  intro j hj
  have hj2 : j ≤ 2 := by simpa [ex_ref] using hj
  interval_cases j <;> simp [VCH, VCHidx, ex_vc, ex_vc2]

/-- C12 (witness): voxel `0` of a one-voxel state and voxel `1` of a two-voxel
state hold the same row `[0, 1, 3]`; the values written by `PCOR_get_pcor`
and `PCOR_get_variance` for them are equal. -/
theorem extraction_voxelwise_witness :
    (∃ x, (PCOR_get_pcor Real.sqrt ex_ref (ex_vc (0:ℝ) 1 3) [7]).result.map
          (fun o => o.getD 0 0) = some x ∧
        (PCOR_get_pcor Real.sqrt ex_ref (ex_vc2 (0:ℝ) 1 3) [8, 8]).result.map
          (fun o => o.getD 1 0) = some x) ∧
    (∃ x, (PCOR_get_variance (ex_vc (0:ℝ) 1 3) [7]).result.map (fun o => o.getD 0 0) = some x ∧
        (PCOR_get_variance (ex_vc2 (0:ℝ) 1 3) [8, 8]).result.map (fun o => o.getD 1 0)
          = some x) :=
  have h := extraction_voxelwise Real.sqrt (fun _ => 0) (fun _ => 5) ex_ref (ex_vc (0:ℝ) 1 3)
    (ex_vc2 (0:ℝ) 1 3) 0 1 1 (1 / 2) [7] [8, 8] [7] [8, 8] [none, some [7]]
    [some [5, 5], some [6, 6]] rfl rfl (by decide) rfl ex_vc_same_row (by decide) (by decide)
    (by decide) (by decide) (by decide) (by decide)
  ⟨h.1, h.2.2.2.1⟩

/-- C17 (witness): the identity factor with `nref = 2` and the vector `[0, 0]`. -/
theorem update_PCOR_references_zero_witness :
    (update_PCOR_references Real.sqrt (fun _ => 0) [0, 0] ex_ref PCOR_scratch.init).1.chol
      = (ex_ref : PCOR_references ℝ).chol ∧
    (update_PCOR_references Real.sqrt (fun _ => 0) [0, 0] ex_ref PCOR_scratch.init).1.nupdate
      = (ex_ref : PCOR_references ℝ).nupdate + 1 ∧
    (update_PCOR_references Real.sqrt (fun _ => 0) [0, 0] ex_ref PCOR_scratch.init).1.betasq
      = 1 :=
  have h := update_PCOR_references_zero (fun _ => 0) [0, 0] ex_ref PCOR_scratch.init
    ex_ref_shaped rfl (fun i hi => ne_of_gt (ex_ref_diag i hi)) rfl
  ⟨h.1, h.2.2.1, h.2.2.2.1⟩

/-- C18 (witness): the static storage as initialised, against the static
storage left by an update of a state with another `nref`. -/
theorem update_PCOR_references_deterministic_witness :
    (update_PCOR_references Real.sqrt (fun _ => 0) [3, 4] ex_ref PCOR_scratch.init).1
      = (update_PCOR_references Real.sqrt (fun _ => 5) [3, 4] ex_ref
          (update_PCOR_references Real.sqrt (fun _ => 7) [1] ex_fresh PCOR_scratch.init).2).1 ∧
    (absorb_pairs Real.sqrt (fun _ => 0) [([3, 4], [2]), ([1, 1], [5])]
        (ex_ref, ex_vc (0:ℝ) 0 1, PCOR_scratch.init)).2.1
      = (absorb_pairs Real.sqrt (fun _ => 5) [([3, 4], [2]), ([1, 1], [5])]
        (ex_ref, ex_vc (0:ℝ) 0 1,
          (update_PCOR_references Real.sqrt (fun _ => 7) [1] ex_fresh PCOR_scratch.init).2)).2.1 :=
  have h := update_PCOR_references_deterministic Real.sqrt (fun _ => 0) (fun _ => 5) [3, 4]
    [[3, 4]] [([3, 4], [2]), ([1, 1], [5])] ex_ref (ex_vc (0:ℝ) 0 1) PCOR_scratch.init
    (update_PCOR_references Real.sqrt (fun _ => 7) [1] ex_fresh PCOR_scratch.init).2 rfl
    (update_PCOR_references_scratch_ok Real.sqrt (fun _ => 7) [1] ex_fresh PCOR_scratch.init rfl)
  ⟨h.1, h.2.2.2.1⟩

/-- C20 (witness): a short threshold image and a data image of a kind
without a case. -/
theorem mri_threshold_unchanged_witness :
    mri_threshold (fun x : ℝ => ⌊x⌋) 1 10 (some ⟨2, MRI_DATA.short [5, 20]⟩)
        (some ⟨2, MRI_DATA.other 6 [1, 2]⟩)
      = some ⟨2, MRI_DATA.other 6 [1, 2]⟩ :=
  mri_threshold_unchanged (fun x : ℝ => ⌊x⌋) 1 10 (some ⟨2, MRI_DATA.short [5, 20]⟩)
    (some ⟨2, MRI_DATA.other 6 [1, 2]⟩)
    (Or.inr (Or.inr (Or.inr ⟨_, _, rfl, rfl, Or.inr (Or.inr (fun h => h))⟩)))

/-- The assignment `RCH(ref,ii,jj) = v` leaves `alp` alone. -/
theorem setRCH_alp {K : Type} (ref : PCOR_references K) (i j : Int) (v : K) :
    (setRCH ref i j v).alp = ref.alp := by
  unfold setRCH
  split <;> rfl

section Betasq
variable {K : Type} [LinearOrderedField K]

/-- The inner loop of `update_PCOR_references` leaves `alp` alone. -/
theorem update_inner_loop_alp (a f g : K) (jj : Nat) (l : List Nat)
    (s : List K × PCOR_references K) :
    (l.foldl (update_inner a f g jj) s).2.alp = s.2.alp := by
  induction l generalizing s with
  | nil => rfl
  | cons k l ih =>
    rw [List.foldl_cons, ih]
    simp only [update_inner, setRCH_alp]

/-- One column of `update_PCOR_references`: the new `bold` and the new `alp`. -/
theorem update_outer_alp (sqrt : K → K) (n : Nat) (s : K × List K × PCOR_references K)
    (jj : Nat) :
    (update_outer sqrt n s jj).1
        = sqrt (s.1 * s.1 + s.2.1.getD jj 0 / RCH s.2.2 jj jj * (s.2.1.getD jj 0 / RCH s.2.2 jj jj)) ∧
    (update_outer sqrt n s jj).2.2.alp = s.2.2.alp.set jj (s.2.1.getD jj 0 / RCH s.2.2 jj jj) := by
  refine ⟨rfl, ?_⟩
  simp only [update_outer]
  rw [update_inner_loop_alp]

end Betasq

/-- Invariant of the column loop of `update_PCOR_references` for the running
scalar `bold`: its square is `1` plus the squares of the `alp` saved so far. -/
theorem update_outer_loop_bsq (n : Nat) (s0 : ℝ × List ℝ × PCOR_references ℝ)
    (h0 : s0.1 = 1) (j : Nat) (hj : j ≤ s0.2.2.alp.length) :
    ((List.range j).foldl (update_outer Real.sqrt n) s0).2.2.alp.length = s0.2.2.alp.length ∧
    ((List.range j).foldl (update_outer Real.sqrt n) s0).1
        * ((List.range j).foldl (update_outer Real.sqrt n) s0).1
      = 1 + ∑ i ∈ Finset.range j,
          ((List.range j).foldl (update_outer Real.sqrt n) s0).2.2.alp.getD i 0 ^ 2 := by
  induction j with
  | zero => simp [h0]
  | succ j ih =>
    obtain ⟨ihl, ihb⟩ := ih (by omega)
    rw [foldl_range_succ]
    obtain ⟨hb, ha⟩ := update_outer_alp Real.sqrt n ((List.range j).foldl (update_outer Real.sqrt n) s0) j
    rw [hb, ha]
    refine ⟨by rw [List.length_set, ihl], ?_⟩
    rw [Real.mul_self_sqrt (add_nonneg (mul_self_nonneg _) (mul_self_nonneg _)), ihb,
      Finset.sum_range_succ]
    have hsum : ∀ i ∈ Finset.range j,
        (((List.range j).foldl (update_outer Real.sqrt n) s0).2.2.alp.set j
          (((List.range j).foldl (update_outer Real.sqrt n) s0).2.1.getD j 0 /
            RCH ((List.range j).foldl (update_outer Real.sqrt n) s0).2.2 j j)).getD i 0 ^ 2
        = ((List.range j).foldl (update_outer Real.sqrt n) s0).2.2.alp.getD i 0 ^ 2 := by
      intro i hi
      have hi2 : i < j := Finset.mem_range.mp hi
      rw [getD_set, if_neg (by omega)]
    rw [Finset.sum_congr rfl hsum, getD_set, if_pos ⟨rfl, by omega⟩]
    ring

/-- C23: in exact arithmetic, after `update_PCOR_references` on a state of
the shape `new_PCOR_references` builds, with a non-zero diagonal, the saved
`betasq` is `1 / (1 + Σ_{j<nref} alp[j]²)` for the saved `alp`, hence
`0 < betasq ≤ 1`. -/
theorem update_PCOR_references_betasq (junk : Nat → ℝ) (vec : List ℝ)
    (ref : PCOR_references ℝ) (st : PCOR_scratch ℝ) (hs : ref.shaped)
    (_hd : ∀ i : Nat, i < ref.nref.toNat → RCH ref i i ≠ 0) :
    (update_PCOR_references Real.sqrt junk vec ref st).1.betasq
      = 1 / (1 + ∑ j ∈ Finset.range ref.nref.toNat,
          (update_PCOR_references Real.sqrt junk vec ref st).1.alp.getD j 0 ^ 2) ∧
    0 < (update_PCOR_references Real.sqrt junk vec ref st).1.betasq ∧
    (update_PCOR_references Real.sqrt junk vec ref st).1.betasq ≤ 1 := by
  obtain ⟨-, -, -, h4, -, -⟩ := hs
  have hb := (update_outer_loop_bsq ref.nref.toNat
    (1, (List.range ref.nref.toNat).foldl (fun zz (jj : Nat) => zz.set jj (vec.getD jj 0))
        (if st.zz_size < ref.nref then
          ({ zz := malloc junk ref.nref, zz_size := ref.nref } : PCOR_scratch ℝ) else st).zz,
       ref) rfl ref.nref.toNat (le_of_eq h4.symm)).2
  have hnn : 0 ≤ ∑ j ∈ Finset.range ref.nref.toNat,
      (update_PCOR_references Real.sqrt junk vec ref st).1.alp.getD j 0 ^ 2 :=
    Finset.sum_nonneg (fun i _ => sq_nonneg _)
  have heq : (update_PCOR_references Real.sqrt junk vec ref st).1.betasq
      = 1 / (1 + ∑ j ∈ Finset.range ref.nref.toNat,
          (update_PCOR_references Real.sqrt junk vec ref st).1.alp.getD j 0 ^ 2) := by
    unfold update_PCOR_references
    simp only []
    rw [hb]
  refine ⟨heq, ?_, ?_⟩
  · rw [heq]; positivity
  · rw [heq, div_le_one (by positivity)]; linarith

/-- Instance of C23: one update of the fresh one-reference state with the
vector `[3]`. -/
theorem update_PCOR_references_betasq_witness :
    (update_PCOR_references Real.sqrt (fun _ => 0) [3] ex_fresh PCOR_scratch.init).1.betasq
      = 1 / (1 + ∑ j ∈ Finset.range (ex_fresh : PCOR_references ℝ).nref.toNat,
          (update_PCOR_references Real.sqrt (fun _ => 0) [3] ex_fresh
            PCOR_scratch.init).1.alp.getD j 0 ^ 2) ∧
    0 < (update_PCOR_references Real.sqrt (fun _ => 0) [3] ex_fresh PCOR_scratch.init).1.betasq ∧
    (update_PCOR_references Real.sqrt (fun _ => 0) [3] ex_fresh PCOR_scratch.init).1.betasq ≤ 1 :=
  update_PCOR_references_betasq (fun _ => 0) [3] ex_fresh PCOR_scratch.init
    (by simp [PCOR_references.shaped, ex_fresh])
    (by
      intro i hi
      have hi0 : i = 0 := by simp [ex_fresh] at hi; omega
      subst hi0
      simp [RCH, rget, ex_fresh])

/-- The function `PCOR_get_mcor` on states of equal `nref` and `m < nref`:
the voxel loop. -/
theorem PCOR_get_mcor_eq {K : Type} [LinearOrderedField K] (sqrt : K → K)
    (ref : PCOR_references K) (vc : PCOR_voxel_corr K) (m : Int) (pcor : List K)
    (hn : vc.nref = ref.nref) (hm : m < vc.nref) :
    PCOR_get_mcor sqrt ref vc m pcor = Outcome.returned []
      ((List.range vc.nvox.toNat).foldl
        (fun out vox => out.set vox (PCOR_get_mcor_voxel sqrt vc m vox)) pcor) := by
  unfold PCOR_get_mcor
  rw [if_neg (by simpa using hn), if_neg (by omega)]

/-- For `m = 1` the value `sqrt(max(1 - d/(d + a²), 0))` is `|a / sqrt(d + a²)|`. -/
theorem mcor_one_abs (a d : ℝ) (hd : 0 < d) :
    (if 1 - d / (d + SQR a) > 0 then Real.sqrt (1 - d / (d + SQR a)) else 0)
      = |a / Real.sqrt (d + SQR a)| := by
  have hpos : 0 < d + a * a := by nlinarith [mul_self_nonneg a]
  have hval : 1 - d / (d + a * a) = a ^ 2 / (d + a * a) := by
    field_simp; ring
  have hs : Real.sqrt (1 - d / (d + a * a)) = |a / Real.sqrt (d + a * a)| := by
    rw [hval, Real.sqrt_div (sq_nonneg a), Real.sqrt_sq_eq_abs, abs_div,
      abs_of_nonneg (Real.sqrt_nonneg _)]
  unfold SQR
  split
  · exact hs
  · rename_i h
    rw [← hs, Real.sqrt_eq_zero_of_nonpos (by linarith)]

/-- C24: for states of equal `nref ≥ 2`, the multiple correlation with
`m = 1` is the absolute value of the partial correlation at every voxel
whose residual energy `lastRow[v][nref]` exceeds `1e-5` (exact arithmetic). -/
theorem PCOR_get_mcor_one_abs_pcor (ref : PCOR_references ℝ) (vc : PCOR_voxel_corr ℝ)
    (mcor pcor : List ℝ) (hn : vc.nref = ref.nref) (h2 : 2 ≤ vc.nref) :
    ∃ M P, PCOR_get_mcor Real.sqrt ref vc 1 mcor = Outcome.returned [] M ∧
      PCOR_get_pcor Real.sqrt ref vc pcor = Outcome.returned [] P ∧
      ∀ v, v < vc.nvox.toNat → v < mcor.length → v < pcor.length →
        VCH vc v vc.nref > 1 / 100000 → M.getD v 0 = |P.getD v 0| := by
  refine ⟨_, _, PCOR_get_mcor_eq Real.sqrt ref vc 1 mcor hn (by omega),
    PCOR_get_pcor_eq Real.sqrt ref vc pcor hn, ?_⟩
  intro v hv hl1 hl2 hden
  rw [store_loop_getD, if_pos ⟨hv, hl1⟩, store_loop_getD, if_pos ⟨hv, hl2⟩]
  have hd0 : 0 < VCH vc v vc.nref := lt_trans (by norm_num) hden
  unfold PCOR_get_mcor_voxel PCOR_get_pcor_voxel PCOR_get_mcor_den DENEPS
  simp only [if_true, if_pos hden]
  exact mcor_one_abs _ _ hd0

/-- Instance of C24: one voxel with last row `[0, 1, 3]`, where both values
are `1/2`. -/
theorem PCOR_get_mcor_one_abs_pcor_witness :
    (∃ M P, PCOR_get_mcor Real.sqrt ex_ref (ex_vc (0:ℝ) 1 3) 1 [7] = Outcome.returned [] M ∧
      PCOR_get_pcor Real.sqrt ex_ref (ex_vc (0:ℝ) 1 3) [8] = Outcome.returned [] P ∧
      ∀ v, v < (ex_vc (0:ℝ) 1 3).nvox.toNat → v < [(7:ℝ)].length → v < [(8:ℝ)].length →
        VCH (ex_vc (0:ℝ) 1 3) v (ex_vc (0:ℝ) 1 3).nref > 1 / 100000 →
        M.getD v 0 = |P.getD v 0|) ∧
    VCH (ex_vc (0:ℝ) 1 3) (0:ℕ) (ex_vc (0:ℝ) 1 3).nref > 1 / 100000 :=
  ⟨PCOR_get_mcor_one_abs_pcor ex_ref (ex_vc (0:ℝ) 1 3) [7] [8] rfl (by decide),
   by simp [VCH, VCHidx, ex_vc]; norm_num⟩

section LastColumn
variable {K : Type} [LinearOrderedField K]

/-- The backward loop of `PCOR_get_lsqfit` over the columns `jj < n` leaves
the entries `k ≥ n` of the workspace alone. -/
theorem backsub_loop_keeps (ref : PCOR_references K) (vc : PCOR_voxel_corr K)
    (vox nr n : Nat) (w : List K) (k : Nat) (hk : n ≤ k) :
    ((List.range n).reverse.foldl
      (fun w (jj : Nat) =>
        w.set jj (PCOR_get_lsqfit_sum ref w nr jj (VCH vc vox jj) / RCH ref jj jj)) w).getD k 0
      = w.getD k 0 := by
  induction n generalizing w with
  | zero => rfl
  | succ n ih =>
    rw [foldl_reverse_range_succ, ih _ (by omega), getD_set, if_neg (by omega)]

/-- The coefficient of the last column that the backward loop of
`PCOR_get_lsqfit` computes: `lastRow[v][nr-1] / chol[nr-1][nr-1]`. -/
theorem PCOR_get_lsqfit_coef_last (ref : PCOR_references K) (vc : PCOR_voxel_corr K)
    (vox : Nat) (h1 : 1 ≤ vc.nref) :
    PCOR_get_lsqfit_coef ref vc vox (vc.nref.toNat - 1)
      = VCH vc vox (vc.nref - 1) / RCH ref (vc.nref - 1) (vc.nref - 1) := by
  obtain ⟨n, hn⟩ : ∃ n : Nat, vc.nref.toNat = n + 1 := ⟨vc.nref.toNat - 1, by omega⟩
  have hc : ((n : Nat) : Int) = vc.nref - 1 := by omega
  unfold PCOR_get_lsqfit_coef PCOR_get_lsqfit_backsub
  rw [hn, foldl_reverse_range_succ, Nat.add_sub_cancel, backsub_loop_keeps _ _ _ _ _ _ _ le_rfl,
    getD_set, if_pos ⟨rfl, by simp⟩]
  unfold PCOR_get_lsqfit_sum
  rw [Nat.sub_self, List.range'_zero, List.foldl_nil, hc]

end LastColumn

/-- C25: for states of equal `nref ≥ 1` with `chol[nref-1][nref-1] ≠ 0`, when
the last column is requested `PCOR_get_lsqfit` stores in it, for every
voxel, `lastRow[v][nref-1] / chol[nref-1][nref-1]`, the value `PCOR_get_coef`
stores in `coef[v]` (exact arithmetic). -/
theorem PCOR_get_lsqfit_last_eq_coef {K : Type} [LinearOrderedField K] (junk : Nat → K)
    (ref : PCOR_references K) (vc : PCOR_voxel_corr K) (fit : List (Option (List K)))
    (col coef : List K) (hn : vc.nref = ref.nref) (h1 : 1 ≤ vc.nref)
    (_hd : RCH ref (ref.nref - 1) (ref.nref - 1) ≠ 0)
    (hreq : fit.getD (vc.nref.toNat - 1) none = some col) :
    ∃ out col' C, PCOR_get_lsqfit junk ref vc fit = Outcome.returned [] out ∧
      out.getD (vc.nref.toNat - 1) none = some col' ∧
      PCOR_get_coef ref vc coef = Outcome.returned [] C ∧
      ∀ v, v < vc.nvox.toNat → v < col.length → v < coef.length →
        col'.getD v 0 = VCH vc v (vc.nref - 1) / RCH ref (vc.nref - 1) (vc.nref - 1) ∧
        col'.getD v 0 = C.getD v 0 := by
  obtain ⟨out, hout, -, hcols⟩ := PCOR_get_lsqfit_spec junk ref vc fit hn
    ⟨vc.nref.toNat - 1, by omega, by rw [hreq]; rfl⟩
  obtain ⟨col', hcol', -, hval⟩ := (hcols (vc.nref.toNat - 1)).2 col hreq (by omega)
  refine ⟨out, col', _, hout, hcol', PCOR_get_coef_eq ref vc coef hn, ?_⟩
  intro v hv hl hc
  rw [hval v hv hl, PCOR_get_lsqfit_coef_last ref vc v h1, store_loop_getD, if_pos ⟨hv, hc⟩]
  refine ⟨rfl, ?_⟩
  unfold PCOR_get_coef_voxel
  simp only []
  rw [one_div, div_eq_mul_inv, mul_comm]

/-- Instance of C25: two reference vectors, the last column requested, one
voxel with last row `[0, 1, 3]`. -/
theorem PCOR_get_lsqfit_last_eq_coef_witness :
    ∃ out col' C,
      PCOR_get_lsqfit (fun _ => 0) ex_ref (ex_vc (0:ℝ) 1 3) [none, some [7]]
        = Outcome.returned [] out ∧
      out.getD ((ex_vc (0:ℝ) 1 3).nref.toNat - 1) none = some col' ∧
      PCOR_get_coef ex_ref (ex_vc (0:ℝ) 1 3) [8] = Outcome.returned [] C ∧
      ∀ v, v < (ex_vc (0:ℝ) 1 3).nvox.toNat → v < [(7:ℝ)].length → v < [(8:ℝ)].length →
        col'.getD v 0 = VCH (ex_vc (0:ℝ) 1 3) v ((ex_vc (0:ℝ) 1 3).nref - 1)
          / RCH ex_ref ((ex_vc (0:ℝ) 1 3).nref - 1) ((ex_vc (0:ℝ) 1 3).nref - 1) ∧
        col'.getD v 0 = C.getD v 0 :=
  PCOR_get_lsqfit_last_eq_coef (fun _ => 0) ex_ref (ex_vc (0:ℝ) 1 3) [none, some [7]] [7] [8]
    rfl (by decide) (by simp [RCH, rget, ex_ref]) rfl

/-- With a positive residual energy `d` and a denominator `d + s`, `s ≥ 0`,
the value `PCOR_get_mcor` stores lies in `[0, 1)`. -/
theorem mcor_value_range (d s : ℝ) (hd : 0 < d) (hs : 0 ≤ s) :
    0 ≤ (if 1 - d / (d + s) > 0 then Real.sqrt (1 - d / (d + s)) else 0) ∧
    (if 1 - d / (d + s) > 0 then Real.sqrt (1 - d / (d + s)) else 0) < 1 := by
  have hpos : 0 < d + s := by linarith
  have hq : 0 < d / (d + s) := div_pos hd hpos
  split
  · refine ⟨Real.sqrt_nonneg _, ?_⟩
    rw [Real.sqrt_lt' one_pos]
    linarith
  · exact ⟨le_rfl, one_pos⟩

/-- C26 (amended): in exact arithmetic, for `1 ≤ m < nref` and every voxel
whose residual energy `lastRow[v][nref]` is positive, the denominator of
`PCOR_get_mcor` is positive and the value stored satisfies
`0 ≤ mcor[v] < 1`. -/
theorem PCOR_get_mcor_range (ref : PCOR_references ℝ) (vc : PCOR_voxel_corr ℝ) (m : Int)
    (pcor : List ℝ) (hn : vc.nref = ref.nref) (_h1 : 1 ≤ m) (h2 : m < vc.nref) :
    ∃ out, PCOR_get_mcor Real.sqrt ref vc m pcor = Outcome.returned [] out ∧
      ∀ v, v < vc.nvox.toNat → v < pcor.length → 0 < VCH vc v vc.nref →
        0 < PCOR_get_mcor_den vc v m ∧ 0 ≤ out.getD v 0 ∧ out.getD v 0 < 1 := by
  refine ⟨_, PCOR_get_mcor_eq Real.sqrt ref vc m pcor hn h2, ?_⟩
  intro v hv hl hden
  have hsum : 0 ≤ ∑ i ∈ Finset.Icc 1 m.toNat, (VCH vc v (vc.nref - (i : Int))) ^ 2 :=
    Finset.sum_nonneg (fun i _ => sq_nonneg _)
  have hdeq : PCOR_get_mcor_den vc v m
      = VCH vc v vc.nref + ∑ i ∈ Finset.Icc 1 m.toNat, (VCH vc v (vc.nref - (i : Int))) ^ 2 := by
    rw [PCOR_get_mcor_den_eq_loop, PCOR_get_mcor_loop_eq]
  rw [store_loop_getD, if_pos ⟨hv, hl⟩]
  unfold PCOR_get_mcor_voxel
  simp only []
  rw [hdeq]
  exact ⟨by linarith, mcor_value_range _ _ hden hsum⟩

/-- Instance of C26: `m = 1`, one voxel with last row `[0, 1, 3]`. -/
theorem PCOR_get_mcor_range_witness :
    (∃ out, PCOR_get_mcor Real.sqrt ex_ref (ex_vc (0:ℝ) 1 3) 1 [7] = Outcome.returned [] out ∧
      ∀ v, v < (ex_vc (0:ℝ) 1 3).nvox.toNat → v < [(7:ℝ)].length →
        0 < VCH (ex_vc (0:ℝ) 1 3) v (ex_vc (0:ℝ) 1 3).nref →
        0 < PCOR_get_mcor_den (ex_vc (0:ℝ) 1 3) v 1 ∧ 0 ≤ out.getD v 0 ∧ out.getD v 0 < 1) ∧
    0 < VCH (ex_vc (0:ℝ) 1 3) (0:ℕ) (ex_vc (0:ℝ) 1 3).nref :=
  ⟨PCOR_get_mcor_range ex_ref (ex_vc (0:ℝ) 1 3) 1 [7] rfl (by decide) (by decide),
   by simp [VCH, VCHidx, ex_vc]⟩

/-- For `d > 0` the quotient `num / sqrt(d + num²)` is less than `1` in
absolute value. -/
theorem quot_abs_lt_one (num den : ℝ) (hden : 0 < den) :
    |num / Real.sqrt (den + SQR num)| < 1 := by
  unfold SQR
  have hpos : 0 < den + num * num := by nlinarith [mul_self_nonneg num]
  have hs : 0 < Real.sqrt (den + num * num) := Real.sqrt_pos.mpr hpos
  rw [abs_div, abs_of_pos hs, div_lt_one hs, ← Real.sqrt_sq_eq_abs]
  exact Real.sqrt_lt_sqrt (sq_nonneg _) (by nlinarith)

/-- C27 (amended): in exact arithmetic, for `pcthresh > 1` the factor
`thfac = pcthresh²/(1 - pcthresh²)` is negative, so at every voxel with
`lastRow[v][nref] > 0` the test `num² > thfac·den` succeeds and
`PCOR_get_pcor_and_coef` stores the same `(pcor, coef)` as without a
threshold, `num / sqrt(den + num²)` and `scale·num`, although
`|pcor| < 1 < pcthresh`. -/
theorem PCOR_get_pcor_and_coef_above_one (ref : PCOR_references ℝ)
    (vc : PCOR_voxel_corr ℝ) (p : ℝ) (pcor coef : List ℝ)
    (hn : vc.nref = ref.nref) (hp : 1 < p) :
    SQR p / (1 - SQR p) < 0 ∧
    ∃ P C P0 C0,
      PCOR_get_pcor_and_coef Real.sqrt ref vc p pcor coef = Outcome.returned [] (P, C) ∧
      PCOR_get_pcor_and_coef Real.sqrt ref vc 0 pcor coef = Outcome.returned [] (P0, C0) ∧
      ∀ v, v < vc.nvox.toNat → v < pcor.length → v < coef.length → 0 < VCH vc v vc.nref →
        SQR (VCH vc v (vc.nref - 1)) > SQR p / (1 - SQR p) * VCH vc v vc.nref ∧
        P.getD v 0 = VCH vc v (vc.nref - 1) /
          Real.sqrt (VCH vc v vc.nref + SQR (VCH vc v (vc.nref - 1))) ∧
        C.getD v 0 = 1 / RCH ref (vc.nref - 1) (vc.nref - 1) * VCH vc v (vc.nref - 1) ∧
        P.getD v 0 = P0.getD v 0 ∧ C.getD v 0 = C0.getD v 0 ∧
        |P.getD v 0| < p := by
  have hth : SQR p / (1 - SQR p) < 0 := by
    unfold SQR
    exact div_neg_of_pos_of_neg (by nlinarith) (by nlinarith)
  refine ⟨hth, _, _, _, _, PCOR_get_pcor_and_coef_eq Real.sqrt ref vc p pcor coef hn,
    PCOR_get_pcor_and_coef_eq Real.sqrt ref vc 0 pcor coef hn, ?_⟩
  intro v hv hl hc hden
  have htest : SQR (VCH vc v (vc.nref - 1)) > SQR p / (1 - SQR p) * VCH vc v vc.nref := by
    have h1 : SQR p / (1 - SQR p) * VCH vc v vc.nref < 0 := mul_neg_of_neg_of_pos hth hden
    have h2 : 0 ≤ SQR (VCH vc v (vc.nref - 1)) := mul_self_nonneg _
    exact lt_of_lt_of_le h1 h2
  have hvp : PCOR_get_pcor_and_coef_voxel Real.sqrt ref vc p v
      = (VCH vc v (vc.nref - 1) / Real.sqrt (VCH vc v vc.nref + SQR (VCH vc v (vc.nref - 1))),
         1 / RCH ref (vc.nref - 1) (vc.nref - 1) * VCH vc v (vc.nref - 1)) := by
    unfold PCOR_get_pcor_and_coef_voxel
    simp only []
    rw [if_neg (by linarith), if_pos htest]
  have hv0 : PCOR_get_pcor_and_coef_voxel Real.sqrt ref vc 0 v
      = (VCH vc v (vc.nref - 1) / Real.sqrt (VCH vc v vc.nref + SQR (VCH vc v (vc.nref - 1))),
         1 / RCH ref (vc.nref - 1) (vc.nref - 1) * VCH vc v (vc.nref - 1)) := by
    unfold PCOR_get_pcor_and_coef_voxel
    simp only []
    rw [if_pos le_rfl]
  simp only [store_loop_getD, hv, hl, hc, and_self, if_true, hvp, hv0]
  exact ⟨htest, trivial, trivial, trivial, trivial, lt_trans (quot_abs_lt_one _ _ hden) hp⟩

/-- Instance of C27: `pcthresh = 2`, one voxel with last row `[0, 1, 3]`,
which is stored with `pcor = 1/2`. -/
theorem PCOR_get_pcor_and_coef_above_one_witness :
    (SQR (2:ℝ) / (1 - SQR 2) < 0 ∧
    ∃ P C P0 C0,
      PCOR_get_pcor_and_coef Real.sqrt ex_ref (ex_vc (0:ℝ) 1 3) 2 [7] [8]
        = Outcome.returned [] (P, C) ∧
      PCOR_get_pcor_and_coef Real.sqrt ex_ref (ex_vc (0:ℝ) 1 3) 0 [7] [8]
        = Outcome.returned [] (P0, C0) ∧
      ∀ v, v < (ex_vc (0:ℝ) 1 3).nvox.toNat → v < [(7:ℝ)].length → v < [(8:ℝ)].length →
        0 < VCH (ex_vc (0:ℝ) 1 3) v (ex_vc (0:ℝ) 1 3).nref →
        SQR (VCH (ex_vc (0:ℝ) 1 3) v ((ex_vc (0:ℝ) 1 3).nref - 1))
          > SQR 2 / (1 - SQR 2) * VCH (ex_vc (0:ℝ) 1 3) v (ex_vc (0:ℝ) 1 3).nref ∧
        P.getD v 0 = VCH (ex_vc (0:ℝ) 1 3) v ((ex_vc (0:ℝ) 1 3).nref - 1) /
          Real.sqrt (VCH (ex_vc (0:ℝ) 1 3) v (ex_vc (0:ℝ) 1 3).nref
            + SQR (VCH (ex_vc (0:ℝ) 1 3) v ((ex_vc (0:ℝ) 1 3).nref - 1))) ∧
        C.getD v 0 = 1 / RCH ex_ref ((ex_vc (0:ℝ) 1 3).nref - 1) ((ex_vc (0:ℝ) 1 3).nref - 1)
          * VCH (ex_vc (0:ℝ) 1 3) v ((ex_vc (0:ℝ) 1 3).nref - 1) ∧
        P.getD v 0 = P0.getD v 0 ∧ C.getD v 0 = C0.getD v 0 ∧
        |P.getD v 0| < 2) ∧
    0 < VCH (ex_vc (0:ℝ) 1 3) (0:ℕ) (ex_vc (0:ℝ) 1 3).nref :=
  ⟨PCOR_get_pcor_and_coef_above_one ex_ref (ex_vc (0:ℝ) 1 3) 2 [7] [8] rfl (by norm_num),
   by simp [VCH, VCHidx, ex_vc]⟩

/-- Each character falls in one of four classes: a letter of `{R,L}` (codes
`0`, `1`), of `{A,P}` (codes `2`, `3`), of `{I,S}` (codes `4`, `5`), or any
other character (`ILLEGAL_TYPE`). -/
theorem ORCODE_class (ill : Int) (hill : ill < 0) (c : Char) :
    (letter_of_pair 'R' 'L' c ∧ ¬ letter_of_pair 'A' 'P' c ∧ ¬ letter_of_pair 'I' 'S' c ∧
      ¬ ORCODE ill c.toUpper < 0 ∧ Int.land (ORCODE ill c.toUpper) 6 = 0) ∨
    (¬ letter_of_pair 'R' 'L' c ∧ letter_of_pair 'A' 'P' c ∧ ¬ letter_of_pair 'I' 'S' c ∧
      ¬ ORCODE ill c.toUpper < 0 ∧ Int.land (ORCODE ill c.toUpper) 6 = 2) ∨
    (¬ letter_of_pair 'R' 'L' c ∧ ¬ letter_of_pair 'A' 'P' c ∧ letter_of_pair 'I' 'S' c ∧
      ¬ ORCODE ill c.toUpper < 0 ∧ Int.land (ORCODE ill c.toUpper) 6 = 4) ∨
    (¬ letter_of_pair 'R' 'L' c ∧ ¬ letter_of_pair 'A' 'P' c ∧ ¬ letter_of_pair 'I' 'S' c ∧
      ORCODE ill c.toUpper < 0) := by
  unfold letter_of_pair
  generalize c.toUpper = u
  by_cases hR : u = 'R'
  · subst hR; left
    rw [show ORCODE ill 'R' = 0 from rfl]; decide
  by_cases hL : u = 'L'
  · subst hL; left
    rw [show ORCODE ill 'L' = 1 from rfl]; decide
  by_cases hP : u = 'P'
  · subst hP; right; left
    rw [show ORCODE ill 'P' = 2 from rfl]; decide
  by_cases hA : u = 'A'
  · subst hA; right; left
    rw [show ORCODE ill 'A' = 3 from rfl]; decide
  by_cases hI : u = 'I'
  · subst hI; right; right; left
    rw [show ORCODE ill 'I' = 4 from rfl]; decide
  by_cases hS : u = 'S'
  · subst hS; right; right; left
    rw [show ORCODE ill 'S' = 5 from rfl]; decide
  right; right; right
  simp only [ORCODE, hR, hL, hP, hA, hI, hS, if_false, or_self, not_false_eq_true, true_and]
  exact hill

/-- The test of the `-orient` block on three characters, in terms of the
classes of the characters: it passes when the three are one letter of each
pair, and also when all three are letters of `{A,P}`. -/
theorem orient_test_iff (ill : Int) (hill : ill < 0) (c0 c1 c2 : Char) :
    ¬ (ORCODE ill c0.toUpper < 0 ∨ ORCODE ill c1.toUpper < 0 ∨ ORCODE ill c2.toUpper < 0 ∨
        OR3OK (ORCODE ill c0.toUpper) (ORCODE ill c1.toUpper) (ORCODE ill c2.toUpper) = false)
    ↔ (one_from_each_pair [c0, c1, c2] ∨ three_from_AP [c0, c1, c2]) := by
  have h1 : one_from_each_pair [c0, c1, c2] ↔
      (letter_of_pair 'R' 'L' c0 ∨ letter_of_pair 'R' 'L' c1 ∨ letter_of_pair 'R' 'L' c2) ∧
      (letter_of_pair 'A' 'P' c0 ∨ letter_of_pair 'A' 'P' c1 ∨ letter_of_pair 'A' 'P' c2) ∧
      (letter_of_pair 'I' 'S' c0 ∨ letter_of_pair 'I' 'S' c1 ∨ letter_of_pair 'I' 'S' c2) := by
    simp [one_from_each_pair]
  have h2 : three_from_AP [c0, c1, c2] ↔
      letter_of_pair 'A' 'P' c0 ∧ letter_of_pair 'A' 'P' c1 ∧ letter_of_pair 'A' 'P' c2 := by
    simp [three_from_AP]
  rw [h1, h2]
  unfold OR3OK
  rcases ORCODE_class ill hill c0 with ⟨a0, b0, d0, e0, f0⟩ | ⟨a0, b0, d0, e0, f0⟩ |
      ⟨a0, b0, d0, e0, f0⟩ | ⟨a0, b0, d0, e0⟩ <;>
    rcases ORCODE_class ill hill c1 with ⟨a1, b1, d1, e1, f1⟩ | ⟨a1, b1, d1, e1, f1⟩ |
      ⟨a1, b1, d1, e1, f1⟩ | ⟨a1, b1, d1, e1⟩ <;>
    rcases ORCODE_class ill hill c2 with ⟨a2, b2, d2, e2, f2⟩ | ⟨a2, b2, d2, e2, f2⟩ |
      ⟨a2, b2, d2, e2, f2⟩ | ⟨a2, b2, d2, e2⟩ <;>
    simp [*]

/-- The `-orient` block on an argument whose copy has three characters. -/
theorem orient_option_three (MCW_strncpy : List Char → Nat → List Char) (ill : Int)
    (a : List Char) (c0 c1 c2 : Char) (h : MCW_strncpy a 4 = [c0, c1, c2]) :
    orient_option MCW_strncpy ill (some a)
      = if ORCODE ill c0.toUpper < 0 ∨ ORCODE ill c1.toUpper < 0 ∨ ORCODE ill c2.toUpper < 0 ∨
          OR3OK (ORCODE ill c0.toUpper) (ORCODE ill c1.toUpper) (ORCODE ill c2.toUpper) = false
        then Orient_result.fatal_error "Unusable -orient code!"
        else Orient_result.new_orient (ORCODE ill c0.toUpper) (ORCODE ill c1.toUpper)
          (ORCODE ill c2.toUpper) := by
  simp [orient_option, h]

/-- A list of three elements. -/
theorem list_length_three {α : Type} (l : List α) (h : l.length = 3) :
    ∃ a b c, l = [a, b, c] := by
  match l, h with
  | [a, b, c], _ => exact ⟨a, b, c, rfl⟩

/-- C21: what the `-orient` block of `3drefit` does with its argument, for
any negative `ILLEGAL_TYPE`: the code is accepted exactly when the copy in
`orient_code` is three letters with one from each of the pairs `{R,L}`,
`{A,P}`, `{I,S}`, or three letters that are all from `{A,P}`; a copy
whose length is not `3` is refused with `Illegal -orient code`, every other
one with `Unusable -orient code!`. -/
theorem orient_option_accepts_iff (MCW_strncpy : List Char → Nat → List Char)
    (ILLEGAL_TYPE : Int) (hill : ILLEGAL_TYPE < 0) (a : List Char) :
    ((∃ x y z, orient_option MCW_strncpy ILLEGAL_TYPE (some a)
        = Orient_result.new_orient x y z) ↔
      (one_from_each_pair (MCW_strncpy a 4) ∨ three_from_AP (MCW_strncpy a 4))) ∧
    ((MCW_strncpy a 4).length ≠ 3 →
      orient_option MCW_strncpy ILLEGAL_TYPE (some a)
        = Orient_result.fatal_error "Illegal -orient code") ∧
    ((MCW_strncpy a 4).length = 3 →
      ¬ (one_from_each_pair (MCW_strncpy a 4) ∨ three_from_AP (MCW_strncpy a 4)) →
      orient_option MCW_strncpy ILLEGAL_TYPE (some a)
        = Orient_result.fatal_error "Unusable -orient code!") := by
  by_cases hlen : (MCW_strncpy a 4).length = 3
  · obtain ⟨c0, c1, c2, hc⟩ := list_length_three _ hlen
    have ht := orient_test_iff ILLEGAL_TYPE hill c0 c1 c2
    rw [hc, orient_option_three MCW_strncpy ILLEGAL_TYPE a c0 c1 c2 hc, ← ht]
    refine ⟨?_, fun h => absurd rfl h, ?_⟩
    · constructor
      · rintro ⟨x, y, z, h⟩ hbad
        rw [if_pos hbad] at h
        exact Orient_result.noConfusion h
      · intro hgood
        rw [if_neg hgood]
        exact ⟨_, _, _, rfl⟩
    · intro _ hbad
      rw [if_pos (not_not.mp hbad)]
  · have hill3 : orient_option MCW_strncpy ILLEGAL_TYPE (some a)
        = Orient_result.fatal_error "Illegal -orient code" := by
      simp [orient_option, hlen]
    refine ⟨?_, fun _ => hill3, fun h => absurd h hlen⟩
    rw [hill3]
    constructor
    · rintro ⟨x, y, z, h⟩
      exact Orient_result.noConfusion h
    · rintro (h | h)
      · exact absurd h.1 hlen
      · exact absurd h.1 hlen

/-- Instance of C21 with `ILLEGAL_TYPE = -666` and a copy of at most three
characters, at the code `rai`, which is accepted with the codes `0, 3, 4`. -/
theorem orient_option_accepts_iff_witness :
    (((∃ x y z, orient_option copy_at_most (-666) (some ['r', 'a', 'i'])
        = Orient_result.new_orient x y z) ↔
      (one_from_each_pair (copy_at_most ['r', 'a', 'i'] 4) ∨
        three_from_AP (copy_at_most ['r', 'a', 'i'] 4))) ∧
    ((copy_at_most ['r', 'a', 'i'] 4).length ≠ 3 →
      orient_option copy_at_most (-666) (some ['r', 'a', 'i'])
        = Orient_result.fatal_error "Illegal -orient code") ∧
    ((copy_at_most ['r', 'a', 'i'] 4).length = 3 →
      ¬ (one_from_each_pair (copy_at_most ['r', 'a', 'i'] 4) ∨
        three_from_AP (copy_at_most ['r', 'a', 'i'] 4)) →
      orient_option copy_at_most (-666) (some ['r', 'a', 'i'])
        = Orient_result.fatal_error "Unusable -orient code!")) ∧
    orient_option copy_at_most (-666) (some ['r', 'a', 'i']) = Orient_result.new_orient 0 3 4 ∧
    orient_option copy_at_most (-666) (some ['R', 'A'])
      = Orient_result.fatal_error "Illegal -orient code" ∧
    orient_option copy_at_most (-666) (some ['R', 'A', 'X'])
      = Orient_result.fatal_error "Unusable -orient code!" :=
  ⟨orient_option_accepts_iff copy_at_most (-666) (by decide) ['r', 'a', 'i'],
   by decide, by decide, by decide⟩

/-- C21 (failing input): the code `AAA` takes all its letters from the pair
`{A,P}`, so it is not one letter from each pair, and the `-orient` block
accepts it, with the three codes `3, 3, 3`: `(3&6)+(3&6)+(3&6) = 6`. -/
theorem orient_option_accepts_AAA :
    copy_at_most ['A', 'A', 'A'] 4 = ['A', 'A', 'A'] ∧
    ¬ one_from_each_pair ['A', 'A', 'A'] ∧
    Int.land 3 6 + Int.land 3 6 + Int.land 3 6 = 6 ∧
    orient_option copy_at_most (-666) (some ['A', 'A', 'A']) = Orient_result.new_orient 3 3 3 := by
  decide

/-- A loop whose every step succeeds with the value of the unchecked step
succeeds with the value of the unchecked loop. -/
theorem foldlM_eq_some_foldl {σ ι : Type} (f : σ → ι → σ) (g : σ → ι → Option σ)
    (l : List ι) (s : σ) (h : ∀ s i, i ∈ l → g s i = some (f s i)) :
    l.foldlM g s = some (l.foldl f s) := by
  induction l generalizing s with
  | nil => rfl
  | cons a l ih =>
    rw [List.foldlM_cons, h s a (List.mem_cons_self a l), List.foldl_cons]
    exact ih _ (fun s i hi => h s i (List.mem_cons_of_mem a hi))

section CheckedLemmas

variable {K : Type} [LinearOrderedField K]

/-- A checked read of `chol` within `0 ≤ jj ≤ ii < nref` succeeds on a shaped
state, with the value of `RCH`. -/
theorem RCH_checked_eq (ref : PCOR_references K) (hs : ref.shaped) (ii jj : Int)
    (h : 0 ≤ jj ∧ jj ≤ ii ∧ ii < ref.nref) :
    RCH_checked ref ii jj = some (RCH ref ii jj) := by
  obtain ⟨-, h2, h3, -, -, -⟩ := hs
  have hi : ii.toNat < ref.chol.length := by omega
  have hrow := h3 ii.toNat (by omega)
  unfold RCH_checked RCH rget
  rw [if_pos h, if_pos ⟨by omega, h.1⟩, List.getElem?_eq_getElem hi, Option.some_bind]
  have hg : ref.chol.getD ii.toNat [] = ref.chol[ii.toNat] := by
    rw [List.getD_eq_getElem?_getD, List.getElem?_eq_getElem hi]; rfl
  rw [hg] at hrow ⊢
  have hj : jj.toNat < (ref.chol[ii.toNat]).length := by omega
  rw [List.getElem?_eq_getElem hj, List.getD_eq_getElem?_getD, List.getElem?_eq_getElem hj]
  rfl

/-- A checked read of `lastRow` within `0 ≤ iv < nvox`, `0 ≤ jj ≤ nref`,
`lo ≤ jj` succeeds on a shaped state, with the value of `VCH`. -/
theorem VCH_checked_eq (vc : PCOR_voxel_corr K) (hs : vc.shaped) (lo iv jj : Int)
    (h : 0 ≤ iv ∧ iv < vc.nvox ∧ 0 ≤ jj ∧ lo ≤ jj ∧ jj ≤ vc.nref) :
    VCH_checked vc lo iv jj = some (VCH vc iv jj) := by
  obtain ⟨h0, hlen⟩ := hs
  obtain ⟨hv0, hv1, hj0, hj1, hj2⟩ := h
  have hidx0 : 0 ≤ VCHidx vc iv jj := by
    unfold VCHidx
    have : 0 ≤ iv * (vc.nref + 1) := mul_nonneg hv0 (by omega)
    omega
  have hidx1 : VCHidx vc iv jj < vc.nvox * (vc.nref + 1) := by
    unfold VCHidx
    have : (iv + 1) * (vc.nref + 1) ≤ vc.nvox * (vc.nref + 1) :=
      mul_le_mul_of_nonneg_right (by omega) (by omega)
    nlinarith
  have hi : (VCHidx vc iv jj).toNat < vc.chrow.length := by
    rw [hlen]
    have e : ((vc.nvox.toNat * (vc.nref.toNat + 1) : Nat) : Int) = vc.nvox * (vc.nref + 1) := by
      push_cast
      rw [Int.toNat_of_nonneg (by omega), Int.toNat_of_nonneg h0]
    omega
  unfold VCH_checked VCH
  rw [if_pos ⟨hv0, hv1, hj0, hj1, hj2⟩, if_pos hidx0, List.getElem?_eq_getElem hi,
    List.getD_eq_getElem?_getD, List.getElem?_eq_getElem hi]
  rfl

/-- The checked body of the voxel loop of `PCOR_get_pcor` succeeds. -/
theorem PCOR_get_pcor_voxel_checked_eq (sqrt : K → K) (vc : PCOR_voxel_corr K) (hs : vc.shaped)
    (h1 : 1 ≤ vc.nref) (vox : Nat) (hv : vox < vc.nvox.toNat) :
    PCOR_get_pcor_voxel_checked sqrt vc vox = some (PCOR_get_pcor_voxel sqrt vc vox) := by
  unfold PCOR_get_pcor_voxel_checked PCOR_get_pcor_voxel
  simp only []
  rw [VCH_checked_eq vc hs 0 vox vc.nref ⟨by omega, by omega, by omega, by omega, le_rfl⟩,
    Option.some_bind]
  split
  · rw [VCH_checked_eq vc hs 0 vox (vc.nref - 1) ⟨by omega, by omega, by omega, by omega, by omega⟩]
    rfl
  · rfl

/-- The function `PCOR_get_pcor` never reads out of range on shaped states. -/
theorem PCOR_get_pcor_checked_eq (sqrt : K → K) (ref : PCOR_references K)
    (vc : PCOR_voxel_corr K) (hs : vc.shaped) (h1 : 1 ≤ vc.nref) (pcor : List K) :
    PCOR_get_pcor_checked sqrt ref vc pcor = some (PCOR_get_pcor sqrt ref vc pcor) := by
  unfold PCOR_get_pcor_checked PCOR_get_pcor
  split
  · rfl
  · rw [foldlM_eq_some_foldl (fun out vox => out.set vox (PCOR_get_pcor_voxel sqrt vc vox))]
    · rfl
    · intro s i hi
      rw [PCOR_get_pcor_voxel_checked_eq sqrt vc hs h1 i (List.mem_range.mp hi)]
      rfl

/-- The checked generic loop of `PCOR_get_mcor` succeeds for `m < nref`. -/
theorem PCOR_get_mcor_loop_checked_eq (vc : PCOR_voxel_corr K) (hs : vc.shaped) (vox : Nat)
    (hv : vox < vc.nvox.toNat) (m : Int) (hm : m < vc.nref) (den : K) :
    PCOR_get_mcor_loop_checked vc (vc.nref - max m 0) vox m den
      = some (PCOR_get_mcor_loop vc vox m den) := by
  unfold PCOR_get_mcor_loop_checked PCOR_get_mcor_loop
  apply foldlM_eq_some_foldl
  intro s i hi
  rw [List.mem_range'_1] at hi
  rw [VCH_checked_eq vc hs _ vox (vc.nref - (i : Int))
    ⟨by omega, by omega, by omega, by omega, by omega⟩]
  rfl

/-- The checked `switch(m)` of `PCOR_get_mcor` succeeds for `m < nref`. -/
theorem PCOR_get_mcor_den_checked_eq (vc : PCOR_voxel_corr K) (hs : vc.shaped) (vox : Nat)
    (hv : vox < vc.nvox.toNat) (m : Int) (hm : m < vc.nref) :
    PCOR_get_mcor_den_checked vc vox m = some (PCOR_get_mcor_den vc vox m) := by
  have h0 := hs.1
  unfold PCOR_get_mcor_den_checked PCOR_get_mcor_den
  simp only []
  rw [VCH_checked_eq vc hs _ vox vc.nref ⟨by omega, by omega, by omega, by omega, le_rfl⟩,
    Option.some_bind]
  by_cases m1 : m = 1
  · subst m1
    rw [if_pos rfl, if_pos rfl, VCH_checked_eq vc hs _ vox (vc.nref - 1)
      ⟨by omega, by omega, by omega, by omega, by omega⟩]
    rfl
  rw [if_neg m1, if_neg m1]
  by_cases m2 : m = 2
  · subst m2
    rw [if_pos rfl, if_pos rfl, VCH_checked_eq vc hs _ vox (vc.nref - 1)
      ⟨by omega, by omega, by omega, by omega, by omega⟩,
      VCH_checked_eq vc hs _ vox (vc.nref - 2)
      ⟨by omega, by omega, by omega, by omega, by omega⟩]
    rfl
  rw [if_neg m2, if_neg m2]
  by_cases m3 : m = 3
  · subst m3
    rw [if_pos rfl, if_pos rfl, VCH_checked_eq vc hs _ vox (vc.nref - 1)
      ⟨by omega, by omega, by omega, by omega, by omega⟩,
      VCH_checked_eq vc hs _ vox (vc.nref - 2)
      ⟨by omega, by omega, by omega, by omega, by omega⟩,
      VCH_checked_eq vc hs _ vox (vc.nref - 3)
      ⟨by omega, by omega, by omega, by omega, by omega⟩]
    rfl
  rw [if_neg m3, if_neg m3]
  by_cases m4 : m = 4
  · subst m4
    rw [if_pos rfl, if_pos rfl, VCH_checked_eq vc hs _ vox (vc.nref - 1)
      ⟨by omega, by omega, by omega, by omega, by omega⟩,
      VCH_checked_eq vc hs _ vox (vc.nref - 2)
      ⟨by omega, by omega, by omega, by omega, by omega⟩,
      VCH_checked_eq vc hs _ vox (vc.nref - 3)
      ⟨by omega, by omega, by omega, by omega, by omega⟩,
      VCH_checked_eq vc hs _ vox (vc.nref - 4)
      ⟨by omega, by omega, by omega, by omega, by omega⟩]
    rfl
  rw [if_neg m4, if_neg m4]
  exact PCOR_get_mcor_loop_checked_eq vc hs vox hv m hm _

/-- The function `PCOR_get_mcor` never reads out of range on shaped states,
and for `m < nref` never reads an entry of `lastRow` below `nref - max m 0`. -/
theorem PCOR_get_mcor_checked_eq (sqrt : K → K) (ref : PCOR_references K)
    (vc : PCOR_voxel_corr K) (hs : vc.shaped) (m : Int) (pcor : List K) :
    PCOR_get_mcor_checked sqrt ref vc m pcor = some (PCOR_get_mcor sqrt ref vc m pcor) := by
  have h0 := hs.1
  unfold PCOR_get_mcor_checked PCOR_get_mcor
  split
  · rfl
  split
  · rfl
  · rename_i hm
    rw [foldlM_eq_some_foldl (fun out vox => out.set vox (PCOR_get_mcor_voxel sqrt vc m vox))]
    · rfl
    · intro s i hi
      have hv := List.mem_range.mp hi
      unfold PCOR_get_mcor_voxel_checked PCOR_get_mcor_voxel
      rw [PCOR_get_mcor_den_checked_eq vc hs i hv m (by omega), Option.some_bind,
        VCH_checked_eq vc hs _ i vc.nref ⟨by omega, by omega, by omega, by omega, le_rfl⟩]
      rfl

/-- The function `PCOR_get_coef` never reads out of range on shaped states. -/
theorem PCOR_get_coef_checked_eq (ref : PCOR_references K) (vc : PCOR_voxel_corr K)
    (hr : ref.shaped) (hs : vc.shaped) (coef : List K) :
    PCOR_get_coef_checked ref vc coef = some (PCOR_get_coef ref vc coef) := by
  unfold PCOR_get_coef_checked PCOR_get_coef
  split
  · rfl
  · rename_i hn
    have hn2 : vc.nref = ref.nref := not_not.mp hn
    have h1 : 1 ≤ vc.nref := hn2 ▸ hr.1
    simp only []
    rw [RCH_checked_eq ref hr _ _ ⟨by omega, le_rfl, by omega⟩, Option.some_bind,
      foldlM_eq_some_foldl (fun out vox => out.set vox (PCOR_get_coef_voxel ref vc vox))]
    · rfl
    · intro s i hi
      have hv := List.mem_range.mp hi
      rw [VCH_checked_eq vc hs 0 i (vc.nref - 1) ⟨by omega, by omega, by omega, by omega, by omega⟩]
      rfl

/-- The function `PCOR_get_variance` never reads out of range on shaped states. -/
theorem PCOR_get_variance_checked_eq (vc : PCOR_voxel_corr K) (hs : vc.shaped) (var : List K) :
    PCOR_get_variance_checked vc var = some (PCOR_get_variance vc var) := by
  have h0 := hs.1
  unfold PCOR_get_variance_checked PCOR_get_variance
  simp only []
  split
  · rfl
  · rw [foldlM_eq_some_foldl (fun out vox =>
      out.set vox (1 / ((vc.nupdate - vc.nref : Int) : K) * VCH vc vox vc.nref))]
    · rfl
    · intro s i hi
      have hv := List.mem_range.mp hi
      rw [VCH_checked_eq vc hs 0 i vc.nref ⟨by omega, by omega, by omega, by omega, le_rfl⟩]
      rfl

/-- The checked inner loop of `PCOR_get_lsqfit` succeeds. -/
theorem PCOR_get_lsqfit_sum_checked_eq (ref : PCOR_references K) (hr : ref.shaped)
    (ff : List K) (nr jj : Nat) (hnr : nr = ref.nref.toNat) (sum : K) :
    PCOR_get_lsqfit_sum_checked ref ff nr jj sum = some (PCOR_get_lsqfit_sum ref ff nr jj sum) := by
  have h1 := hr.1
  unfold PCOR_get_lsqfit_sum_checked PCOR_get_lsqfit_sum
  apply foldlM_eq_some_foldl
  intro s i hi
  rw [List.mem_range'_1] at hi
  rw [RCH_checked_eq ref hr _ _ ⟨by omega, by omega, by omega⟩]
  rfl

/-- The checked backward loop of `PCOR_get_lsqfit` succeeds. -/
theorem PCOR_get_lsqfit_backsub_checked_eq (ref : PCOR_references K) (vc : PCOR_voxel_corr K)
    (hr : ref.shaped) (hs : vc.shaped) (hn : vc.nref = ref.nref) (vox : Nat)
    (hv : vox < vc.nvox.toNat) (ff : List K) :
    PCOR_get_lsqfit_backsub_checked ref vc vox vc.nref.toNat ff
      = some (PCOR_get_lsqfit_backsub ref vc vox vc.nref.toNat ff) := by
  have h1 := hr.1
  unfold PCOR_get_lsqfit_backsub_checked PCOR_get_lsqfit_backsub
  apply foldlM_eq_some_foldl
  intro s i hi
  rw [List.mem_reverse, List.mem_range] at hi
  rw [VCH_checked_eq vc hs 0 vox i ⟨by omega, by omega, by omega, by omega, by omega⟩,
    Option.some_bind, PCOR_get_lsqfit_sum_checked_eq ref hr s _ i (by rw [hn]), Option.some_bind,
    RCH_checked_eq ref hr _ _ ⟨by omega, le_rfl, by omega⟩]
  rfl

/-- The function `PCOR_get_lsqfit` never reads out of range on shaped states. -/
theorem PCOR_get_lsqfit_checked_eq (junk : Nat → K) (ref : PCOR_references K)
    (vc : PCOR_voxel_corr K) (hr : ref.shaped) (hs : vc.shaped)
    (fit : List (Option (List K))) :
    PCOR_get_lsqfit_checked junk ref vc fit = some (PCOR_get_lsqfit junk ref vc fit) := by
  unfold PCOR_get_lsqfit_checked PCOR_get_lsqfit
  split
  · rfl
  · rename_i hn
    have hn2 : vc.nref = ref.nref := not_not.mp hn
    simp only []
    split
    · rfl
    · unfold PCOR_get_lsqfit_loop
      rw [foldlM_eq_some_foldl (PCOR_get_lsqfit_voxel ref vc vc.nref.toNat)]
      · rfl
      · intro s i hi
        have hv := List.mem_range.mp hi
        unfold PCOR_get_lsqfit_voxel_checked PCOR_get_lsqfit_voxel
        rw [PCOR_get_lsqfit_backsub_checked_eq ref vc hr hs hn2 i hv]
        rfl

/-- The function `PCOR_get_pcor_and_coef` never reads out of range on shaped
states. -/
theorem PCOR_get_pcor_and_coef_checked_eq (sqrt : K → K) (ref : PCOR_references K)
    (vc : PCOR_voxel_corr K) (hr : ref.shaped) (hs : vc.shaped) (pcthresh : K)
    (pcor coef : List K) :
    PCOR_get_pcor_and_coef_checked sqrt ref vc pcthresh pcor coef
      = some (PCOR_get_pcor_and_coef sqrt ref vc pcthresh pcor coef) := by
  unfold PCOR_get_pcor_and_coef_checked PCOR_get_pcor_and_coef
  split
  · rfl
  · rename_i hn
    have hn2 : vc.nref = ref.nref := not_not.mp hn
    have h1 : 1 ≤ vc.nref := hn2 ▸ hr.1
    simp only []
    rw [RCH_checked_eq ref hr _ _ ⟨by omega, le_rfl, by omega⟩, Option.some_bind,
      foldlM_eq_some_foldl (fun (o : List K × List K) vox =>
        (o.1.set vox (PCOR_get_pcor_and_coef_voxel sqrt ref vc pcthresh vox).1,
         o.2.set vox (PCOR_get_pcor_and_coef_voxel sqrt ref vc pcthresh vox).2))]
    · rfl
    · intro s i hi
      have hv := List.mem_range.mp hi
      unfold PCOR_get_pcor_and_coef_voxel_checked PCOR_get_pcor_and_coef_voxel
      simp only []
      rw [VCH_checked_eq vc hs 0 i vc.nref ⟨by omega, by omega, by omega, by omega, le_rfl⟩,
        Option.some_bind,
        VCH_checked_eq vc hs 0 i (vc.nref - 1) ⟨by omega, by omega, by omega, by omega, by omega⟩]
      rfl

end CheckedLemmas

/-- C28: index safety of the extraction routines.  For a reference state
returned by `new_PCOR_references(numref)` and a voxel state returned by
`new_PCOR_voxel_corr(numvox, numref)` (so `numref ≥ 1`, `numvox ≥ 1`, equal
`nref`), every routine run with checked reads never meets an index out of
range and gives the result of the unchecked routine: `chol[k][j]` is read
only with `0 ≤ j ≤ k < nref`, `lastRow[v][i]` only with `0 ≤ v < nvox` and
`0 ≤ i ≤ nref`, and `PCOR_get_mcor`, for any `m < nref`, only with
`nref - max m 0 ≤ i ≤ nref`. -/
theorem extraction_index_safety {K : Type} [LinearOrderedField K] (sqrt : K → K) (REF_EPS : K)
    (junk1 junk2 junk3 : Nat → K) (numvox numref : Int) (ref : PCOR_references K)
    (vc : PCOR_voxel_corr K) (href : new_PCOR_references REF_EPS junk1 numref = some ref)
    (hvc : new_PCOR_voxel_corr REF_EPS junk2 numvox numref = some vc)
    (m : Int) (hm : m < numref) (pcthresh : K) (pcor coef var : List K)
    (fit : List (Option (List K))) :
    1 ≤ numref ∧ 1 ≤ numvox ∧ ref.nref = numref ∧ vc.nref = numref ∧ vc.nvox = numvox ∧
    PCOR_get_pcor_checked sqrt ref vc pcor = some (PCOR_get_pcor sqrt ref vc pcor) ∧
    PCOR_get_mcor_checked sqrt ref vc m pcor = some (PCOR_get_mcor sqrt ref vc m pcor) ∧
    (∃ out, PCOR_get_mcor sqrt ref vc m pcor = Outcome.returned [] out) ∧
    PCOR_get_coef_checked ref vc coef = some (PCOR_get_coef ref vc coef) ∧
    PCOR_get_variance_checked vc var = some (PCOR_get_variance vc var) ∧
    PCOR_get_lsqfit_checked junk3 ref vc fit = some (PCOR_get_lsqfit junk3 ref vc fit) ∧
    PCOR_get_pcor_and_coef_checked sqrt ref vc pcthresh pcor coef
      = some (PCOR_get_pcor_and_coef sqrt ref vc pcthresh pcor coef) := by
  have h1 : 1 ≤ numref := by
    by_contra hlt
    simp [new_PCOR_references, not_le.mp hlt] at href
  have h2 : 1 ≤ numvox := by
    by_contra hlt
    simp [new_PCOR_voxel_corr, not_le.mp hlt] at hvc
  obtain ⟨r, hr, hrs, hrn, -, -⟩ := new_PCOR_references_spec REF_EPS junk1 numref h1
  have hrr : r = ref := Option.some.inj (hr.symm.trans href)
  subst hrr
  obtain ⟨n, hn⟩ : ∃ n : Nat, numref = (n : Int) := ⟨numref.toNat, by omega⟩
  subst hn
  obtain ⟨v, hv, hvv, hvn, -, hvl, -⟩ := new_PCOR_voxel_corr_spec REF_EPS junk2 numvox n h2
  have hvr : v = vc := Option.some.inj (hv.symm.trans hvc)
  subst hvr
  have hvs : v.shaped := by
    refine ⟨by omega, ?_⟩
    rw [hvl, hvv, hvn, Int.toNat_ofNat]
  refine ⟨h1, h2, hrn, hvn, hvv, PCOR_get_pcor_checked_eq sqrt r v hvs (by omega) pcor,
    PCOR_get_mcor_checked_eq sqrt r v hvs m pcor,
    ⟨_, PCOR_get_mcor_eq sqrt r v m pcor (by rw [hvn, hrn]) (by omega)⟩,
    PCOR_get_coef_checked_eq r v hrs hvs coef, PCOR_get_variance_checked_eq v hvs var,
    PCOR_get_lsqfit_checked_eq junk3 r v hrs hvs fit,
    PCOR_get_pcor_and_coef_checked_eq sqrt r v hrs hvs pcthresh pcor coef⟩

/-- Instance of C28: the fresh states for two reference vectors and one
voxel, with `REF_EPS = 1` and zero-filled fresh storage, and `m = 1`; the
checked reads do yield `none` out of range. -/
theorem extraction_index_safety_witness :
    (1 ≤ (2 : Int) ∧ 1 ≤ (1 : Int) ∧ (ex_fresh2 : PCOR_references ℚ).nref = 2 ∧
    (ex_vc (0:ℚ) 0 1).nref = 2 ∧ (ex_vc (0:ℚ) 0 1).nvox = 1 ∧
    PCOR_get_pcor_checked id ex_fresh2 (ex_vc (0:ℚ) 0 1) [7]
      = some (PCOR_get_pcor id ex_fresh2 (ex_vc (0:ℚ) 0 1) [7]) ∧
    PCOR_get_mcor_checked id ex_fresh2 (ex_vc (0:ℚ) 0 1) 1 [7]
      = some (PCOR_get_mcor id ex_fresh2 (ex_vc (0:ℚ) 0 1) 1 [7]) ∧
    (∃ out, PCOR_get_mcor id ex_fresh2 (ex_vc (0:ℚ) 0 1) 1 [7] = Outcome.returned [] out) ∧
    PCOR_get_coef_checked ex_fresh2 (ex_vc (0:ℚ) 0 1) [8]
      = some (PCOR_get_coef ex_fresh2 (ex_vc (0:ℚ) 0 1) [8]) ∧
    PCOR_get_variance_checked (ex_vc (0:ℚ) 0 1) [9]
      = some (PCOR_get_variance (ex_vc (0:ℚ) 0 1) [9]) ∧
    PCOR_get_lsqfit_checked (fun _ => 0) ex_fresh2 (ex_vc (0:ℚ) 0 1) [none, some [6]]
      = some (PCOR_get_lsqfit (fun _ => 0) ex_fresh2 (ex_vc (0:ℚ) 0 1) [none, some [6]]) ∧
    PCOR_get_pcor_and_coef_checked id ex_fresh2 (ex_vc (0:ℚ) 0 1) (1 / 2) [7] [8]
      = some (PCOR_get_pcor_and_coef id ex_fresh2 (ex_vc (0:ℚ) 0 1) (1 / 2) [7] [8])) ∧
    new_PCOR_references (1:ℚ) (fun _ => 0) 2 = some ex_fresh2 ∧
    new_PCOR_voxel_corr (1:ℚ) (fun _ => 0) 1 2 = some (ex_vc 0 0 1) ∧
    RCH_checked (ex_fresh2 : PCOR_references ℚ) 1 0 = some 0 ∧
    RCH_checked (ex_fresh2 : PCOR_references ℚ) 0 1 = none ∧
    RCH_checked (ex_fresh2 : PCOR_references ℚ) 2 2 = none ∧
    VCH_checked (ex_vc (0:ℚ) 0 1) 0 0 2 = some 1 ∧
    VCH_checked (ex_vc (0:ℚ) 0 1) 0 0 3 = none ∧
    VCH_checked (ex_vc (0:ℚ) 0 1) 0 1 0 = none :=
  ⟨extraction_index_safety id 1 (fun _ => 0) (fun _ => 0) (fun _ => 0) 1 2 ex_fresh2
      (ex_vc 0 0 1) rfl rfl 1 (by decide) (1 / 2) [7] [8] [9] [none, some [6]],
   rfl, rfl, rfl, rfl, rfl, rfl, rfl, rfl⟩

/-- C26 (counterexample): in the arithmetic of the program, for `nref = 2`,
`m = 1` and the last row `[0, 10000, 1]`, the residual energy is `1 > 0`,
`den = 100000001`, and the value `sqrt(1 - 1/den)`, a `double` just below
`1`, is stored in the `float` `pcor[0]` as exactly `1.0`. -/
theorem PCOR_get_mcor_stores_one :
    FP.lt (.fin 0) (VCH_fp (ex_vc_fp [0, 10000, 1]) 0 2) = true ∧
    PCOR_get_mcor_den_fp (ex_vc_fp [0, 10000, 1]) 0 1 = .fin 100000001 ∧
    FP.sqrt binary64 (FP.sub binary64 (.fin 1) (FP.div binary64 (.fin 1) (.fin 100000001)))
      = .fin (2251799802426249 / 2251799813685248) ∧
    (PCOR_get_mcor_fp (ex_ref_fp 2) (ex_vc_fp [0, 10000, 1]) 1 [.nan]).result
      = some [.fin 1] := by
  decide!

/-- C27 (counterexample): in the arithmetic of the program, for the `float`
`pcthresh = 2^64 > 1` the square `SQR(pcthresh)` overflows to `+inf`,
`thfac = inf / (1.0 - inf)` is a NaN, the test `SQR(num) > thfac*den` is
false, and the voxel with last row `[0, 1, 3]` gets `(0, 0)`, where the call
with `pcthresh = 0` gives it `(0.5, 1)`. -/
theorem PCOR_get_pcor_and_coef_overflow :
    FP.lt (.fin 1) (.fin (2 ^ 64)) = true ∧
    FP.cvt binary32 (.fin (2 ^ 64)) = .fin (2 ^ 64) ∧
    SQR_fp (.fin (2 ^ 64)) = .inf false ∧
    FP.lt (.fin 0) (VCH_fp (ex_vc_fp [0, 1, 3]) 0 2) = true ∧
    (PCOR_get_pcor_and_coef_fp (ex_ref_fp 2) (ex_vc_fp [0, 1, 3]) (.fin (2 ^ 64))
      [.nan] [.nan]).result = some ([.fin 0], [.fin 0]) ∧
    (PCOR_get_pcor_and_coef_fp (ex_ref_fp 2) (ex_vc_fp [0, 1, 3]) (.fin 0)
      [.nan] [.nan]).result = some ([.fin (1 / 2)], [.fin 1]) := by
  decide!

/-- C5 (counterexample): in the arithmetic of the program, for `nref = 3`,
`m = 2` and the last row `[0, 5/4096, 1, 1]`: case 2 of the switch adds the
two squares in `float`, where `1 + 25/2^24`, half way between two `float`s,
rounds to `1 + 24/2^24`, so `den = 2 + 24/2^24 = 4194307/2097152`; the generic
loop adds each square to the `double` `den` and gives
`2 + 25/2^24 = 33554457/16777216`.  The value stored is
`11863287/16777216`; with the `den` of the generic loop it would be the next
`float`, `1482911/2097152`. -/
theorem PCOR_get_mcor_unrolled_differs :
    PCOR_get_mcor_den_fp (ex_vc_fp [0, 5 / 4096, 1, 1]) 0 2 = .fin (4194307 / 2097152) ∧
    PCOR_get_mcor_loop_fp (ex_vc_fp [0, 5 / 4096, 1, 1]) 0 2
        (VCH_fp (ex_vc_fp [0, 5 / 4096, 1, 1]) 0 3) = .fin (33554457 / 16777216) ∧
    (PCOR_get_mcor_fp (ex_ref_fp 3) (ex_vc_fp [0, 5 / 4096, 1, 1]) 2 [.nan]).result
      = some [.fin (11863287 / 16777216)] ∧
    mcor_value_fp (VCH_fp (ex_vc_fp [0, 5 / 4096, 1, 1]) 0 3)
        (PCOR_get_mcor_loop_fp (ex_vc_fp [0, 5 / 4096, 1, 1]) 0 2
          (VCH_fp (ex_vc_fp [0, 5 / 4096, 1, 1]) 0 3)) = .fin (1482911 / 2097152) := by
  decide!

/-- A run of `PCOR_get_lsqfit` on the factor `[[2], [1, 4]]` and the last
row `[3, 8, 5]`: the coefficients are `8/4 = 2` for column `1` and
`(3 - 2·1)/2 = 1/2` for column `0`, whether or not column `0` is requested,
and they are the values of the recurrence of the specification. -/
theorem PCOR_get_lsqfit_example :
    (PCOR_get_lsqfit (fun _ => 9) ex_ref_tri (ex_vc (3:ℚ) 8 5) [some [7], some [7]]).result
      = some [some [1 / 2], some [2]] ∧
    (PCOR_get_lsqfit (fun _ => 9) ex_ref_tri (ex_vc (3:ℚ) 8 5) [none, some [7]]).result
      = some [none, some [2]] ∧
    (PCOR_get_lsqfit (fun _ => 9) ex_ref_tri (ex_vc (3:ℚ) 8 5) [some [7], none]).result
      = some [some [1 / 2], none] ∧
    fitCoef ex_ref_tri (ex_vc (3:ℚ) 8 5) 0 0 = 1 / 2 ∧
    fitCoef ex_ref_tri (ex_vc (3:ℚ) 8 5) 0 1 = 2 := by
  decide!

/-- The clamp `if n < 2 then 2 else if n > 20 then 20 else n` of the option
loop of `1dREMLfit`. -/
theorem REML_clamp_eq (n : Int) :
    (if n < 2 then 2 else if n > 20 then 20 else n) = max 2 (min 20 n) := by
  split
  · omega
  · split <;> omega

/-- The conversion `(int)` of a `double` whose value is an integer `n` of the
range of `int` is `n`. -/
theorem C_int_cast_intCast (n : Int) (h1 : -2 ^ 31 ≤ n) (h2 : n < 2 ^ 31) :
    C_int_cast (.fin (n : ℚ)) = some n := by
  unfold C_int_cast
  simp only [Rat.num_intCast, Rat.den_intCast, Nat.cast_one, Int.tdiv_one]
  rw [if_pos ⟨h1, by omega⟩]

/-- The values of an option on a command line with one more option in
front. -/
theorem REML_values_cons (name : String) (p : String × String) (opts : List (String × String)) :
    REML_values name (p :: opts)
      = if p.1 = name then p.2 :: REML_values name opts else REML_values name opts := by
  unfold REML_values
  by_cases h : p.1 = name
  · rw [List.filter_cons_of_pos (by simpa using h), List.map_cons, if_pos h]
  · rw [List.filter_cons_of_neg (by simpa using h), if_neg h]

/-- The count of an option on a command line with one more option in front:
that option only changes the default. -/
theorem REML_count_cons (nval : String → Int) (name : String) (dflt : Int)
    (p : String × String) (opts : List (String × String)) :
    REML_count nval name dflt (p :: opts)
      = REML_count nval name (if p.1 = name then max 2 (min 20 (nval p.2)) else dflt) opts := by
  unfold REML_count
  rw [REML_values_cons]
  by_cases h : p.1 = name
  · rw [if_pos h, if_pos h, List.getLast?_cons]
    cases (REML_values name opts).getLast? <;> rfl
  · rw [if_neg h, if_neg h]

/-- The largest `rho` on a command line with one more option in front. -/
theorem REML_rhomax_cons {E I : Type} (env : REML_env E I) (dflt : FP)
    (p : String × String) (opts : List (String × String)) :
    REML_rhomax env dflt (p :: opts)
      = REML_rhomax env
          (if p.1 = "-MAXrho" then REML_MAXrho env.MTYPE (env.strtod p.2) else dflt) opts := by
  unfold REML_rhomax
  rw [REML_values_cons]
  by_cases h : p.1 = "-MAXrho"
  · rw [if_pos h, if_pos h, List.getLast?_cons]
    cases (REML_values "-MAXrho" opts).getLast? <;> rfl
  · rw [if_neg h, if_neg h]

section REMLSteps

variable {E I : Type}

/-- One `-MAXrho` option. -/
theorem REML_option_loop_MAXrho (env : REML_env E I) (v : String) (rest : List String)
    (vars : REML_vars E) :
    REML_option_loop env ("-MAXrho" :: v :: rest) vars
      = REML_option_loop env rest
          { vars with rhomax := REML_MAXrho env.MTYPE (env.strtod v) } := by
  rw [REML_option_loop]
  rw [if_neg (by decide), if_pos rfl]

/-- One `-Nrho` option whose value has an `int`: `rhonum` becomes that `int`,
clamped to `2..20`. -/
theorem REML_option_loop_Nrho (env : REML_env E I) (v : String) (rest : List String)
    (vars : REML_vars E) (n : Int) (hn : C_int_cast (env.strtod v) = some n) :
    REML_option_loop env ("-Nrho" :: v :: rest) vars
      = REML_option_loop env rest { vars with rhonum := max 2 (min 20 n) } := by
  rw [← REML_clamp_eq]
  rw [REML_option_loop]
  rw [if_neg (by decide), if_neg (by decide), if_pos rfl]
  simp only [hn]

/-- One `-Ndel` option whose value has an `int`: `delnum` becomes that `int`,
clamped to `2..20`. -/
theorem REML_option_loop_Ndel (env : REML_env E I) (v : String) (rest : List String)
    (vars : REML_vars E) (n : Int) (hn : C_int_cast (env.strtod v) = some n) :
    REML_option_loop env ("-Ndel" :: v :: rest) vars
      = REML_option_loop env rest { vars with delnum := max 2 (min 20 n) } := by
  rw [← REML_clamp_eq]
  rw [REML_option_loop]
  rw [if_neg (by decide), if_neg (by decide), if_neg (by decide), if_pos rfl]
  simp only [hn]

/-- One `-matrix` option whose file can be read, when none was read before. -/
theorem REML_option_loop_matrix (env : REML_env E I) (v : String) (rest : List String)
    (vars : REML_vars E) (nel : E) (h0 : vars.nelmat = none)
    (hm : env.read_matrix v = some nel) :
    REML_option_loop env ("-matrix" :: v :: rest) vars
      = REML_option_loop env rest { vars with nelmat := some nel } := by
  rw [REML_option_loop]
  rw [if_neg (by decide), if_neg (by decide), if_neg (by decide), if_neg (by decide), if_pos rfl]
  simp only [h0, Option.isSome_none, Bool.false_eq_true, if_false, hm]

/-- The option loop stops at an argument that does not start with `-`. -/
theorem REML_option_loop_stop (env : REML_env E I) (f : String) (rest : List String)
    (vars : REML_vars E) (hf : f.toList.head? ≠ some '-') :
    REML_option_loop env (f :: rest) vars = Sum.inr (vars, f :: rest) := by
  cases rest <;> rw [REML_option_loop, if_pos hf]

/-- The option loop on a command line of options `-MAXrho`, `-Nrho`, `-Ndel`
and `-matrix` with their values, followed by a file name: it ends at the file
name, each variable holding what the last occurrence of its option gives. -/
theorem REML_option_loop_opts (env : REML_env E I) (nval : String → Int) (m f : String)
    (extra : List String) (nel : E) (hm : env.read_matrix m = some nel)
    (hf : f.toList.head? ≠ some '-') :
    ∀ (opts : List (String × String)) (vars : REML_vars E),
      (∀ p ∈ opts, p.1 = "-MAXrho" ∨ p.1 = "-Nrho" ∨ p.1 = "-Ndel" ∨ p.1 = "-matrix") →
      (∀ p ∈ opts, p.1 = "-Nrho" ∨ p.1 = "-Ndel" →
        env.strtod p.2 = .fin (nval p.2 : ℚ) ∧ -2 ^ 31 ≤ nval p.2 ∧ nval p.2 < 2 ^ 31) →
      (REML_values "-matrix" opts = [] ∨
        (vars.nelmat = none ∧ REML_values "-matrix" opts = [m])) →
      REML_option_loop env (REML_argv opts ++ f :: extra) vars
        = Sum.inr
            ({ rhomax := REML_rhomax env vars.rhomax opts
               rhonum := REML_count nval "-Nrho" vars.rhonum opts
               delnum := REML_count nval "-Ndel" vars.delnum opts
               nelmat := if REML_values "-matrix" opts = [] then vars.nelmat else some nel },
             f :: extra) := by
  intro opts
  induction opts with
  | nil =>
    intro vars _ _ _
    rw [REML_argv, List.nil_append, REML_option_loop_stop env f extra vars hf]
    rfl
  | cons p opts ih =>
    intro vars hnames hint hmat
    obtain ⟨a, v⟩ := p
    have hn := hnames (a, v) (List.mem_cons_self _ _)
    have hnames1 : ∀ p ∈ opts, p.1 = "-MAXrho" ∨ p.1 = "-Nrho" ∨ p.1 = "-Ndel" ∨ p.1 = "-matrix" :=
      fun p hp => hnames p (List.mem_cons_of_mem _ hp)
    have hint1 : ∀ p ∈ opts, p.1 = "-Nrho" ∨ p.1 = "-Ndel" →
        env.strtod p.2 = .fin (nval p.2 : ℚ) ∧ -2 ^ 31 ≤ nval p.2 ∧ nval p.2 < 2 ^ 31 :=
      fun p hp => hint p (List.mem_cons_of_mem _ hp)
    rw [REML_argv, List.cons_append, List.cons_append, REML_rhomax_cons, REML_count_cons,
      REML_count_cons, REML_values_cons]
    rw [REML_values_cons] at hmat
    dsimp only at hn hmat ⊢
    rcases hn with h | h | h | h
    · subst h
      rw [if_neg (show ¬ ("-MAXrho" : String) = "-matrix" by decide)] at hmat
      rw [REML_option_loop_MAXrho, if_pos rfl,
        if_neg (show ¬ ("-MAXrho" : String) = "-Nrho" by decide),
        if_neg (show ¬ ("-MAXrho" : String) = "-Ndel" by decide),
        if_neg (show ¬ ("-MAXrho" : String) = "-matrix" by decide)]
      exact ih { vars with rhomax := REML_MAXrho env.MTYPE (env.strtod v) } hnames1 hint1 hmat
    · subst h
      obtain ⟨e1, e2, e3⟩ := hint ("-Nrho", v) (List.mem_cons_self _ _) (Or.inl rfl)
      rw [if_neg (show ¬ ("-Nrho" : String) = "-matrix" by decide)] at hmat
      rw [REML_option_loop_Nrho env v _ vars (nval v) (by rw [e1]; exact C_int_cast_intCast _ e2 e3),
        if_neg (show ¬ ("-Nrho" : String) = "-MAXrho" by decide), if_pos rfl,
        if_neg (show ¬ ("-Nrho" : String) = "-Ndel" by decide),
        if_neg (show ¬ ("-Nrho" : String) = "-matrix" by decide)]
      exact ih { vars with rhonum := max 2 (min 20 (nval v)) } hnames1 hint1 hmat
    · subst h
      obtain ⟨e1, e2, e3⟩ := hint ("-Ndel", v) (List.mem_cons_self _ _) (Or.inr rfl)
      rw [if_neg (show ¬ ("-Ndel" : String) = "-matrix" by decide)] at hmat
      rw [REML_option_loop_Ndel env v _ vars (nval v) (by rw [e1]; exact C_int_cast_intCast _ e2 e3),
        if_neg (show ¬ ("-Ndel" : String) = "-MAXrho" by decide),
        if_neg (show ¬ ("-Ndel" : String) = "-Nrho" by decide), if_pos rfl,
        if_neg (show ¬ ("-Ndel" : String) = "-matrix" by decide)]
      exact ih { vars with delnum := max 2 (min 20 (nval v)) } hnames1 hint1 hmat
    · subst h
      rw [if_pos rfl] at hmat
      rcases hmat with hmat | ⟨h0, hmat⟩
      · exact absurd hmat (List.cons_ne_nil _ _)
      · have hv : v = m := (List.cons.inj hmat).1
        have hnil : REML_values "-matrix" opts = [] := (List.cons.inj hmat).2
        subst hv
        rw [REML_option_loop_matrix env v _ vars nel h0 hm,
          if_neg (show ¬ ("-matrix" : String) = "-MAXrho" by decide),
          if_neg (show ¬ ("-matrix" : String) = "-Nrho" by decide),
          if_neg (show ¬ ("-matrix" : String) = "-Ndel" by decide), if_pos rfl,
          if_neg (List.cons_ne_nil _ _)]
        have := ih { vars with nelmat := some nel } hnames1 hint1 (Or.inl hnil)
        rw [this, hnil]
        rfl

/-- C22 (amended): on every command line of `1dREMLfit` made of options
`-MAXrho`, `-Nrho`, `-Ndel`, `-matrix` with their values, in any number and
order, with exactly one `-matrix`, followed by a file name, when the two files
can be read and pass the checks and the value of every `-Nrho` and `-Ndel` is
read by `strtod` as the integer it denotes, an integer of the range of `int`,
`main` reaches `REML_setup` with `rhonum` the integer `nr` of the last `-Nrho`
clamped to `2..20` (`7` without `-Nrho`) and `delnum` the integer `nd` of the
last `-Ndel` clamped to `2..20` (`10` without `-Ndel`); so `rhonum` (`delnum`)
is the number given exactly when that number lies in `2..20`. -/
theorem REML_main_Nrho_Ndel (env : REML_env E I) (nval : String → Int) (prog m f : String)
    (opts : List (String × String)) (extra : List String) (nel : E) (inim : I)
    (hnames : ∀ p ∈ opts, p.1 = "-MAXrho" ∨ p.1 = "-Nrho" ∨ p.1 = "-Ndel" ∨ p.1 = "-matrix")
    (hmat : REML_values "-matrix" opts = [m]) (hm : env.read_matrix m = some nel)
    (hint : ∀ p ∈ opts, p.1 = "-Nrho" ∨ p.1 = "-Ndel" →
      env.strtod p.2 = .fin (nval p.2 : ℚ) ∧ -2 ^ 31 ≤ nval p.2 ∧ nval p.2 < 2 ^ 31)
    (hf : f.toList.head? ≠ some '-') (hr : env.mri_read_1D f = some inim)
    (hc : env.checks nel inim = none) :
    REML_main env (prog :: (REML_argv opts ++ f :: extra))
      = REML_result.REML_setup (REML_count nval "-Nrho" 7 opts)
          (REML_rhomax env (FP.cvt env.MTYPE (FP.round binary64 (7 / 10))) opts)
          (REML_count nval "-Ndel" 10 opts) ∧
    (∀ v, (REML_values "-Nrho" opts).getLast? = some v →
      REML_count nval "-Nrho" 7 opts = max 2 (min 20 (nval v)) ∧
      (REML_count nval "-Nrho" 7 opts = nval v ↔ 2 ≤ nval v ∧ nval v ≤ 20)) ∧
    (∀ v, (REML_values "-Ndel" opts).getLast? = some v →
      REML_count nval "-Ndel" 10 opts = max 2 (min 20 (nval v)) ∧
      (REML_count nval "-Ndel" 10 opts = nval v ↔ 2 ≤ nval v ∧ nval v ≤ 20)) ∧
    ((REML_values "-Nrho" opts) = [] → REML_count nval "-Nrho" 7 opts = 7) ∧
    ((REML_values "-Ndel" opts) = [] → REML_count nval "-Ndel" 10 opts = 10) := by
  refine ⟨?_, ?_, ?_, ?_, ?_⟩
  · have hhelp : ¬ ((prog :: (REML_argv opts ++ f :: extra)).length < 2 ∨
        (prog :: (REML_argv opts ++ f :: extra)).getD 1 "" = "-help") := by
      cases opts with
      | nil => exact absurd hmat (by simp [REML_values])
      | cons p opts =>
        have hn := hnames p (List.mem_cons_self _ _)
        simp only [REML_argv, List.cons_append, List.length_cons, List.getD_cons_succ,
          List.getD_cons_zero]
        intro h
        rcases h with h | h
        · omega
        · rw [h] at hn
          revert hn
          decide
    unfold REML_main
    rw [if_neg hhelp]
    simp only [List.drop_succ_cons, List.drop_zero]
    rw [REML_option_loop_opts env nval m f extra nel hm hf opts _ hnames hint (Or.inr ⟨rfl, hmat⟩)]
    rw [hmat, if_neg (List.cons_ne_nil _ _)]
    simp only [hr, hc]
  · intro v hv
    unfold REML_count
    rw [hv]
    dsimp only
    exact ⟨rfl, by omega⟩
  · intro v hv
    unfold REML_count
    rw [hv]
    dsimp only
    exact ⟨rfl, by omega⟩
  · intro h
    unfold REML_count
    rw [h]
    rfl
  · intro h
    unfold REML_count
    rw [h]
    rfl

end REMLSteps

/-- Instance of C22 (amended) in the example environment: the command line
`-Nrho 3 -matrix X.xmat.1D -MAXrho 1 -Nrho 5 -Ndel 50 y.1D` reaches
`REML_setup` with `rhonum = 5`, `delnum = 20` and `rhomax = 0.9`. -/
theorem REML_main_Nrho_Ndel_witness :
    (REML_main ex_REML_env ("1dREMLfit" :: (REML_argv ex_REML_opts ++ "y.1D" :: []))
      = REML_result.REML_setup (REML_count decimal_value "-Nrho" 7 ex_REML_opts)
          (REML_rhomax ex_REML_env
            (FP.cvt ex_REML_env.MTYPE (FP.round binary64 (7 / 10))) ex_REML_opts)
          (REML_count decimal_value "-Ndel" 10 ex_REML_opts) ∧
    (∀ v, (REML_values "-Nrho" ex_REML_opts).getLast? = some v →
      REML_count decimal_value "-Nrho" 7 ex_REML_opts = max 2 (min 20 (decimal_value v)) ∧
      (REML_count decimal_value "-Nrho" 7 ex_REML_opts = decimal_value v ↔
        2 ≤ decimal_value v ∧ decimal_value v ≤ 20)) ∧
    (∀ v, (REML_values "-Ndel" ex_REML_opts).getLast? = some v →
      REML_count decimal_value "-Ndel" 10 ex_REML_opts = max 2 (min 20 (decimal_value v)) ∧
      (REML_count decimal_value "-Ndel" 10 ex_REML_opts = decimal_value v ↔
        2 ≤ decimal_value v ∧ decimal_value v ≤ 20)) ∧
    ((REML_values "-Nrho" ex_REML_opts) = [] →
      REML_count decimal_value "-Nrho" 7 ex_REML_opts = 7) ∧
    ((REML_values "-Ndel" ex_REML_opts) = [] →
      REML_count decimal_value "-Ndel" 10 ex_REML_opts = 10)) ∧
    REML_argv ex_REML_opts ++ "y.1D" :: []
      = ["-Nrho", "3", "-matrix", "X.xmat.1D", "-MAXrho", "1", "-Nrho", "5", "-Ndel", "50",
          "y.1D"] ∧
    REML_main ex_REML_env ["1dREMLfit", "-Nrho", "3", "-matrix", "X.xmat.1D", "-MAXrho", "1",
        "-Nrho", "5", "-Ndel", "50", "y.1D"]
      = REML_result.REML_setup 5 (FP.round binary64 (9 / 10)) 20 :=
  ⟨REML_main_Nrho_Ndel ex_REML_env decimal_value "1dREMLfit" "X.xmat.1D" "y.1D" ex_REML_opts []
      () () (by decide) (by decide) rfl (by decide!) (by decide) rfl rfl,
    by decide, by decide!⟩

/-- C22 (counterexample): with `-Nrho 1 -Ndel 50` the numbers given are `1`
and `50`, and `REML_setup` is called with `rhonum = 2` and `delnum = 20`. -/
theorem REML_main_Nrho_Ndel_not_given :
    ex_REML_env.strtod "1" = .fin 1 ∧ C_int_cast (.fin 1) = some 1 ∧
    ex_REML_env.strtod "50" = .fin 50 ∧ C_int_cast (.fin 50) = some 50 ∧
    REML_main ex_REML_env
        ["1dREMLfit", "-matrix", "X.xmat.1D", "-Nrho", "1", "-Ndel", "50", "y.1D"]
      = REML_result.REML_setup 2 (FP.round binary64 (7 / 10)) 20 := by
  decide!

/-- With `-Nrho 10000000000` the value `strtod` returns, the `double`
`1e10`, has no `int`: the conversion `(int)` is undefined, and so is the
run. -/
theorem REML_main_Nrho_no_int :
    ex_REML_env.strtod "10000000000" = .fin 10000000000 ∧
    C_int_cast (.fin 10000000000) = none ∧
    REML_main ex_REML_env
        ["1dREMLfit", "-matrix", "X.xmat.1D", "-Nrho", "10000000000", "y.1D"]
      = REML_result.undefined := by
  decide!

section REMLRange

variable {E I : Type}

/-- The option loop of `1dREMLfit` keeps `rhonum` and `delnum` in `2..20`,
and when the program ends in the loop it has not reached `REML_setup`. -/
theorem REML_option_loop_range (env : REML_env E I) (n : Nat) :
    ∀ (args : List String) (vars : REML_vars E), args.length ≤ n →
      (2 ≤ vars.rhonum ∧ vars.rhonum ≤ 20 ∧ 2 ≤ vars.delnum ∧ vars.delnum ≤ 20) →
      (∀ vars1 rest, REML_option_loop env args vars = Sum.inr (vars1, rest) →
        2 ≤ vars1.rhonum ∧ vars1.rhonum ≤ 20 ∧ 2 ≤ vars1.delnum ∧ vars1.delnum ≤ 20) ∧
      (∀ a b c, REML_option_loop env args vars ≠ Sum.inl (REML_result.REML_setup a b c)) := by
  induction n with
  | zero =>
    intro args vars hlen hv
    have : args = [] := List.length_eq_zero.mp (by omega)
    subst this
    rw [REML_option_loop]
    refine ⟨fun vars1 rest h => ?_, fun a b c h => Sum.noConfusion h⟩
    cases h
    exact hv
  | succ n ih =>
    intro args vars hlen hv
    match args, hlen with
    | [], _ =>
      rw [REML_option_loop]
      refine ⟨fun vars1 rest h => ?_, fun a b c h => Sum.noConfusion h⟩
      cases h
      exact hv
    | [a], _ =>
      rw [REML_option_loop]
      split
      · refine ⟨fun vars1 rest h => ?_, fun a b c h => Sum.noConfusion h⟩
        cases h
        exact hv
      repeat' split
      all_goals
        refine ⟨fun vars1 rest h => Sum.noConfusion h, fun a b c h => ?_⟩
        cases h
    | a :: v :: rest1, hlen =>
      have hl : rest1.length ≤ n := by simp at hlen; omega
      rw [REML_option_loop]
      split
      · refine ⟨fun vars1 rest h => ?_, fun a b c h => Sum.noConfusion h⟩
        cases h
        exact hv
      split
      · refine ih rest1 _ hl ?_
        exact hv
      split
      · split
        · refine ⟨fun vars1 rest h => Sum.noConfusion h, fun a b c h => ?_⟩
          cases h
        · refine ih rest1 _ hl ?_
          rw [REML_clamp_eq]
          dsimp only
          exact ⟨by omega, by omega, hv.2.2.1, hv.2.2.2⟩
      split
      · split
        · refine ⟨fun vars1 rest h => Sum.noConfusion h, fun a b c h => ?_⟩
          cases h
        · refine ih rest1 _ hl ?_
          rw [REML_clamp_eq]
          dsimp only
          exact ⟨hv.1, hv.2.1, by omega, by omega⟩
      split
      · split
        · refine ⟨fun vars1 rest h => Sum.noConfusion h, fun a b c h => ?_⟩
          cases h
        · split
          · refine ⟨fun vars1 rest h => Sum.noConfusion h, fun a b c h => ?_⟩
            cases h
          · refine ih rest1 _ hl ?_
            exact hv
      · refine ⟨fun vars1 rest h => Sum.noConfusion h, fun a b c h => ?_⟩
        cases h

/-- Whatever the command line, when `main` of `1dREMLfit` reaches
`REML_setup` the arguments `rhonum` and `delnum` lie in `2..20`. -/
theorem REML_main_range (env : REML_env E I) (argv : List String) (rhonum delnum : Int)
    (rhomax : FP) (h : REML_main env argv = REML_result.REML_setup rhonum rhomax delnum) :
    2 ≤ rhonum ∧ rhonum ≤ 20 ∧ 2 ≤ delnum ∧ delnum ≤ 20 := by
  have hrange := REML_option_loop_range env _ (argv.drop 1)
    { rhomax := FP.cvt env.MTYPE (FP.round binary64 (7 / 10)), rhonum := 7, delnum := 10,
      nelmat := none } le_rfl
    (by simp : (2:Int) ≤ 7 ∧ (7:Int) ≤ 20 ∧ (2:Int) ≤ 10 ∧ (10:Int) ≤ 20)
  unfold REML_main at h
  split at h
  · exact REML_result.noConfusion h
  split at h
  · rename_i r hr
    subst h
    exact absurd hr (hrange.2 _ _ _)
  · rename_i vars rest hloop
    have hr := hrange.1 vars rest hloop
    repeat' split at h
    all_goals first | exact REML_result.noConfusion h | skip
    all_goals
      cases h
      exact hr

end REMLRange

end AfniPcor
